import Mathlib

/-! kubeplugin `export.go`: a shallow embedding and its verified properties

The program (`scripts/kubeplugin-modules/export.go`) runs `kubectl top`, parses the
tabular text it prints (`parseOutput`) and re-emits it as CSV (`exportCSV`) or JSON
(`exportJSON`).

Modelling conventions
* A Go `string` is modelled by `GoString`, the list of its runes (Unicode code points):
  the texts are UTF-8 texts.  Where the program hands a string to an output stream it is
  UTF-8 encoded into bytes (`utf8.Encode`), and buffering is accounted for in bytes.
  A string that is not valid UTF-8 is treated in a way of its own by `encoding/json`
  only; its encoder is therefore modelled on the bytes as well (`json.appendString`,
  `exportJSONBytes`), and on valid UTF-8 the two models agree (`exportJSONBytes_bytes`).
* A Go slice `[]Metric` is `GoSlice Metric`: the `nil` slice and an allocated slice are
  different values (the JSON encoder tells them apart).
* A run-time panic (index or slice bound out of range) is `none`.
* The library functions of the Go standard library that the program calls
  (`strings.TrimSpace`, `strings.Split`, `strings.Fields`, `bufio.Writer`,
  `csv.Writer`, `json.Encoder`) are modelled after their Go sources.
* The external command is part of the host (`exec.Host`): for every command the host
  gives the text printed and the error of `(*Cmd).Output`, and it records the commands
  it was asked to run.  `main` starts where `flag.Parse()` has set the three flag values.

The file has three parts: the definitions (the embedding, then the vocabulary the
statements use), the lemmas, and the theorems about `parseOutput`, `exportCSV` and
`exportJSON`.
-/

namespace Kubeplugin

/-! ## Part 1: the embedding -/

/-- A Go string, as the list of its runes. -/
abbrev GoString := List Char

/-- A Go slice: `nil`, or an allocated slice holding the listed elements. -/
inductive GoSlice (α : Type) where
  | nil : GoSlice α
  | alloc : List α → GoSlice α
  deriving DecidableEq, Repr

namespace GoSlice

/-- The elements of a slice, in order (`nil` has none). -/
def toList {α : Type} : GoSlice α → List α
  | nil => []
  | alloc xs => xs

/-- Go `len(s)`. -/
def len {α : Type} (s : GoSlice α) : Nat := s.toList.length

end GoSlice

namespace unicode

/-- Go `unicode.IsSpace`: the Latin-1 spaces `\t \n \v \f \r`, space, U+0085, U+00A0, and
the other code points of the Unicode `White_Space` property. -/
def IsSpace (r : Char) : Bool :=
  let n := r.toNat
  (9 ≤ n && n ≤ 13) || n == 0x20 || n == 0x85 || n == 0xA0 || n == 0x1680 ||
    (0x2000 ≤ n && n ≤ 0x200A) || n == 0x2028 || n == 0x2029 || n == 0x202F ||
    n == 0x205F || n == 0x3000

end unicode

namespace strings

/-- Go `strings.TrimSpace`: the string without its leading and trailing white space
(as `unicode.IsSpace` defines it). -/
def TrimSpace (s : GoString) : GoString :=
  ((s.dropWhile unicode.IsSpace).reverse.dropWhile unicode.IsSpace).reverse

/-- Go `strings.Split(s, sep)` for a separator `sep` of one rune: the substrings between
the occurrences of the separator.  The result always has `1 +` (number of separators)
elements; for the empty string it is the one-element list holding the empty string. -/
def Split (s : GoString) (sep : Char) : List GoString :=
  match s with
  | [] => [[]]
  | c :: cs =>
    if c = sep then [] :: Split cs sep
    else
      match Split cs sep with
      | [] => [[c]]
      | l :: ls => (c :: l) :: ls

/-- The scanning loop of Go `strings.Fields`: `cur` holds (reversed) the runes of the field
being read, empty while white space is being skipped. -/
def FieldsLoop : GoString → GoString → List GoString
  | [], cur => if cur.isEmpty then [] else [cur.reverse]
  | c :: cs, cur =>
    if unicode.IsSpace c then
      if cur.isEmpty then FieldsLoop cs [] else cur.reverse :: FieldsLoop cs []
    else FieldsLoop cs (c :: cur)

/-- Go `strings.Fields`: the maximal runs of non-space runes of `s`, in order. -/
def Fields (s : GoString) : List GoString := FieldsLoop s []

end strings

/-- The record type `Metric` of the program. -/
structure Metric where
  Resource : GoString
  Namespace : GoString
  Name : GoString
  CPU : GoString
  Memory : GoString
  deriving DecidableEq, Repr

/-- Go slice expression `s[1:]` on the list of lines: it panics when `len(s) < 1`. -/
def sliceFrom1 {α : Type} : List α → Option (List α)
  | [] => none
  | _ :: rest => some rest

/-- The body of the `for _, line := range lines` loop of `parseOutput`, with the slice
`metrics` built so far.  The index expressions `fields[0..2]` panic when out of range. -/
def parseLoop (resourceType namespace_ : GoString) :
    List GoString → List Metric → Option (List Metric)
  | [], metrics => some metrics
  | line :: rest, metrics =>
    let fields := strings.Fields line
    if fields.length < 3 then
      parseLoop resourceType namespace_ rest metrics
    else
      match fields.get? 0, fields.get? 1, fields.get? 2 with
      | some f0, some f1, some f2 =>
        let metric : Metric :=
          { Resource := resourceType, Namespace := [], Name := f0, CPU := f1, Memory := f2 }
        let metric : Metric :=
          if resourceType = "pod".toList then { metric with Namespace := namespace_ }
          else { metric with Namespace := "-".toList }
        parseLoop resourceType namespace_ rest (metrics ++ [metric])
      | _, _, _ => none

/-- The function `parseOutput` of the program: trim the text, split it into lines, drop the
first line, and turn every line of at least three fields into a record.  `none` is a
run-time panic. -/
def parseOutput (output resourceType namespace_ : GoString) : Option (GoSlice Metric) :=
  match sliceFrom1 (strings.Split (strings.TrimSpace output) '\n') with
  | none => none
  | some lines =>
    match parseLoop resourceType namespace_ lines [] with
    | none => none
    | some metrics => some (GoSlice.alloc metrics)

/-! ### Bytes, errors and output streams -/

/-- A byte, as a natural number below 256. -/
abbrev Byte := Nat

namespace utf8

/-- The UTF-8 encoding of one rune (Go `utf8.AppendRune`). -/
def EncodeRune (r : Char) : List Byte :=
  let n := r.toNat
  if n ≤ 0x7F then [n]
  else if n ≤ 0x7FF then [0xC0 + n / 64, 0x80 + n % 64]
  else if n ≤ 0xFFFF then [0xE0 + n / 4096, 0x80 + n / 64 % 64, 0x80 + n % 64]
  else [0xF0 + n / 262144, 0x80 + n / 4096 % 64, 0x80 + n / 64 % 64, 0x80 + n % 64]

/-- The bytes of a string: the UTF-8 encodings of its runes, one after the other. -/
def Encode : GoString → List Byte
  | [] => []
  | r :: rs => EncodeRune r ++ Encode rs

end utf8

/-- A Go `error` value, by the text its `Error()` method returns. -/
structure GoError where
  text : GoString
  deriving DecidableEq, Repr

namespace io

/-- Go `io.ErrShortWrite`. -/
def ErrShortWrite : GoError := ⟨"short write".toList⟩

end io

/-- An output stream such as `os.Stdout`: the bytes it has accepted, how many more bytes it
accepts before it rejects a write (`none`: it never rejects), and the error it reports when
it does. -/
structure Stream where
  written : List Byte
  room : Option Nat
  failure : GoError
  deriving DecidableEq, Repr

/-- The method `Write` of the stream (Go `os.File.Write`): the stream after the call, the
number of bytes written and the error.  The error is non-nil whenever fewer bytes were
written than asked. -/
def Stream.Write (f : Stream) (p : List Byte) : Stream × Nat × Option GoError :=
  match f.room with
  | none => ({ f with written := f.written ++ p }, p.length, none)
  | some k =>
    if p.length ≤ k then
      ({ f with written := f.written ++ p, room := some (k - p.length) }, p.length, none)
    else
      ({ f with written := f.written ++ p.take k, room := some 0 }, k, some f.failure)

/-! ### `bufio.Writer` -/

namespace bufio

/-- Go `bufio.defaultBufSize`. -/
def defaultBufSize : Nat := 4096

/-- Go `bufio.Writer`: the sticky error `err`, the buffered bytes `buf[0:n]` (here `buf`),
the size of the buffer and the underlying writer. -/
structure Writer where
  err : Option GoError
  buf : List Byte
  size : Nat
  wr : Stream
  deriving DecidableEq, Repr

/-- Go `bufio.NewWriter`. -/
def NewWriter (w : Stream) : Writer :=
  { err := none, buf := [], size := defaultBufSize, wr := w }

namespace Writer

/-- Go `(*Writer).Available`: the unused bytes of the buffer. -/
def Available (b : Writer) : Nat := b.size - b.buf.length

/-- Go `(*Writer).Buffered`. -/
def Buffered (b : Writer) : Nat := b.buf.length

/-- Go `(*Writer).Flush`: hand the buffered bytes to the underlying writer.  A failure is
kept in `err`, with the bytes that were not written left in the buffer. -/
def Flush (b : Writer) : Writer × Option GoError :=
  match b.err with
  | some e => (b, some e)
  | none =>
    if b.buf.length = 0 then (b, none)
    else
      let r := b.wr.Write b.buf
      let n := r.2.1
      let err := if n < b.buf.length ∧ r.2.2 = none then some io.ErrShortWrite else r.2.2
      match err with
      | some e => ({ b with wr := r.1, buf := b.buf.drop n, err := some e }, some e)
      | none => ({ b with wr := r.1, buf := [] }, none)

/-- Go `(*Writer).WriteByte`. -/
def WriteByte (b : Writer) (c : Byte) : Writer × Option GoError :=
  match b.err with
  | some e => (b, some e)
  | none =>
    if b.Available ≤ 0 then
      let b1 := b.Flush.1
      match b.Flush.2 with
      | some _ => (b1, b1.err)
      | none => ({ b1 with buf := b1.buf ++ [c] }, none)
    else ({ b with buf := b.buf ++ [c] }, none)

/-- The termination measure of the loop of `WriteString`: nothing is left to do once the
error is set; otherwise the bytes still to write count, and a non-empty buffer costs one
more round. -/
def loopMeasure (b : Writer) (s : List Byte) : Nat :=
  match b.err with
  | some _ => 0
  | none => 2 * s.length + (if b.buf.length = 0 then 1 else 2)

/-- The loop `for len(s) > b.Available() && b.err == nil` of Go `(*Writer).WriteString`, run
for at most `fuel` rounds; it returns the writer and the part of `s` not yet handled.  With
an empty buffer the string goes straight to the underlying writer (an `os.File` is an
`io.StringWriter`); otherwise the buffer is filled up and flushed. -/
def WriteStringLoopFuel : Nat → Writer → List Byte → Writer × List Byte
  | 0, b, s => (b, s)
  | fuel + 1, b, s =>
    if s.length > b.Available ∧ b.err = none then
      if b.Buffered = 0 then
        let r := b.wr.Write s
        WriteStringLoopFuel fuel { b with wr := r.1, err := r.2.2 } (s.drop r.2.1)
      else
        let n := min s.length b.Available
        let b1 : Writer := { b with buf := b.buf ++ s.take n }
        WriteStringLoopFuel fuel b1.Flush.1 (s.drop n)
    else (b, s)

/-- The loop of `WriteString`, with the fuel its measure asks for (`WriteStringLoop_eq`
below shows that it satisfies the equation of the loop, so the fuel never runs out). -/
def WriteStringLoop (b : Writer) (s : List Byte) : Writer × List Byte :=
  WriteStringLoopFuel (loopMeasure b s + 1) b s

/-- Go `(*Writer).WriteString`, on the bytes of the string. -/
def WriteString (b : Writer) (s : List Byte) : Writer × Option GoError :=
  let r := WriteStringLoop b s
  match r.1.err with
  | some e => (r.1, some e)
  | none => ({ r.1 with buf := r.1.buf ++ r.2.take r.1.Available }, none)

/-- Go `(*Writer).WriteRune`: a rune below `utf8.RuneSelf` is written as a byte; for the
others the buffer is flushed first when fewer than `utf8.UTFMax` bytes are free. -/
def WriteRune (b : Writer) (r : Char) : Writer × Option GoError :=
  if r.toNat < 0x80 then b.WriteByte r.toNat
  else
    match b.err with
    | some e => (b, some e)
    | none =>
      if b.Available < 4 then
        let b1 := b.Flush.1
        match b1.err with
        | some e => (b1, some e)
        | none =>
          if b1.Available < 4 then b1.WriteString (utf8.EncodeRune r)
          else ({ b1 with buf := b1.buf ++ utf8.EncodeRune r }, none)
      else ({ b with buf := b.buf ++ utf8.EncodeRune r }, none)

end Writer

/-- The Go idiom `if err := f(); err != nil { return err }; g()` on a buffered writer. -/
def andThen (f g : Writer → Writer × Option GoError) (b : Writer) :
    Writer × Option GoError :=
  match (f b).2 with
  | some e => ((f b).1, some e)
  | none => g (f b).1

end bufio

/-! ### `encoding/csv` and `exportCSV` -/

namespace csv

/-- Go `csv.Writer`: the field delimiter, the line-ending switch and the buffered writer. -/
structure Writer where
  Comma : Char
  UseCRLF : Bool
  w : bufio.Writer
  deriving DecidableEq, Repr

/-- Go `csv.NewWriter`. -/
def NewWriter (w : Stream) : Writer :=
  { Comma := ',', UseCRLF := false, w := bufio.NewWriter w }

/-- Go `csv.errInvalidDelim`. -/
def errInvalidDelim : GoError := ⟨"csv: invalid field or comment delimiter".toList⟩

/-- Go `csv.validDelim` (every `Char` is a valid rune). -/
def validDelim (r : Char) : Bool :=
  r.toNat != 0 && r != '"' && r != '\r' && r != '\n' && r.toNat != 0xFFFD

namespace Writer

/-- Go `(*Writer).fieldNeedsQuotes`: the empty field needs none, the field `\.` does, and
so does a field that holds the delimiter, a quote, CR or LF, or that begins with a space
(as `unicode.IsSpace` defines it). -/
def fieldNeedsQuotes (w : Writer) (field : GoString) : Bool :=
  if field = [] then false
  else if field = ['\\', '.'] then true
  else if field.any (fun c => c == '\n' || c == '\r' || c == '"' || c == w.Comma) then true
  else
    match field with
    | r1 :: _ => unicode.IsSpace r1
    | [] => false

/-- The encoding of one special rune inside a quoted field. -/
def writeSpecial (w : Writer) (c : Char) (b : bufio.Writer) : bufio.Writer × Option GoError :=
  if c = '"' then b.WriteString (utf8.Encode ['"', '"'])
  else if c = '\r' then
    if !w.UseCRLF then b.WriteByte '\r'.toNat else (b, none)
  else if w.UseCRLF then b.WriteString (utf8.Encode ['\r', '\n'])
  else b.WriteByte '\n'.toNat

/-- The loop `for len(field) > 0` of `(*Writer).Write` over a field that needs quotes:
`pending` holds (reversed) the runes read since the last special rune; they are written in
one piece before the next special rune and at the end of the field. -/
def quoteLoop (w : Writer) : GoString → GoString → bufio.Writer → bufio.Writer × Option GoError
  | [], pending =>
    if pending.isEmpty then fun b => (b, none)
    else fun b => b.WriteString (utf8.Encode pending.reverse)
  | c :: cs, pending =>
    if c = '"' ∨ c = '\r' ∨ c = '\n' then
      bufio.andThen (fun b => b.WriteString (utf8.Encode pending.reverse))
        (bufio.andThen (writeSpecial w c) (quoteLoop w cs []))
    else quoteLoop w cs (c :: pending)

/-- One field of a record, quoted when it needs to be. -/
def writeField (w : Writer) (field : GoString) : bufio.Writer → bufio.Writer × Option GoError :=
  if !w.fieldNeedsQuotes field then fun b => b.WriteString (utf8.Encode field)
  else
    bufio.andThen (fun b => b.WriteByte '"'.toNat)
      (bufio.andThen (quoteLoop w field []) (fun b => b.WriteByte '"'.toNat))

/-- The loop `for n, field := range record` of `(*Writer).Write`, from index `n` on. -/
def writeFields (w : Writer) : Nat → List GoString → bufio.Writer → bufio.Writer × Option GoError
  | _, [] => fun b => (b, none)
  | n, field :: rest =>
    bufio.andThen
      (if n > 0 then bufio.andThen (fun b => b.WriteRune w.Comma) (writeField w field)
       else writeField w field)
      (writeFields w (n + 1) rest)

/-- Go `(*Writer).Write`: the record as one line of CSV, into the buffered writer. -/
def Write (w : Writer) (record : List GoString) : Writer × Option GoError :=
  if !validDelim w.Comma then (w, some errInvalidDelim)
  else
    let r := bufio.andThen (writeFields w 0 record)
      (fun b => if w.UseCRLF then b.WriteString (utf8.Encode ['\r', '\n'])
                else b.WriteByte '\n'.toNat) w.w
    ({ w with w := r.1 }, r.2)

/-- Go `(*Writer).Flush`: the error of the underlying flush is not returned. -/
def Flush (w : Writer) : Writer := { w with w := w.w.Flush.1 }

end Writer

end csv

/-- The part of the world the program acts on: the standard output stream and the text
written to standard error. -/
structure World where
  stdout : Stream
  stderr : GoString
  deriving DecidableEq, Repr

/-- How a call ends: it returns, or the process ends by `os.Exit(code)`. -/
inductive Outcome where
  | returned : Outcome
  | exited (code : Nat) : Outcome
  deriving DecidableEq, Repr

/-- The loop `for _, metric := range metrics` of `exportCSV`. -/
def exportCSVLoop : List Metric → csv.Writer → GoString → csv.Writer × GoString × Outcome
  | [], writer, stderr => (writer, stderr, Outcome.returned)
  | metric :: rest, writer, stderr =>
    let record := [metric.Resource, metric.Namespace, metric.Name, metric.CPU, metric.Memory]
    let r := writer.Write record
    match r.2 with
    | some err =>
      (r.1, stderr ++ "Error writing CSV record: ".toList ++ err.text ++ "\n".toList,
        Outcome.exited 1)
    | none => exportCSVLoop rest r.1 stderr

/-- The slice `header` of `exportCSV`. -/
def exportCSV.header : List GoString :=
  ["Resource".toList, "Namespace".toList, "Name".toList, "CPU".toList, "Memory".toList]

/-- The function `exportCSV` of the program.  The deferred `writer.Flush()` runs when the
function returns, not when the process exits through `os.Exit`. -/
def exportCSV (metrics : GoSlice Metric) (world : World) : World × Outcome :=
  let writer := csv.NewWriter world.stdout
  let r := writer.Write exportCSV.header
  match r.2 with
  | some err =>
    ({ stdout := r.1.w.wr,
       stderr := world.stderr ++ "Error writing CSV header: ".toList ++ err.text ++ "\n".toList },
      Outcome.exited 1)
  | none =>
    let l := exportCSVLoop metrics.toList r.1 world.stderr
    match l.2.2 with
    | Outcome.returned => ({ stdout := l.1.Flush.w.wr, stderr := l.2.1 }, Outcome.returned)
    | Outcome.exited code => ({ stdout := l.1.w.wr, stderr := l.2.1 }, Outcome.exited code)

/-! ### `encoding/json` and `exportJSON` -/

namespace json

/-- Go `json.hex`: the lower-case hexadecimal digits. -/
def hex (n : Nat) : Char := "0123456789abcdef".toList.getD n '0'

/-- Go `json.htmlSafeSet` on the bytes below `utf8.RuneSelf`: the printable ASCII runes (and
DEL) other than the double quote, `&`, `<`, `>` and the backslash. -/
def htmlSafe (n : Nat) : Bool :=
  0x20 ≤ n && n < 0x80 && n != 0x22 && n != 0x26 && n != 0x3C && n != 0x3E && n != 0x5C

/-- What `json.appendString` (with `escapeHTML`, the setting of an `Encoder`) writes for
one rune of a string: the rune itself when it is safe; `\\`, `\"`, `\b`, `\f`, `\n`, `\r`,
`\t`; `\u00XX` for the other runes below `utf8.RuneSelf`; the escapes `\u2028` and `\u2029` for U+2028 and U+2029
(Go 1.22 and later; earlier versions write `\u0008` and `\u000c` for `\b` and `\f`). -/
def escapeRune (r : Char) : GoString :=
  let n := r.toNat
  if n < 0x80 then
    if htmlSafe n then [r]
    else if r = '\\' ∨ r = '"' then ['\\', r]
    else if n = 0x08 then ['\\', 'b']
    else if n = 0x0C then ['\\', 'f']
    else if r = '\n' then ['\\', 'n']
    else if r = '\r' then ['\\', 'r']
    else if r = '\t' then ['\\', 't']
    else ['\\', 'u', '0', '0', hex (n / 16), hex (n % 16)]
  else if n = 0x2028 ∨ n = 0x2029 then ['\\', 'u', '2', '0', '2', hex (n % 16)]
  else [r]

/-- The text between the quotes of the JSON string that `json.appendString` writes. -/
def escape : GoString → GoString
  | [] => []
  | r :: rs => escapeRune r ++ escape rs

/-- Go `json.appendString`: the string as a JSON string literal. -/
def quote (s : GoString) : GoString := '"' :: (escape s ++ ['"'])

/-- The encoder of the struct `Metric`: the fields in the order of their declaration, each
under the key its `json:"..."` tag gives. -/
def encodeMetric (m : Metric) : GoString :=
  "\x7b\"resource\":".toList ++ quote m.Resource ++
    (",\"namespace\":".toList ++ quote m.Namespace ++
      (",\"name\":".toList ++ quote m.Name ++
        (",\"cpu\":".toList ++ quote m.CPU ++
          (",\"memory\":".toList ++ quote m.Memory ++ ['}']))))

/-- The loop of the array encoder from index `i` on: a comma before every element but the
first. -/
def encodeElems : Nat → List Metric → GoString
  | _, [] => []
  | i, m :: ms => (if i > 0 then [','] else []) ++ encodeMetric m ++ encodeElems (i + 1) ms

/-- What `json.Marshal` makes of a `[]Metric`: `null` for the nil slice, and else the
elements between brackets, without any white space. -/
def marshal : GoSlice Metric → GoString
  | GoSlice.nil => "null".toList
  | GoSlice.alloc ms => '[' :: (encodeElems 0 ms ++ [']'])

/-! #### The scanner of `encoding/json` (scanner.go) -/

/-- The step functions of the scanner, `stateBeginValue` and the others. -/
inductive Step where
  | BeginValueOrEmpty | BeginValue | BeginStringOrEmpty | BeginString | EndValue | EndTop
  | InString | InStringEsc | InStringEscU | InStringEscU1 | InStringEscU12 | InStringEscU123
  | Neg | S1 | S0 | Dot | Dot0 | E | ESign | E0
  | T | Tr | Tru | F | Fa | Fal | Fals | N | Nu | Nul
  | Error
  deriving DecidableEq, Repr

/-- The entries of the stack `parseState`. -/
inductive Parse where
  | ObjectKey | ObjectValue | ArrayValue
  deriving DecidableEq, Repr

/-- The results of a step, `scanContinue` and the others. -/
inductive Scan where
  | Continue | BeginLiteral | BeginObject | ObjectKey | ObjectValue | EndObject
  | BeginArray | ArrayValue | EndArray | SkipSpace | End | Error
  deriving DecidableEq, Repr

/-- Go `json.scanner`: the step function, the flag `endTop`, the stack `parseState` (its
top first) and the error. -/
structure scanner where
  step : Step
  endTop : Bool
  parseState : List Parse
  err : Option GoError
  deriving DecidableEq, Repr

/-- Go `json.newScanner` followed by `reset`. -/
def newScanner : scanner :=
  { step := Step.BeginValue, endTop := false, parseState := [], err := none }

/-- Go `json.maxNestingDepth`. -/
def maxNestingDepth : Nat := 10000

/-- Go `json.isSpace`. -/
def isSpace (c : Byte) : Bool := c == 0x20 || c == 0x09 || c == 0x0D || c == 0x0A

/-- Whether the byte is a hexadecimal digit. -/
def isHex (c : Byte) : Bool :=
  (0x30 ≤ c && c ≤ 0x39) || (0x61 ≤ c && c ≤ 0x66) || (0x41 ≤ c && c ≤ 0x46)

/-- Whether the byte is a decimal digit. -/
def isDigit (c : Byte) : Bool := 0x30 ≤ c && c ≤ 0x39

namespace scanner

/-- Go `(*scanner).error`: the scanner stops with a syntax error (its text names the
context only). -/
def error (s : scanner) (context : String) : scanner × Scan :=
  ({ s with step := Step.Error,
            err := some ⟨"invalid character ".toList ++ context.toList⟩ }, Scan.Error)

/-- The step function becomes `st`, the result is `v`. -/
def goto (s : scanner) (st : Step) (v : Scan) : scanner × Scan := ({ s with step := st }, v)

/-- Go `(*scanner).pushParseState`. -/
def pushParseState (s : scanner) (newParseState : Parse) (successState : Scan) :
    scanner × Scan :=
  let s1 := { s with parseState := newParseState :: s.parseState }
  if s1.parseState.length ≤ maxNestingDepth then (s1, successState)
  else s1.error "exceeded max depth"

/-- Go `(*scanner).popParseState`. -/
def popParseState (s : scanner) : scanner :=
  let rest := s.parseState.tail
  if rest.length = 0 then { s with parseState := rest, step := Step.EndTop, endTop := true }
  else { s with parseState := rest, step := Step.EndValue }

/-- Go `stateEndTop`. -/
def stateEndTop (s : scanner) (c : Byte) : scanner × Scan :=
  if !isSpace c then ((s.error "after top-level value").1, Scan.End) else (s, Scan.End)

/-- Go `stateEndValue`. -/
def stateEndValue (s : scanner) (c : Byte) : scanner × Scan :=
  match s.parseState with
  | [] => stateEndTop { s with step := Step.EndTop, endTop := true } c
  | ps :: rest =>
    if isSpace c then s.goto Step.EndValue Scan.SkipSpace
    else
      match ps with
      | Parse.ObjectKey =>
        if c = 0x3A then
          ({ s with parseState := Parse.ObjectValue :: rest, step := Step.BeginValue },
            Scan.ObjectKey)
        else s.error "after object key"
      | Parse.ObjectValue =>
        if c = 0x2C then
          ({ s with parseState := Parse.ObjectKey :: rest, step := Step.BeginString },
            Scan.ObjectValue)
        else if c = 0x7D then (s.popParseState, Scan.EndObject)
        else s.error "after object key:value pair"
      | Parse.ArrayValue =>
        if c = 0x2C then s.goto Step.BeginValue Scan.ArrayValue
        else if c = 0x5D then (s.popParseState, Scan.EndArray)
        else s.error "after array element"

/-- Go `stateBeginValue`. -/
def stateBeginValue (s : scanner) (c : Byte) : scanner × Scan :=
  if isSpace c then (s, Scan.SkipSpace)
  else if c = 0x7B then
    pushParseState { s with step := Step.BeginStringOrEmpty } Parse.ObjectKey Scan.BeginObject
  else if c = 0x5B then
    pushParseState { s with step := Step.BeginValueOrEmpty } Parse.ArrayValue Scan.BeginArray
  else if c = 0x22 then s.goto Step.InString Scan.BeginLiteral
  else if c = 0x2D then s.goto Step.Neg Scan.BeginLiteral
  else if c = 0x30 then s.goto Step.S0 Scan.BeginLiteral
  else if c = 0x74 then s.goto Step.T Scan.BeginLiteral
  else if c = 0x66 then s.goto Step.F Scan.BeginLiteral
  else if c = 0x6E then s.goto Step.N Scan.BeginLiteral
  else if 0x31 ≤ c ∧ c ≤ 0x39 then s.goto Step.S1 Scan.BeginLiteral
  else s.error "looking for beginning of value"

/-- Go `stateBeginString`. -/
def stateBeginString (s : scanner) (c : Byte) : scanner × Scan :=
  if isSpace c then (s, Scan.SkipSpace)
  else if c = 0x22 then s.goto Step.InString Scan.BeginLiteral
  else s.error "looking for beginning of object key string"

/-- The step of a literal: the byte `want` leads to `next`. -/
def expect (s : scanner) (c want : Byte) (next : Step) (context : String) : scanner × Scan :=
  if c = want then s.goto next Scan.Continue else s.error context

/-- One call `s.step(s, c)`: the step function the scanner is in, applied to the byte. -/
def stepOn (s : scanner) (c : Byte) : scanner × Scan :=
  match s.step with
  | Step.BeginValueOrEmpty =>
    if isSpace c then (s, Scan.SkipSpace)
    else if c = 0x5D then stateEndValue s c
    else stateBeginValue s c
  | Step.BeginValue => stateBeginValue s c
  | Step.BeginStringOrEmpty =>
    if isSpace c then (s, Scan.SkipSpace)
    else if c = 0x7D then
      stateEndValue { s with parseState := Parse.ObjectValue :: s.parseState.tail } c
    else stateBeginString s c
  | Step.BeginString => stateBeginString s c
  | Step.EndValue => stateEndValue s c
  | Step.EndTop => stateEndTop s c
  | Step.InString =>
    if c = 0x22 then s.goto Step.EndValue Scan.Continue
    else if c = 0x5C then s.goto Step.InStringEsc Scan.Continue
    else if c < 0x20 then s.error "in string literal"
    else (s, Scan.Continue)
  | Step.InStringEsc =>
    if c = 0x62 ∨ c = 0x66 ∨ c = 0x6E ∨ c = 0x72 ∨ c = 0x74 ∨ c = 0x5C ∨ c = 0x2F ∨ c = 0x22
    then s.goto Step.InString Scan.Continue
    else if c = 0x75 then s.goto Step.InStringEscU Scan.Continue
    else s.error "in string escape code"
  | Step.InStringEscU =>
    if isHex c then s.goto Step.InStringEscU1 Scan.Continue
    else s.error "in \\u hexadecimal character escape"
  | Step.InStringEscU1 =>
    if isHex c then s.goto Step.InStringEscU12 Scan.Continue
    else s.error "in \\u hexadecimal character escape"
  | Step.InStringEscU12 =>
    if isHex c then s.goto Step.InStringEscU123 Scan.Continue
    else s.error "in \\u hexadecimal character escape"
  | Step.InStringEscU123 =>
    if isHex c then s.goto Step.InString Scan.Continue
    else s.error "in \\u hexadecimal character escape"
  | Step.Neg =>
    if c = 0x30 then s.goto Step.S0 Scan.Continue
    else if 0x31 ≤ c ∧ c ≤ 0x39 then s.goto Step.S1 Scan.Continue
    else s.error "in numeric literal"
  | Step.S1 =>
    if isDigit c then s.goto Step.S1 Scan.Continue
    else if c = 0x2E then s.goto Step.Dot Scan.Continue
    else if c = 0x65 ∨ c = 0x45 then s.goto Step.E Scan.Continue
    else stateEndValue s c
  | Step.S0 =>
    if c = 0x2E then s.goto Step.Dot Scan.Continue
    else if c = 0x65 ∨ c = 0x45 then s.goto Step.E Scan.Continue
    else stateEndValue s c
  | Step.Dot =>
    if isDigit c then s.goto Step.Dot0 Scan.Continue
    else s.error "after decimal point in numeric literal"
  | Step.Dot0 =>
    if isDigit c then (s, Scan.Continue)
    else if c = 0x65 ∨ c = 0x45 then s.goto Step.E Scan.Continue
    else stateEndValue s c
  | Step.E =>
    if c = 0x2B ∨ c = 0x2D then s.goto Step.ESign Scan.Continue
    else if isDigit c then s.goto Step.E0 Scan.Continue
    else s.error "in exponent of numeric literal"
  | Step.ESign =>
    if isDigit c then s.goto Step.E0 Scan.Continue
    else s.error "in exponent of numeric literal"
  | Step.E0 =>
    if isDigit c then (s, Scan.Continue) else stateEndValue s c
  | Step.T => s.expect c 0x72 Step.Tr "in literal true (expecting 'r')"
  | Step.Tr => s.expect c 0x75 Step.Tru "in literal true (expecting 'u')"
  | Step.Tru => s.expect c 0x65 Step.EndValue "in literal true (expecting 'e')"
  | Step.F => s.expect c 0x61 Step.Fa "in literal false (expecting 'a')"
  | Step.Fa => s.expect c 0x6C Step.Fal "in literal false (expecting 'l')"
  | Step.Fal => s.expect c 0x73 Step.Fals "in literal false (expecting 's')"
  | Step.Fals => s.expect c 0x65 Step.EndValue "in literal false (expecting 'e')"
  | Step.N => s.expect c 0x75 Step.Nu "in literal null (expecting 'u')"
  | Step.Nu => s.expect c 0x6C Step.Nul "in literal null (expecting 'l')"
  | Step.Nul => s.expect c 0x6C Step.EndValue "in literal null (expecting 'l')"
  | Step.Error => (s, Scan.Error)

/-- Go `(*scanner).eof`: whether the input may end here (`Scan.End`) or not. -/
def eof (s : scanner) : scanner × Scan :=
  match s.err with
  | some _ => (s, Scan.Error)
  | none =>
    if s.endTop then (s, Scan.End)
    else
      let s1 := (s.stepOn 0x20).1
      if s1.endTop then (s1, Scan.End)
      else
        match s1.err with
        | some _ => (s1, Scan.Error)
        | none => ({ s1 with err := some ⟨"unexpected end of JSON input".toList⟩ }, Scan.Error)

end scanner

/-! #### `Indent` and the `Encoder` -/

/-- The variables of the loop of Go `json.appendIndent`: the output so far, `needIndent` and
`depth`. -/
structure indentState where
  dst : List Byte
  needIndent : Bool
  depth : Int
  deriving DecidableEq, Repr

/-- Go `json.appendNewline`: a newline, the prefix and `depth` copies of the indent. -/
def appendNewline (dst pfx indent : List Byte) (depth : Int) : List Byte :=
  dst ++ [0x0A] ++ pfx ++ (List.replicate depth.toNat indent).flatten

/-- The `switch c` of `appendIndent`, which adds the spacing around the punctuation. -/
def punctuation (pfx indent : List Byte) (c : Byte) (st : indentState) : indentState :=
  if c = 0x7B ∨ c = 0x5B then { st with needIndent := true, dst := st.dst ++ [c] }
  else if c = 0x2C then { st with dst := appendNewline (st.dst ++ [c]) pfx indent st.depth }
  else if c = 0x3A then { st with dst := st.dst ++ [c, 0x20] }
  else if c = 0x7D ∨ c = 0x5D then
    if st.needIndent then { st with needIndent := false, dst := st.dst ++ [c] }
    else
      { st with depth := st.depth - 1,
                dst := appendNewline st.dst pfx indent (st.depth - 1) ++ [c] }
  else { st with dst := st.dst ++ [c] }

/-- The body of the loop of `appendIndent` for a byte `c` on which the scanner reported
`v`, neither `scanSkipSpace` nor `scanError`: the delayed indentation, then the byte, with
spacing when it is punctuation. -/
def indentStep (pfx indent : List Byte) (c : Byte) (v : Scan) (st : indentState) :
    indentState :=
  let st1 : indentState :=
    if st.needIndent = true ∧ v ≠ Scan.EndObject ∧ v ≠ Scan.EndArray then
      { dst := appendNewline st.dst pfx indent (st.depth + 1), needIndent := false,
        depth := st.depth + 1 }
    else st
  if v = Scan.Continue then { st1 with dst := st1.dst ++ [c] }
  else punctuation pfx indent c st1

/-- The loop `for _, c := range src` of Go `json.appendIndent`.  A step that reports
`scanError` ends the loop; the scanner then holds the error, which `eof` would report, so the
error is the result at once. -/
def indentLoop (pfx indent : List Byte) :
    List Byte → scanner → indentState → Except GoError (scanner × indentState)
  | [], scan, st => Except.ok (scan, st)
  | c :: rest, scan, st =>
    let r := scan.stepOn c
    if r.2 = Scan.SkipSpace then indentLoop pfx indent rest r.1 st
    else if r.2 = Scan.Error then Except.error (r.1.err.getD ⟨[]⟩)
    else indentLoop pfx indent rest r.1 (indentStep pfx indent c r.2 st)

/-- Go `json.appendIndent` (with an empty `dst`): the indented form of the JSON text `src`,
or the syntax error of the scanner. -/
def appendIndent (src pfx indent : List Byte) : Except GoError (List Byte) :=
  match indentLoop pfx indent src newScanner { dst := [], needIndent := false, depth := 0 } with
  | Except.error e => Except.error e
  | Except.ok r =>
    match r.1.eof with
    | (s1, Scan.Error) => Except.error (s1.err.getD ⟨[]⟩)
    | _ => Except.ok r.2.dst

/-- Go `json.Encoder`: the stream, the sticky error and the indentation (`escapeHTML` keeps
its default, true: the program does not change it). -/
structure Encoder where
  w : Stream
  err : Option GoError
  indentPrefix : GoString
  indentValue : GoString
  deriving DecidableEq, Repr

/-- Go `json.NewEncoder`. -/
def NewEncoder (w : Stream) : Encoder :=
  { w := w, err := none, indentPrefix := [], indentValue := [] }

namespace Encoder

/-- Go `(*Encoder).SetIndent`. -/
def SetIndent (enc : Encoder) (pfx indent : GoString) : Encoder :=
  { enc with indentPrefix := pfx, indentValue := indent }

/-- Go `(*Encoder).Encode` on a `[]Metric`: the value is marshalled, a newline is added, the
text is indented when an indentation is set, and the result goes to the stream in one
`Write`. -/
def Encode (enc : Encoder) (v : GoSlice Metric) : Encoder × Option GoError :=
  match enc.err with
  | some e => (enc, some e)
  | none =>
    let b := utf8.Encode (marshal v) ++ [0x0A]
    let indented : Except GoError (List Byte) :=
      if enc.indentPrefix ≠ [] ∨ enc.indentValue ≠ [] then
        appendIndent b (utf8.Encode enc.indentPrefix) (utf8.Encode enc.indentValue)
      else Except.ok b
    match indented with
    | Except.error e => (enc, some e)
    | Except.ok b1 =>
      let r := enc.w.Write b1
      ({ enc with w := r.1, err := r.2.2 }, r.2.2)

end Encoder

end json

/-- The function `exportJSON` of the program. -/
def exportJSON (metrics : GoSlice Metric) (world : World) : World × Outcome :=
  let encoder := (json.NewEncoder world.stdout).SetIndent [] "  ".toList
  let r := encoder.Encode metrics
  match r.2 with
  | some err =>
    ({ stdout := r.1.w,
       stderr := world.stderr ++ "Error encoding JSON: ".toList ++ err.text ++ "\n".toList },
      Outcome.exited 1)
  | none => ({ stdout := r.1.w, stderr := world.stderr }, Outcome.returned)

/-! ### `os/exec`, `getMetrics` and `main` -/

namespace exec

/-- Go `exec.Cmd`, the two fields the program sets: the name of the command and the
argument list, which holds the name first. -/
structure Cmd where
  Path : GoString
  Args : List GoString
  deriving DecidableEq, Repr

/-- Go `exec.Command(name, arg...)`.  Looking the name up in the search path is left to
the host: a command that is not found is one for which `Output` returns an error. -/
def Command (name : GoString) (arg : List GoString) : Cmd :=
  { Path := name, Args := name :: arg }

/-- The host the program runs on, as `os/exec` sees it: `respond` gives, for every
command, the text of its standard output and the error that `(*Cmd).Output` returns (no
error when the command was found, ran and exited with status 0); `ran` lists the commands
that were handed to `Output`, in order. -/
structure Host where
  respond : Cmd → GoString × Option GoError
  ran : List Cmd

/-- Go `(*Cmd).Output`: runs the command and returns its standard output and the error. -/
def Cmd.Output (c : Cmd) (host : Host) : Host × GoString × Option GoError :=
  ({ host with ran := host.ran ++ [c] }, host.respond c)

end exec

/-- The function `getMetrics` of the program: the host after the call, the slice and the
error returned.  `none` is a run-time panic. -/
def getMetrics (resourceType namespace_ : GoString) (host : exec.Host) :
    Option (exec.Host × GoSlice Metric × Option GoError) :=
  let cmd := exec.Command "kubectl".toList ["top".toList, resourceType]
  let cmd :=
    if resourceType = "pod".toList then { cmd with Args := cmd.Args ++ ["-n".toList, namespace_] }
    else cmd
  let r := cmd.Output host
  match r.2.2 with
  | some err => some (r.1, GoSlice.nil, some err)
  | none =>
    match parseOutput r.2.1 resourceType namespace_ with
    | none => none
    | some metrics => some (r.1, metrics, none)

/-- The function `main` of the program, from the point where `flag.Parse()` has set the
values of the three flags `type`, `n` and `format`.  The outcome `returned` is the normal
end of the process (exit code 0); `none` is a run-time panic. -/
def main (resourceType namespace_ format : GoString) (host : exec.Host) (world : World) :
    Option (exec.Host × World × Outcome) :=
  match getMetrics resourceType namespace_ host with
  | none => none
  | some (host, _, some err) =>
    some (host,
      { world with
        stderr := world.stderr ++ "Error getting metrics: ".toList ++ err.text ++ "\n".toList },
      Outcome.exited 1)
  | some (host, metrics, none) =>
    if format = "json".toList then
      let r := exportJSON metrics world
      some (host, r.1, r.2)
    else if format = "csv".toList then
      let r := exportCSV metrics world
      some (host, r.1, r.2)
    else
      some (host,
        { world with
          stderr := world.stderr ++ "Unsupported format: ".toList ++ format ++ "\n".toList },
        Outcome.exited 1)

/-! ### `encoding/json` on strings that need not be valid UTF-8

A Go string is a sequence of bytes.  `GoString` holds the strings that are valid UTF-8, by
their runes; `json.appendString` treats a byte that is not part of a valid encoding in a
way of its own, so it is modelled here on the bytes, with the encoder on top of it. -/

namespace utf8

/-- Go `utf8.RuneError`, U+FFFD. -/
def RuneError : Char := Char.ofNat 0xFFFD

/-- Go `utf8.DecodeRune`: the first rune of `p` and the number of bytes of its encoding;
`(RuneError, 0)` for the empty sequence and `(RuneError, 1)` when `p` does not begin with a
valid encoding (a stray continuation byte, an overlong form, a surrogate, a value beyond
U+10FFFF, or an encoding cut short). -/
def DecodeRune (p : List Byte) : Char × Nat :=
  match p with
  | [] => (RuneError, 0)
  | p0 :: rest =>
    if p0 < 0x80 then (Char.ofNat p0, 1)
    else if p0 < 0xC2 then (RuneError, 1)
    else if p0 < 0xE0 then
      match rest with
      | b1 :: _ =>
        if 0x80 ≤ b1 ∧ b1 ≤ 0xBF then (Char.ofNat (p0 % 32 * 64 + b1 % 64), 2)
        else (RuneError, 1)
      | [] => (RuneError, 1)
    else if p0 < 0xF0 then
      match rest with
      | b1 :: b2 :: _ =>
        if (if p0 = 0xE0 then 0xA0 else 0x80) ≤ b1 ∧ b1 ≤ (if p0 = 0xED then 0x9F else 0xBF) then
          if 0x80 ≤ b2 ∧ b2 ≤ 0xBF then
            (Char.ofNat (p0 % 16 * 4096 + b1 % 64 * 64 + b2 % 64), 3)
          else (RuneError, 1)
        else (RuneError, 1)
      | _ => (RuneError, 1)
    else if p0 < 0xF5 then
      match rest with
      | b1 :: b2 :: b3 :: _ =>
        if (if p0 = 0xF0 then 0x90 else 0x80) ≤ b1 ∧ b1 ≤ (if p0 = 0xF4 then 0x8F else 0xBF) then
          if 0x80 ≤ b2 ∧ b2 ≤ 0xBF then
            if 0x80 ≤ b3 ∧ b3 ≤ 0xBF then
              (Char.ofNat (p0 % 8 * 262144 + b1 % 64 * 4096 + b2 % 64 * 64 + b3 % 64), 4)
            else (RuneError, 1)
          else (RuneError, 1)
        else (RuneError, 1)
      | _ => (RuneError, 1)
    else (RuneError, 1)

end utf8

/-- The record type `Metric` of the program with its strings as Go holds them: sequences
of bytes, valid UTF-8 or not. -/
structure MetricBytes where
  Resource : List Byte
  Namespace : List Byte
  Name : List Byte
  CPU : List Byte
  Memory : List Byte
  deriving DecidableEq, Repr

namespace json

/-- The loop `for i := 0; i < len(src);` of Go `json.appendString` (with `escapeHTML`), on
the bytes of `src` from index `i` on: a byte below `utf8.RuneSelf` is written as
`escapeRune` says; a byte that begins no valid encoding is written as the six bytes of
the escape of U+FFFD; U+2028 and U+2029 are written as escapes; every other rune is
copied.  Each turn of the loop passes over at least one byte, so `fuel = len(src)` turns
are enough. -/
def appendStringLoop : Nat → List Byte → List Byte
  | 0, _ => []
  | _ + 1, [] => []
  | fuel + 1, b :: rest =>
    if b < 0x80 then utf8.Encode (escapeRune (Char.ofNat b)) ++ appendStringLoop fuel rest
    else
      let d := utf8.DecodeRune (b :: rest)
      if d.1 = utf8.RuneError ∧ d.2 = 1 then
        utf8.Encode ['\\', 'u', 'f', 'f', 'f', 'd'] ++ appendStringLoop fuel rest
      else if d.1.toNat = 0x2028 ∨ d.1.toNat = 0x2029 then
        utf8.Encode ['\\', 'u', '2', '0', '2', hex (d.1.toNat % 16)] ++
          appendStringLoop fuel ((b :: rest).drop d.2)
      else (b :: rest).take d.2 ++ appendStringLoop fuel ((b :: rest).drop d.2)

/-- Go `json.appendString` on any string: the JSON string literal written for it. -/
def appendString (src : List Byte) : List Byte :=
  0x22 :: (appendStringLoop src.length src ++ [0x22])

/-- The encoder of the struct `Metric`, on the bytes. -/
def encodeMetricBytes (m : MetricBytes) : List Byte :=
  utf8.Encode "\x7b\"resource\":".toList ++ appendString m.Resource ++
    (utf8.Encode ",\"namespace\":".toList ++ appendString m.Namespace ++
      (utf8.Encode ",\"name\":".toList ++ appendString m.Name ++
        (utf8.Encode ",\"cpu\":".toList ++ appendString m.CPU ++
          (utf8.Encode ",\"memory\":".toList ++ appendString m.Memory ++ [0x7D]))))

/-- The loop of the array encoder from index `i` on, on the bytes. -/
def encodeElemsBytes : Nat → List MetricBytes → List Byte
  | _, [] => []
  | i, m :: ms =>
    (if i > 0 then [0x2C] else []) ++ encodeMetricBytes m ++ encodeElemsBytes (i + 1) ms

/-- What `json.Marshal` makes of a `[]Metric`, on the bytes. -/
def marshalBytes : GoSlice MetricBytes → List Byte
  | GoSlice.nil => utf8.Encode "null".toList
  | GoSlice.alloc ms => 0x5B :: (encodeElemsBytes 0 ms ++ [0x5D])

/-- Go `(*Encoder).Encode` on a `[]Metric` whose strings are any bytes. -/
def Encoder.EncodeBytes (enc : Encoder) (v : GoSlice MetricBytes) : Encoder × Option GoError :=
  match enc.err with
  | some e => (enc, some e)
  | none =>
    let b := marshalBytes v ++ [0x0A]
    let indented : Except GoError (List Byte) :=
      if enc.indentPrefix ≠ [] ∨ enc.indentValue ≠ [] then
        appendIndent b (utf8.Encode enc.indentPrefix) (utf8.Encode enc.indentValue)
      else Except.ok b
    match indented with
    | Except.error e => (enc, some e)
    | Except.ok b1 =>
      let r := enc.w.Write b1
      ({ enc with w := r.1, err := r.2.2 }, r.2.2)

end json

/-- The function `exportJSON` of the program on records whose strings are any bytes. -/
def exportJSONBytes (metrics : GoSlice MetricBytes) (world : World) : World × Outcome :=
  let encoder := (json.NewEncoder world.stdout).SetIndent [] "  ".toList
  let r := encoder.EncodeBytes metrics
  match r.2 with
  | some err =>
    ({ stdout := r.1.w,
       stderr := world.stderr ++ "Error encoding JSON: ".toList ++ err.text ++ "\n".toList },
      Outcome.exited 1)
  | none => ({ stdout := r.1.w, stderr := world.stderr }, Outcome.returned)

/-- The bytes of a record whose strings are valid UTF-8. -/
def Metric.bytes (m : Metric) : MetricBytes :=
  { Resource := utf8.Encode m.Resource, Namespace := utf8.Encode m.Namespace,
    Name := utf8.Encode m.Name, CPU := utf8.Encode m.CPU, Memory := utf8.Encode m.Memory }

/-- The slice with `f` applied to its elements; the nil slice stays nil. -/
def GoSlice.map {α β : Type} (f : α → β) : GoSlice α → GoSlice β
  | GoSlice.nil => GoSlice.nil
  | GoSlice.alloc xs => GoSlice.alloc (xs.map f)

/-! ## Part 1, continued: the vocabulary of the statements about the parser -/

/-- The lines of a text "after the header": the text is trimmed, split at newlines and the
first line dropped (the line structure section 4.2 of the specification describes). -/
def dataLines (output : GoString) : List GoString :=
  (strings.Split (strings.TrimSpace output) '\n').tail

/-- The value `parseOutput` gives to the `Namespace` field. -/
def namespaceFor (resourceType namespace_ : GoString) : GoString :=
  if resourceType = "pod".toList then namespace_ else "-".toList

/-- The record made of the first three fields of a line, when it has three. -/
def recordOfFields (resourceType namespace_ : GoString) : List GoString → Option Metric
  | f0 :: f1 :: f2 :: _ =>
    some { Resource := resourceType, Namespace := namespaceFor resourceType namespace_,
           Name := f0, CPU := f1, Memory := f2 }
  | _ => none

/-- The texts "header line, then the data lines, joined by newlines". -/
def joinLines : List GoString → GoString
  | [] => []
  | [l] => l
  | l :: l2 :: ls => l ++ '\n' :: joinLines (l2 :: ls)

/-- The field lists of the lines after the first line of `t`, the empty ones left out. -/
def rows (t : GoString) : List (List GoString) :=
  (((strings.Split t '\n').tail).map strings.Fields).filter (fun fs => !fs.isEmpty)

/-- What follows the first line in `joinLines (l :: ls)`. -/
def restText : List GoString → GoString
  | [] => []
  | l2 :: ls => '\n' :: joinLines (l2 :: ls)

/-- The record `m` is the one `parseOutput` builds from `line`: the line has at least three
fields, and `m` holds the queried kind, the namespace value and the first three fields. -/
def BuiltFrom (rt ns : GoString) (line : GoString) (m : Metric) : Prop :=
  ∃ f0 f1 f2 more, strings.Fields line = f0 :: f1 :: f2 :: more ∧
    m = { Resource := rt, Namespace := namespaceFor rt ns, Name := f0, CPU := f1, Memory := f2 }

/-! ## Part 1, continued: the vocabulary of the statements about the exporters -/

/-- A buffered writer without error over a stream that rejects no write. -/
def bufio.Writer.Good (b : bufio.Writer) : Prop := b.err = none ∧ b.wr.room = none

/-- The bytes a buffered writer holds for its stream: those the stream has accepted,
followed by those still in the buffer. -/
def bufio.Writer.out (b : bufio.Writer) : List Byte := b.wr.written ++ b.buf

/-- Over a stream that rejects nothing, the operation `f` succeeds and adds exactly `bytes`
to what the writer holds for its stream. -/
def Emits (f : bufio.Writer → bufio.Writer × Option GoError) (bytes : List Byte) : Prop :=
  ∀ b : bufio.Writer, b.Good →
    (f b).1.Good ∧ (f b).2 = none ∧ (f b).1.out = b.out ++ bytes ∧
      (f b).1.wr.failure = b.wr.failure

/-- Whatever the stream, when `bytes` fit into the free part of the buffer the operation `f`
only appends them to the buffer: the stream is not touched and no error is returned. -/
def Buffers (f : bufio.Writer → bufio.Writer × Option GoError) (bytes : List Byte) : Prop :=
  ∀ b : bufio.Writer, b.err = none → b.buf.length + bytes.length ≤ b.size →
    f b = ({ b with buf := b.buf ++ bytes }, none)

/-- The inside of a quoted CSV field: a quote is doubled; CR and LF are kept (with
`UseCRLF`, CR is dropped and LF becomes CR LF). -/
def csvEscape (useCRLF : Bool) : GoString → GoString
  | [] => []
  | c :: cs =>
    (if c = '"' then ['"', '"']
     else if c = '\r' then (if useCRLF then [] else ['\r'])
     else if c = '\n' then (if useCRLF then ['\r', '\n'] else ['\n'])
     else [c]) ++ csvEscape useCRLF cs

/-- The text of one field in a CSV line: as it stands, or between quotes. -/
def csvField (w : csv.Writer) (field : GoString) : GoString :=
  if w.fieldNeedsQuotes field then '"' :: (csvEscape w.UseCRLF field ++ ['"']) else field

/-- The text of the fields of a record from index `n` on, a delimiter before each but the
one at index 0. -/
def csvFields (w : csv.Writer) : Nat → List GoString → GoString
  | _, [] => []
  | n, field :: rest =>
    (if n > 0 then [w.Comma] else []) ++ csvField w field ++ csvFields w (n + 1) rest

/-- The CSV line of a record. -/
def csvLine (w : csv.Writer) (record : List GoString) : GoString :=
  csvFields w 0 record ++ (if w.UseCRLF then ['\r', '\n'] else ['\n'])

/-- The fields of a record of the program, in the order `exportCSV` writes them. -/
def Metric.record (m : Metric) : List GoString :=
  [m.Resource, m.Namespace, m.Name, m.CPU, m.Memory]

/-- The header row of the CSV output, a line of its own. -/
def csvHeaderLine : GoString := "Resource,Namespace,Name,CPU,Memory\n".toList

/-- The row `<resource>,<namespace>,<name>,<cpu>,<memory>` of a record, the five values as
they stand, a line of its own. -/
def plainRow (m : Metric) : GoString :=
  m.Resource ++ ',' :: (m.Namespace ++ ',' :: (m.Name ++ ',' :: (m.CPU ++ ',' ::
    (m.Memory ++ ['\n']))))

/-- The rows of a list of records, one after the other. -/
def plainRows : List Metric → GoString
  | [] => []
  | m :: ms => plainRow m ++ plainRows ms

/-- The CSV text of a list of records as the writer of `exportCSV` quotes it. -/
def csvRows (w : csv.Writer) : List Metric → GoString
  | [] => []
  | m :: ms => csvLine w m.record ++ csvRows w ms

/-- A field value that the CSV writer writes as it stands: it holds no comma, quote, CR or
LF, does not begin with white space, and is not the text `\.`. -/
def PlainField (field : GoString) : Prop :=
  (∀ c ∈ field, c ≠ ',' ∧ c ≠ '"' ∧ c ≠ '\r' ∧ c ≠ '\n') ∧
    (∀ c ∈ field.head?, unicode.IsSpace c = false) ∧ field ≠ ['\\', '.']

/-- A field value without a comma, a double quote, CR or LF. -/
def NoCsvSpecial (field : GoString) : Prop :=
  ∀ c ∈ field, c ≠ ',' ∧ c ≠ '"' ∧ c ≠ '\r' ∧ c ≠ '\n'

/-- The row `pod,<ns>,<name>,<cpu>,<memory>` of a data line, a line of its own. -/
def podRow (ns line : GoString) : GoString :=
  match strings.Fields line with
  | f0 :: f1 :: f2 :: _ =>
    plainRow { Resource := "pod".toList, Namespace := ns, Name := f0, CPU := f1, Memory := f2 }
  | _ => []

/-- The rows of the data lines, in order. -/
def podRows (ns : GoString) : List GoString → GoString
  | [] => []
  | d :: ds => podRow ns d ++ podRows ns ds

/-- A standard output that has accepted nothing yet and rejects no write, and an empty
standard error. -/
def World.fresh : World :=
  { stdout := { written := [], room := none,
                failure := ⟨"write /dev/stdout: no space left on device".toList⟩ },
    stderr := [] }

/-- The pipeline of the program in CSV mode on the text `output` of the external command:
`exportCSV(parseOutput(output, resourceType, namespace))`. -/
def pipelineCSV (output resourceType namespace_ : GoString) (world : World) :
    Option (World × Outcome) :=
  (parseOutput output resourceType namespace_).map (fun metrics => exportCSV metrics world)

/-- The CSV text of a list of records as `exportCSV` writes it: the header line, then the
line of each record with the quoting of `csv.Writer` (delimiter comma, LF line ends). -/
def csvText (metrics : List Metric) : GoString :=
  csvHeaderLine ++ csvRows (csv.NewWriter World.fresh.stdout) metrics

instance (field : GoString) : Decidable (NoCsvSpecial field) := by
  unfold NoCsvSpecial
  infer_instance

instance (field : GoString) : Decidable (PlainField field) := by
  unfold PlainField
  infer_instance

/-! ### The vocabulary of the statements about `exportJSON` -/

/-- One record as a JSON object at nesting level one, indented by two spaces per level: the
keys `resource`, `namespace`, `name`, `cpu`, `memory` in this order, each followed by the
field of the record as a JSON string. -/
def jsonObjectText (m : Metric) : GoString :=
  "  \x7b\n    \"resource\": ".toList ++ json.quote m.Resource ++
    (",\n    \"namespace\": ".toList ++ json.quote m.Namespace ++
      (",\n    \"name\": ".toList ++ json.quote m.Name ++
        (",\n    \"cpu\": ".toList ++ json.quote m.CPU ++
          (",\n    \"memory\": ".toList ++ json.quote m.Memory ++ "\n  \x7d".toList))))

/-- The objects of the records after the first, each after a comma and a newline. -/
def jsonMoreText : List Metric → GoString
  | [] => []
  | m :: ms => ",\n".toList ++ jsonObjectText m ++ jsonMoreText ms

/-- The records as one indented JSON array, ended by a newline: `[]` when there is none,
and else one object per record, in order, between `[` and `]` on lines of their own. -/
def jsonArrayText : List Metric → GoString
  | [] => "[]\n".toList
  | m :: ms => "[\n".toList ++ jsonObjectText m ++ jsonMoreText ms ++ "\n]\n".toList

/-- The value of a hexadecimal digit. -/
def hexValue (c : Char) : Option Nat :=
  let n := c.toNat
  if 0x30 ≤ n ∧ n ≤ 0x39 then some (n - 0x30)
  else if 0x61 ≤ n ∧ n ≤ 0x66 then some (n - 0x61 + 10)
  else if 0x41 ≤ n ∧ n ≤ 0x46 then some (n - 0x41 + 10)
  else none

/-- The character that the two-character escape `\e` denotes. -/
def jsonEscaped (e : Char) : Option Char :=
  if e = '"' then some '"'
  else if e = '\\' then some '\\'
  else if e = '/' then some '/'
  else if e = 'b' then some (Char.ofNat 8)
  else if e = 'f' then some (Char.ofNat 12)
  else if e = 'n' then some '\n'
  else if e = 'r' then some '\r'
  else if e = 't' then some '\t'
  else none

/-- The character that the escape `\uabcd` denotes (escapes of surrogates are not read). -/
def jsonEscapedU (a b c d : Char) : Option Char :=
  match hexValue a, hexValue b, hexValue c, hexValue d with
  | some x, some y, some z, some w =>
    let n := ((x * 16 + y) * 16 + z) * 16 + w
    if 0xD800 ≤ n ∧ n ≤ 0xDFFF then none else some (Char.ofNat n)
  | _, _, _, _ => none

/-- Put a character in front of a string that could be read. -/
def consTo (c : Option Char) (t : Option GoString) : Option GoString :=
  match c, t with
  | some x, some u => some (x :: u)
  | _, _ => none

/-- The string that the inside of a JSON string literal denotes (RFC 8259, section 7):
the characters as they stand, the two-character escapes, and `\uXXXX` for the code point
`XXXX`. -/
def jsonUnescape : GoString → Option GoString
  | [] => some []
  | c :: rest =>
    if c = '\\' then
      match rest with
      | [] => none
      | e :: rest1 =>
        if e = 'u' then
          match rest1 with
          | a :: b :: x :: d :: rest2 => consTo (jsonEscapedU a b x d) (jsonUnescape rest2)
          | _ => none
        else consTo (jsonEscaped e) (jsonUnescape rest1)
    else if c = '"' ∨ c.toNat < 0x20 then none
    else consTo (some c) (jsonUnescape rest)

/-- The string that a JSON string literal denotes: the text between its quotes, unescaped. -/
def jsonUnquote (lit : GoString) : Option GoString :=
  match lit with
  | '"' :: rest =>
    match rest.reverse with
    | '"' :: inner => jsonUnescape inner.reverse
    | _ => none
  | _ => none

/-- The pipeline of the program in JSON mode on the text `output` of the external command:
`exportJSON(parseOutput(output, resourceType, namespace))`. -/
def pipelineJSON (output resourceType namespace_ : GoString) (world : World) :
    Option (World × Outcome) :=
  (parseOutput output resourceType namespace_).map (fun metrics => exportJSON metrics world)

/-- The loop of `appendIndent` (no prefix, two spaces of indent), started with the scanner
`s0`, `needIndent = n0` and `depth = d0` on the bytes `src`, ends without error with the
scanner `s1`, `needIndent = n1` and `depth = d1`, having added `out` to the output. -/
def Indents (src : List Byte) (s0 : json.scanner) (n0 : Bool) (d0 : Int)
    (s1 : json.scanner) (n1 : Bool) (d1 : Int) (out : List Byte) : Prop :=
  ∀ dst : List Byte,
    json.indentLoop [] [0x20, 0x20] src s0 ⟨dst, n0, d0⟩ =
      Except.ok (s1, ⟨dst ++ out, n1, d1⟩)

/-- What the encoder writes for a record after the opening `{"resource":"`. -/
def objTail (m : Metric) : GoString :=
  json.escape m.Resource ++ ("\",\"namespace\":\"".toList ++
    (json.escape m.Namespace ++ ("\",\"name\":\"".toList ++
      (json.escape m.Name ++ ("\",\"cpu\":\"".toList ++
        (json.escape m.CPU ++ ("\",\"memory\":\"".toList ++
          (json.escape m.Memory ++ "\"\x7d".toList))))))))

/-- The indented form of `objTail`. -/
def objTailOut (m : Metric) : GoString :=
  json.escape m.Resource ++ ("\",\n    \"namespace\": \"".toList ++
    (json.escape m.Namespace ++ ("\",\n    \"name\": \"".toList ++
      (json.escape m.Name ++ ("\",\n    \"cpu\": \"".toList ++
        (json.escape m.CPU ++ ("\",\n    \"memory\": \"".toList ++
          (json.escape m.Memory ++ "\"\n  \x7d".toList))))))))

/-! ### The vocabulary of the statements about `getMetrics` and `main` -/

/-- The command `kubectl top <kind> -n <namespace>` for the kind `pod`, and
`kubectl top <kind>` for every other kind. -/
def kubectlTop (resourceType namespace_ : GoString) : exec.Cmd :=
  { Path := "kubectl".toList,
    Args :=
      if resourceType = "pod".toList then
        ["kubectl".toList, "top".toList, resourceType, "-n".toList, namespace_]
      else ["kubectl".toList, "top".toList, resourceType] }

/-- A host on which every command fails with the error `err`, having printed nothing. -/
def exec.Host.failing (err : GoError) : exec.Host :=
  { respond := fun _ => ([], some err), ran := [] }

/-- A host on which every command succeeds and prints `output`. -/
def exec.Host.printing (output : GoString) : exec.Host :=
  { respond := fun _ => (output, none), ran := [] }

/-- The exit code of the process for an outcome of `main`. -/
def Outcome.exitCode : Outcome → Nat
  | Outcome.returned => 0
  | Outcome.exited code => code

/-! ### The vocabulary of the statements about CSV quoting: reading CSV text back

The reader below follows the grammar of standard CSV (RFC 4180), not the program: records
end at a line break (LF or CR LF), fields are separated by commas, a field that begins with
a double quote runs to the closing quote, and inside it two double quotes stand for one. -/

/-- The text of a field with every double quote in it doubled. -/
def doubleQuotes : GoString → GoString
  | [] => []
  | c :: cs => (if c = '"' then ['"', '"'] else [c]) ++ doubleQuotes cs

/-- The text of a field enclosed in double quotes, every double quote in it doubled. -/
def csvQuoted (field : GoString) : GoString := '"' :: (doubleQuotes field ++ ['"'])

namespace rfc4180

/-- Where the reader stands: at the start of a field, inside a field that did not begin
with a quote, inside a quoted field, behind a quote met inside a quoted field (the field
has ended unless a second quote follows), or behind the CR of a line break. -/
inductive Mode where
  | fieldStart : Mode
  | unquoted : Mode
  | quoted : Mode
  | quoteSeen : Mode
  | crSeen : Mode
  deriving DecidableEq, Repr

/-- The reader: the records read so far, the fields read so far of the record being read,
the runes read so far of the field being read, and the mode. -/
structure Reader where
  records : List (List GoString)
  fields : List GoString
  field : GoString
  mode : Mode
  deriving DecidableEq, Repr

/-- The reader after the end of a field. -/
def Reader.endField (r : Reader) : Reader :=
  { records := r.records, fields := r.fields ++ [r.field], field := [],
    mode := Mode.fieldStart }

/-- The reader after the end of a record. -/
def Reader.endRecord (r : Reader) : Reader :=
  { records := r.records ++ [r.fields ++ [r.field]], fields := [], field := [],
    mode := Mode.fieldStart }

/-- One rune of the text; `none` when the text is not CSV. -/
def step (r : Reader) (c : Char) : Option Reader :=
  match r.mode with
  | Mode.fieldStart =>
    if c = '"' then some { r with mode := Mode.quoted }
    else if c = ',' then some r.endField
    else if c = '\n' then some r.endRecord
    else if c = '\r' then some { r with mode := Mode.crSeen }
    else some { r with field := [c], mode := Mode.unquoted }
  | Mode.unquoted =>
    if c = '"' then none
    else if c = ',' then some r.endField
    else if c = '\n' then some r.endRecord
    else if c = '\r' then some { r with mode := Mode.crSeen }
    else some { r with field := r.field ++ [c] }
  | Mode.quoted =>
    if c = '"' then some { r with mode := Mode.quoteSeen }
    else some { r with field := r.field ++ [c] }
  | Mode.quoteSeen =>
    if c = '"' then some { r with field := r.field ++ ['"'], mode := Mode.quoted }
    else if c = ',' then some r.endField
    else if c = '\n' then some r.endRecord
    else if c = '\r' then some { r with mode := Mode.crSeen }
    else none
  | Mode.crSeen => if c = '\n' then some r.endRecord else none

/-- The runes of a text, one after the other. -/
def run : Reader → GoString → Option Reader
  | r, [] => some r
  | r, c :: cs =>
    match step r c with
    | none => none
    | some r2 => run r2 cs

/-- The records a CSV text denotes (`none` when the text is not CSV).  The last record may
end with or without a line break. -/
def read (text : GoString) : Option (List (List GoString)) :=
  match run { records := [], fields := [], field := [], mode := Mode.fieldStart } text with
  | none => none
  | some r =>
    match r.mode with
    | Mode.quoted => none
    | Mode.crSeen => none
    | Mode.fieldStart => if r.fields = [] then some r.records else some r.endRecord.records
    | Mode.unquoted => some r.endRecord.records
    | Mode.quoteSeen => some r.endRecord.records

end rfc4180

/-! ### The vocabulary of the statements about strings that need not be valid UTF-8 -/

/-- The bytes `p` are valid UTF-8: they are the encoding of a sequence of runes. -/
def utf8.WellFormed (p : List Byte) : Prop := ∃ s : GoString, utf8.Encode s = p

/-- The five strings of the record are valid UTF-8. -/
def MetricBytes.ValidUTF8 (m : MetricBytes) : Prop :=
  utf8.WellFormed m.Resource ∧ utf8.WellFormed m.Namespace ∧ utf8.WellFormed m.Name ∧
    utf8.WellFormed m.CPU ∧ utf8.WellFormed m.Memory

/-! ## Part 2: lemmas on the string functions -/

namespace strings

theorem Split_ne_nil (s : GoString) (sep : Char) : Split s sep ≠ [] := by
  induction s with
  | nil => simp [Split]
  | cons c cs ih =>
    unfold Split
    split
    · simp
    · split <;> simp

/-- Splitting at the first separator: the text before it is the first line. -/
theorem Split_append_sep (a b : GoString) (sep : Char) (ha : sep ∉ a) :
    Split (a ++ sep :: b) sep = a :: Split b sep := by
  induction a with
  | nil => simp [Split]
  | cons c cs ih =>
    have hc : c ≠ sep := fun h => ha (by simp [h])
    have hcs : sep ∉ cs := fun h => ha (by simp [h])
    simp only [List.cons_append]
    rw [Split, if_neg hc, ih hcs]

theorem Split_of_not_mem (a : GoString) (sep : Char) (ha : sep ∉ a) :
    Split a sep = [a] := by
  induction a with
  | nil => simp [Split]
  | cons c cs ih =>
    have hc : c ≠ sep := fun h => ha (by simp [h])
    have hcs : sep ∉ cs := fun h => ha (by simp [h])
    rw [Split, if_neg hc, ih hcs]

/-- A separator anywhere splits the list of lines in two. -/
theorem Split_append_sep_gen (a b : GoString) (sep : Char) :
    Split (a ++ sep :: b) sep = Split a sep ++ Split b sep := by
  induction a with
  | nil => simp [Split]
  | cons c cs ih =>
    simp only [List.cons_append]
    by_cases hc : c = sep
    · rw [Split, if_pos hc, ih, Split, if_pos hc]; simp
    · rw [Split, if_neg hc, ih, Split, if_neg hc]
      cases h : Split cs sep with
      | nil => exact absurd h (Split_ne_nil _ _)
      | cons l ls => simp

theorem Split_snoc_sep (t : GoString) (sep : Char) :
    Split (t ++ [sep]) sep = Split t sep ++ [[]] := by
  rw [Split_append_sep_gen]; simp [Split]

/-- Appending a rune that is not the separator extends the last line. -/
theorem Split_snoc_other (t : GoString) (sep c : Char) (hc : c ≠ sep) :
    ∃ init last, Split t sep = init ++ [last] ∧ Split (t ++ [c]) sep = init ++ [last ++ [c]] := by
  induction t with
  | nil => exact ⟨[], [], by simp [Split], by simp [Split, hc]⟩
  | cons d ds ih =>
    obtain ⟨init, last, h1, h2⟩ := ih
    simp only [List.cons_append]
    by_cases hd : d = sep
    · refine ⟨[] :: init, last, ?_, ?_⟩
      · rw [Split, if_pos hd, h1]; simp
      · rw [Split, if_pos hd, h2]; simp
    · cases init with
      | nil =>
        refine ⟨[], d :: last, ?_, ?_⟩
        · rw [Split, if_neg hd, h1]; simp
        · rw [Split, if_neg hd, h2]; simp
      | cons i0 is =>
        refine ⟨(d :: i0) :: is, last, ?_, ?_⟩
        · rw [Split, if_neg hd, h1]; simp
        · rw [Split, if_neg hd, h2]; simp

theorem FieldsLoop_snoc_space (l : GoString) (c : Char) (hc : unicode.IsSpace c = true)
    (cur : GoString) : FieldsLoop (l ++ [c]) cur = FieldsLoop l cur := by
  induction l generalizing cur with
  | nil => simp [FieldsLoop, hc]
  | cons d ds ih =>
    simp only [List.cons_append, FieldsLoop]
    split
    · split
      · exact ih []
      · exact congrArg _ (ih [])
    · exact ih _

theorem Fields_snoc_space (l : GoString) (c : Char) (hc : unicode.IsSpace c = true) :
    Fields (l ++ [c]) = Fields l := FieldsLoop_snoc_space l c hc []

theorem Fields_append_spaces (l w : GoString) (hw : ∀ c ∈ w, unicode.IsSpace c = true) :
    Fields (l ++ w) = Fields l := by
  induction w using List.reverseRecOn with
  | nil => simp
  | append_singleton w c ih =>
    rw [← List.append_assoc, Fields_snoc_space _ _ (hw c (by simp))]
    exact ih (fun d hd => hw d (by simp [hd]))

theorem Fields_nil : Fields [] = [] := by simp [Fields, FieldsLoop]

theorem Fields_cons_space (l : GoString) (c : Char) (hc : unicode.IsSpace c = true) :
    Fields (c :: l) = Fields l := by
  simp [Fields, FieldsLoop, hc]

theorem Fields_dropWhile (l : GoString) : Fields (l.dropWhile unicode.IsSpace) = Fields l := by
  induction l with
  | nil => rfl
  | cons c cs ih =>
    rw [List.dropWhile_cons]
    cases hc : unicode.IsSpace c with
    | true => simp only [if_true]; rw [ih, Fields_cons_space _ _ hc]
    | false => simp

theorem Fields_of_all_space (w : GoString) (hw : ∀ c ∈ w, unicode.IsSpace c = true) :
    Fields w = [] := by
  have h := Fields_append_spaces [] w hw
  simpa [Fields_nil] using h

theorem exists_not_space_of_Fields_ne_nil (l : GoString) (h : Fields l ≠ []) :
    ∃ c ∈ l, unicode.IsSpace c = false := by
  by_contra hne
  apply h
  apply Fields_of_all_space
  intro c hc
  cases hs : unicode.IsSpace c with
  | true => rfl
  | false => exact absurd ⟨c, hc, hs⟩ hne

theorem FieldsLoop_append_space (a b : GoString) (sp : Char)
    (hsp : unicode.IsSpace sp = true) (cur : GoString) :
    FieldsLoop (a ++ sp :: b) cur = FieldsLoop a cur ++ FieldsLoop b [] := by
  induction a generalizing cur with
  | nil =>
    simp only [List.nil_append, FieldsLoop, hsp, if_true]
    split <;> simp
  | cons d ds ih =>
    simp only [List.cons_append, FieldsLoop]
    split
    · split
      · exact ih []
      · exact congrArg (List.cons cur.reverse) (ih [])
    · exact ih _

/-- White space between two texts separates their fields. -/
theorem Fields_append_space (a b : GoString) (sp : Char) (hsp : unicode.IsSpace sp = true) :
    Fields (a ++ sp :: b) = Fields a ++ Fields b :=
  FieldsLoop_append_space a b sp hsp []

end strings

namespace strings

theorem FieldsLoop_no_space (s cur : GoString) (hcur : ∀ c ∈ cur, unicode.IsSpace c = false) :
    ∀ f ∈ FieldsLoop s cur, f ≠ [] ∧ ∀ c ∈ f, unicode.IsSpace c = false := by
  induction s generalizing cur with
  | nil =>
    intro f hf
    unfold FieldsLoop at hf
    by_cases he : cur.isEmpty = true
    · rw [if_pos he] at hf; cases hf
    · rw [if_neg he] at hf
      have : f = cur.reverse := by simpa using hf
      subst this
      refine ⟨fun h => he (by simpa using h), fun c hc => hcur c (List.mem_reverse.mp hc)⟩
  | cons d ds ih =>
    intro f hf
    unfold FieldsLoop at hf
    by_cases hd : unicode.IsSpace d = true
    · rw [if_pos hd] at hf
      by_cases he : cur.isEmpty = true
      · rw [if_pos he] at hf
        exact ih [] (fun c hc => by cases hc) f hf
      · rw [if_neg he] at hf
        rcases List.mem_cons.mp hf with rfl | hf
        · exact ⟨fun h => he (by simpa using h), fun c hc => hcur c (List.mem_reverse.mp hc)⟩
        · exact ih [] (fun c hc => by cases hc) f hf
    · rw [if_neg hd] at hf
      refine ih (d :: cur) ?_ f hf
      intro c hc
      rcases List.mem_cons.mp hc with rfl | hc
      · simpa using hd
      · exact hcur c hc

/-- Every field is a non-empty run of runes none of which is white space. -/
theorem Fields_no_space (s : GoString) :
    ∀ f ∈ Fields s, f ≠ [] ∧ ∀ c ∈ f, unicode.IsSpace c = false :=
  FieldsLoop_no_space s [] (fun c hc => by cases hc)

end strings

/-! ## Part 2, continued: lemmas on the parser -/

theorem recordOfFields_of_length_lt (rt ns : GoString) (fs : List GoString)
    (h : fs.length < 3) : recordOfFields rt ns fs = none := by
  match fs, h with
  | [], _ => rfl
  | [_], _ => rfl
  | [_, _], _ => rfl

theorem parseLoop_eq (rt ns : GoString) (lines : List GoString) (acc : List Metric) :
    parseLoop rt ns lines acc =
      some (acc ++ lines.filterMap (fun l => recordOfFields rt ns (strings.Fields l))) := by
  induction lines generalizing acc with
  | nil => simp [parseLoop]
  | cons line rest ih =>
    rw [parseLoop]
    by_cases h : (strings.Fields line).length < 3
    · simp only [h, if_true]
      rw [ih, List.filterMap_cons, recordOfFields_of_length_lt rt ns _ h]
    · simp only [h, if_false]
      match hf : strings.Fields line, h with
      | f0 :: f1 :: f2 :: more, _ =>
        simp only [List.get?, ih, List.filterMap_cons, hf, recordOfFields, namespaceFor]
        split <;> simp
      | [], h => simp at h
      | [_], h => simp at h
      | [_, _], h => simp at h

theorem parseOutput_eq (output rt ns : GoString) :
    parseOutput output rt ns = some (GoSlice.alloc
      ((dataLines output).filterMap (fun l => recordOfFields rt ns (strings.Fields l)))) := by
  unfold parseOutput dataLines
  cases h : strings.Split (strings.TrimSpace output) '\n' with
  | nil => exact absurd h (strings.Split_ne_nil _ _)
  | cons l ls => simp [sliceFrom1, parseLoop_eq]

theorem filterMap_recordOfFields_rows (rt ns : GoString) (ls : List GoString) :
    ls.filterMap (fun l => recordOfFields rt ns (strings.Fields l)) =
      (((ls.map strings.Fields).filter (fun fs => !fs.isEmpty)).filterMap
        (recordOfFields rt ns)) := by
  induction ls with
  | nil => rfl
  | cons l ls ih =>
    rw [List.filterMap_cons, List.map_cons, List.filter_cons, ih]
    cases hf : strings.Fields l with
    | nil => simp [recordOfFields]
    | cons f fs => simp [List.filterMap_cons]

theorem rows_snoc_space (t : GoString) (c : Char) (hc : unicode.IsSpace c = true) :
    rows (t ++ [c]) = rows t := by
  unfold rows
  by_cases hn : c = '\n'
  · subst hn
    rw [strings.Split_snoc_sep]
    cases h : strings.Split t '\n' with
    | nil => exact absurd h (strings.Split_ne_nil _ _)
    | cons l ls => simp [strings.Fields_nil]
  · obtain ⟨init, last, h1, h2⟩ := strings.Split_snoc_other t '\n' c hn
    rw [h1, h2]
    cases init with
    | nil => simp
    | cons i0 is => simp [strings.Fields_snoc_space _ _ hc]

theorem rows_append_spaces (t w : GoString) (hw : ∀ c ∈ w, unicode.IsSpace c = true) :
    rows (t ++ w) = rows t := by
  induction w using List.reverseRecOn with
  | nil => simp
  | append_singleton w c ih =>
    rw [← List.append_assoc, rows_snoc_space _ _ (hw c (by simp))]
    exact ih (fun d hd => hw d (by simp [hd]))

/-- A text is its right-trimmed part followed by white space only. -/
theorem rtrim_decomp (t : GoString) :
    ∃ w, (∀ c ∈ w, unicode.IsSpace c = true) ∧
      t = (t.reverse.dropWhile unicode.IsSpace).reverse ++ w := by
  refine ⟨(t.reverse.takeWhile unicode.IsSpace).reverse, ?_, ?_⟩
  · intro c hc
    exact List.mem_takeWhile_imp (List.mem_reverse.mp hc)
  · rw [← List.reverse_append, List.takeWhile_append_dropWhile, List.reverse_reverse]

theorem rows_TrimSpace (t : GoString) :
    rows (strings.TrimSpace t) = rows (t.dropWhile unicode.IsSpace) := by
  obtain ⟨w, hw, h⟩ := rtrim_decomp (t.dropWhile unicode.IsSpace)
  unfold strings.TrimSpace
  conv_rhs => rw [h]
  exact (rows_append_spaces _ w hw).symm

theorem parseOutput_eq_rows (output rt ns : GoString) :
    parseOutput output rt ns = some (GoSlice.alloc
      ((rows (output.dropWhile unicode.IsSpace)).filterMap (recordOfFields rt ns))) := by
  rw [parseOutput_eq, filterMap_recordOfFields_rows, ← rows_TrimSpace]
  rfl

theorem dropWhile_append_of_exists {p : Char → Bool} (a b : GoString)
    (h : ∃ c ∈ a, p c = false) : (a ++ b).dropWhile p = a.dropWhile p ++ b := by
  induction a with
  | nil => simp at h
  | cons x xs ih =>
    simp only [List.cons_append, List.dropWhile_cons]
    cases hx : p x with
    | false => simp
    | true =>
      simp only [if_true]
      apply ih
      obtain ⟨c, hc, hpc⟩ := h
      rcases List.mem_cons.mp hc with rfl | hc
      · rw [hx] at hpc; cases hpc
      · exact ⟨c, hc, hpc⟩

theorem dropWhile_append_of_all {p : Char → Bool} (a b : GoString)
    (h : ∀ c ∈ a, p c = true) : (a ++ b).dropWhile p = b.dropWhile p := by
  induction a with
  | nil => rfl
  | cons x xs ih =>
    simp only [List.cons_append, List.dropWhile_cons, h x (by simp), if_true]
    exact ih (fun c hc => h c (by simp [hc]))

theorem Split_joinLines (l : GoString) (ls : List GoString)
    (h : ∀ x ∈ l :: ls, '\n' ∉ x) : strings.Split (joinLines (l :: ls)) '\n' = l :: ls := by
  induction ls generalizing l with
  | nil => exact strings.Split_of_not_mem l '\n' (h l (by simp))
  | cons l2 ls ih =>
    rw [joinLines, strings.Split_append_sep _ _ _ (h l (by simp))]
    rw [ih l2 (fun x hx => h x (by simp [List.mem_cons.mp hx]))]

theorem joinLines_cons (l : GoString) (ls : List GoString) :
    joinLines (l :: ls) = l ++ restText ls := by
  cases ls with
  | nil => simp [joinLines, restText]
  | cons l2 ls => simp [joinLines, restText]

theorem not_mem_dropWhile {p : Char → Bool} (a : GoString) (c : Char) (h : c ∉ a) :
    c ∉ a.dropWhile p :=
  fun hc => h ((List.dropWhile_suffix p).subset hc)

theorem parseOutput_joinLines (h : GoString) (ds : List GoString) (rt ns : GoString)
    (hh : ∃ c ∈ h, unicode.IsSpace c = false) (hnl : '\n' ∉ h)
    (hds : ∀ d ∈ ds, '\n' ∉ d) :
    parseOutput (joinLines (h :: ds)) rt ns = some (GoSlice.alloc
      (ds.filterMap (fun l => recordOfFields rt ns (strings.Fields l)))) := by
  rw [parseOutput_eq_rows, joinLines_cons, dropWhile_append_of_exists _ _ hh, ← joinLines_cons]
  have hs : strings.Split (joinLines (h.dropWhile unicode.IsSpace :: ds)) '\n' =
      h.dropWhile unicode.IsSpace :: ds := by
    apply Split_joinLines
    intro x hx
    rcases List.mem_cons.mp hx with rfl | hx
    · exact not_mem_dropWhile _ _ hnl
    · exact hds x hx
  rw [filterMap_recordOfFields_rows]
  simp [rows, hs]

theorem filterMap_record_forall₂ (rt ns : GoString) (ls : List GoString) :
    List.Forall₂ (BuiltFrom rt ns)
      (ls.filter (fun l => decide (3 ≤ (strings.Fields l).length)))
      (ls.filterMap (fun l => recordOfFields rt ns (strings.Fields l))) := by
  induction ls with
  | nil => exact List.Forall₂.nil
  | cons l ls ih =>
    rw [List.filter_cons, List.filterMap_cons]
    match hf : strings.Fields l with
    | f0 :: f1 :: f2 :: more =>
      have h3 : decide (3 ≤ (f0 :: f1 :: f2 :: more).length) = true := by simp
      rw [if_pos h3]
      exact List.Forall₂.cons ⟨f0, f1, f2, more, hf, rfl⟩ ih
    | [] => simpa [recordOfFields] using ih
    | [_] => simpa [recordOfFields] using ih
    | [_, _] => simpa [recordOfFields] using ih

theorem Split_line_post (post' : GoString)
    (hp : post' = [] ∨ ∃ post, post' = '\n' :: post) :
    ∃ P, ∀ y : GoString, '\n' ∉ y → strings.Split (y ++ post') '\n' = y :: P := by
  rcases hp with rfl | ⟨post, rfl⟩
  · exact ⟨[], fun y hy => by simpa using strings.Split_of_not_mem y '\n' hy⟩
  · exact ⟨strings.Split post '\n', fun y hy => strings.Split_append_sep y post '\n' hy⟩

theorem rows_filterMap (rt ns : GoString) (t : GoString) :
    (rows t).filterMap (recordOfFields rt ns) =
      ((strings.Split t '\n').tail).filterMap (fun l => recordOfFields rt ns (strings.Fields l)) :=
  (filterMap_recordOfFields_rows rt ns _).symm

theorem isSpace_newline : unicode.IsSpace '\n' = true := by decide

/-- The records of a text depend on a line `y` in it only through the record of `y`. -/
theorem rows_context (rt ns pre post' : GoString)
    (hp : post' = [] ∨ ∃ post, post' = '\n' :: post) :
    ∃ f : Option Metric → List Metric, ∀ y : GoString, '\n' ∉ y →
      (∃ c ∈ y, unicode.IsSpace c = false) →
      (rows ((pre ++ '\n' :: (y ++ post')).dropWhile unicode.IsSpace)).filterMap
          (recordOfFields rt ns) = f (recordOfFields rt ns (strings.Fields y)) := by
  obtain ⟨P, hP⟩ := Split_line_post post' hp
  by_cases hpre : ∃ c ∈ pre, unicode.IsSpace c = false
  · refine ⟨fun o => ((strings.Split (pre.dropWhile unicode.IsSpace) '\n').tail).filterMap
        (fun l => recordOfFields rt ns (strings.Fields l)) ++
        (o.toList ++ P.filterMap (fun l => recordOfFields rt ns (strings.Fields l))), ?_⟩
    intro y hy _
    rw [rows_filterMap, dropWhile_append_of_exists _ _ hpre, strings.Split_append_sep_gen, hP y hy]
    cases hs : strings.Split (pre.dropWhile unicode.IsSpace) '\n' with
    | nil => exact absurd hs (strings.Split_ne_nil _ _)
    | cons l ls =>
      simp only [List.cons_append, List.tail_cons, List.filterMap_append, List.filterMap_cons]
      cases recordOfFields rt ns (strings.Fields y) <;> simp
  · refine ⟨fun _ => P.filterMap (fun l => recordOfFields rt ns (strings.Fields l)), ?_⟩
    intro y hy hyn
    have hall : ∀ c ∈ pre, unicode.IsSpace c = true := by
      intro c hc
      cases hs : unicode.IsSpace c with
      | true => rfl
      | false => exact absurd ⟨c, hc, hs⟩ hpre
    rw [rows_filterMap, dropWhile_append_of_all _ _ hall, List.dropWhile_cons, isSpace_newline]
    simp only [if_true]
    rw [dropWhile_append_of_exists _ _ hyn, hP _ (not_mem_dropWhile y '\n' hy)]
    rfl

theorem recordOfFields_append (rt ns : GoString) (fs more : List GoString)
    (h : 3 ≤ fs.length) : recordOfFields rt ns (fs ++ more) = recordOfFields rt ns fs := by
  match fs, h with
  | _ :: _ :: _ :: _, _ => rfl

/-! ## Part 2, continued: lemmas on the buffered writer -/

theorem Stream.Write_length (f : Stream) (p : List Byte) (h : (f.Write p).2.2 = none) :
    (f.Write p).2.1 = p.length := by
  revert h
  unfold Stream.Write
  cases f.room with
  | none => simp
  | some k =>
    by_cases hk : p.length ≤ k <;> simp [hk]

namespace bufio.Writer

theorem Flush_buf_of_ok (b : Writer) (h : b.err = none) (hf : b.Flush.1.err = none) :
    b.Flush.1.buf = [] := by
  unfold Flush at hf ⊢
  rw [h] at hf ⊢
  by_cases h0 : b.buf.length = 0
  · simpa [h0] using List.length_eq_zero.mp h0
  · simp only [h0, if_false] at hf ⊢
    split
    · rename_i e he
      rw [he] at hf
      cases hf
    · rfl

theorem loopMeasure_Flush (b1 : Writer) (h : b1.err = none) (s : List Byte) :
    loopMeasure b1.Flush.1 s ≤ 2 * s.length + 1 := by
  unfold loopMeasure
  cases hf : b1.Flush.1.err with
  | some e => simp
  | none => simp [Flush_buf_of_ok b1 h hf]

theorem loopMeasure_direct (b : Writer) (s : List Byte) :
    loopMeasure { b with wr := (b.wr.Write s).1, err := (b.wr.Write s).2.2 }
      (s.drop (b.wr.Write s).2.1) ≤ 2 := by
  unfold loopMeasure
  cases hr : (b.wr.Write s).2.2 with
  | some e => simp
  | none =>
    have := Stream.Write_length b.wr s hr
    simp [this]
    split <;> omega

/-- The measure bounds the rounds of the loop: any two amounts of fuel above it give the
same result. -/
theorem WriteStringLoopFuel_irrel (f f' : Nat) (b : Writer) (s : List Byte)
    (h : loopMeasure b s < f) (h' : loopMeasure b s < f') :
    WriteStringLoopFuel f b s = WriteStringLoopFuel f' b s := by
  induction f generalizing f' b s with
  | zero => omega
  | succ f ih =>
    cases f' with
    | zero => omega
    | succ f' =>
      unfold WriteStringLoopFuel
      by_cases hc : s.length > b.Available ∧ b.err = none
      · have hm : loopMeasure b s = 2 * s.length + (if b.buf.length = 0 then 1 else 2) := by
          simp [loopMeasure, hc.2]
        have hpos : 0 < s.length := by omega
        rw [if_pos hc]
        by_cases hb : b.Buffered = 0
        · rw [if_pos hb, if_pos hc, if_pos hb]
          have h1 := loopMeasure_direct b s
          have hb0 : b.buf.length = 0 := hb
          rw [hb0] at hm
          simp only [if_true] at hm
          exact ih _ _ _ (by omega) (by omega)
        · rw [if_neg hb, if_pos hc, if_neg hb]
          have h1 := loopMeasure_Flush { b with buf := b.buf ++ s.take (min s.length b.Available) }
            hc.2 (s.drop (min s.length b.Available))
          have hb0 : ¬ b.buf.length = 0 := hb
          have hlen : (s.drop (min s.length b.Available)).length ≤ s.length := by simp
          rw [if_neg hb0] at hm
          exact ih _ _ _ (by omega) (by omega)
      · rw [if_neg hc, if_neg hc]

/-- The loop of `WriteString` satisfies the equation of the Go loop. -/
theorem WriteStringLoop_eq (b : Writer) (s : List Byte) :
    WriteStringLoop b s =
      if s.length > b.Available ∧ b.err = none then
        if b.Buffered = 0 then
          WriteStringLoop { b with wr := (b.wr.Write s).1, err := (b.wr.Write s).2.2 }
            (s.drop (b.wr.Write s).2.1)
        else
          WriteStringLoop
            (Flush { b with buf := b.buf ++ s.take (min s.length b.Available) }).1
            (s.drop (min s.length b.Available))
      else (b, s) := by
  unfold WriteStringLoop
  rw [WriteStringLoopFuel]
  by_cases hc : s.length > b.Available ∧ b.err = none
  · have hm : loopMeasure b s = 2 * s.length + (if b.buf.length = 0 then 1 else 2) := by
      simp [loopMeasure, hc.2]
    have hpos : 0 < s.length := by omega
    rw [if_pos hc, if_pos hc]
    by_cases hb : b.Buffered = 0
    · rw [if_pos hb, if_pos hb]
      have h1 := loopMeasure_direct b s
      have hb0 : b.buf.length = 0 := hb
      rw [hb0] at hm
      simp only [if_true] at hm
      exact WriteStringLoopFuel_irrel _ _ _ _ (by omega) (by omega)
    · rw [if_neg hb, if_neg hb]
      have h1 := loopMeasure_Flush { b with buf := b.buf ++ s.take (min s.length b.Available) }
        hc.2 (s.drop (min s.length b.Available))
      have hb0 : ¬ b.buf.length = 0 := hb
      have hlen : (s.drop (min s.length b.Available)).length ≤ s.length := by simp
      rw [if_neg hb0] at hm
      exact WriteStringLoopFuel_irrel _ _ _ _ (by omega) (by omega)
  · rw [if_neg hc, if_neg hc]

end bufio.Writer

/-! ## Part 2, continued: what the buffered writer and the CSV writer emit -/

theorem utf8.Encode_append (a b : GoString) :
    utf8.Encode (a ++ b) = utf8.Encode a ++ utf8.Encode b := by
  induction a with
  | nil => rfl
  | cons c cs ih => simp [utf8.Encode, ih]

namespace bufio.Writer

theorem Flush_of_Good (b : Writer) (h : b.Good) :
    b.Flush.1.Good ∧ b.Flush.2 = none ∧ b.Flush.1.out = b.out ∧ b.Flush.1.buf = [] ∧
      b.Flush.1.size = b.size ∧ b.Flush.1.wr.failure = b.wr.failure := by
  obtain ⟨he, hr⟩ := h
  unfold Flush
  rw [he]
  by_cases h0 : b.buf.length = 0
  · have hb : b.buf = [] := List.length_eq_zero.mp h0
    simp [h0, Good, he, hr, hb]
  · simp [h0, Stream.Write, hr, Good, he, out]

theorem WriteByte_of_ok (b : Writer) (c : Byte) (he : b.err = none) :
    b.WriteByte c =
      if b.Available ≤ 0 then
        match b.Flush.2 with
        | some _ => (b.Flush.1, b.Flush.1.err)
        | none => ({ b.Flush.1 with buf := b.Flush.1.buf ++ [c] }, none)
      else ({ b with buf := b.buf ++ [c] }, none) := by
  unfold WriteByte
  rw [he]

theorem WriteByte_Emits (c : Byte) : Emits (fun b => b.WriteByte c) [c] := by
  intro b h
  obtain ⟨hg, hn, ho, hb, hs, hf⟩ := Flush_of_Good b h
  show (b.WriteByte c).1.Good ∧ (b.WriteByte c).2 = none ∧ (b.WriteByte c).1.out = b.out ++ [c] ∧
    (b.WriteByte c).1.wr.failure = b.wr.failure
  rw [WriteByte_of_ok b c h.1]
  by_cases ha : b.Available ≤ 0
  · rw [if_pos ha, hn]
    refine ⟨⟨hg.1, hg.2⟩, rfl, ?_, hf⟩
    show b.Flush.1.wr.written ++ (b.Flush.1.buf ++ [c]) = b.out ++ [c]
    rw [← List.append_assoc]
    exact congrArg (fun l => l ++ [c]) ho
  · rw [if_neg ha]
    refine ⟨⟨h.1, h.2⟩, rfl, ?_, rfl⟩
    show b.wr.written ++ (b.buf ++ [c]) = b.wr.written ++ b.buf ++ [c]
    rw [List.append_assoc]

theorem WriteStringLoop_of_Good (n : Nat) (b : Writer) (s : List Byte) (hn : loopMeasure b s ≤ n)
    (h : b.Good) :
    (WriteStringLoop b s).1.Good ∧
      (WriteStringLoop b s).1.out ++ (WriteStringLoop b s).2 = b.out ++ s ∧
      (WriteStringLoop b s).2.length ≤ (WriteStringLoop b s).1.Available ∧
      (WriteStringLoop b s).1.wr.failure = b.wr.failure := by
  induction n generalizing b s with
  | zero =>
    have : loopMeasure b s = 2 * s.length + (if b.buf.length = 0 then 1 else 2) := by
      simp [loopMeasure, h.1]
    split at this <;> omega
  | succ n ih =>
    have hm : loopMeasure b s = 2 * s.length + (if b.buf.length = 0 then 1 else 2) := by
      simp [loopMeasure, h.1]
    rw [WriteStringLoop_eq]
    by_cases hc : s.length > b.Available ∧ b.err = none
    · rw [if_pos hc]
      have hpos : 0 < s.length := by omega
      by_cases hb : b.Buffered = 0
      · rw [if_pos hb]
        have hb0 : b.buf.length = 0 := hb
        have hbn : b.buf = [] := List.length_eq_zero.mp hb0
        have h1 := loopMeasure_direct b s
        rw [hb0] at hm
        simp only [if_true] at hm
        have hw : b.wr.Write s = ({ b.wr with written := b.wr.written ++ s }, s.length, none) := by
          simp [Stream.Write, h.2]
        have hg : Good { b with wr := (b.wr.Write s).1, err := (b.wr.Write s).2.2 } := by
          rw [hw]; exact ⟨rfl, h.2⟩
        obtain ⟨i1, i2, i3, i4⟩ := ih _ (s.drop (b.wr.Write s).2.1) (by omega) hg
        refine ⟨i1, ?_, i3, ?_⟩
        · rw [i2, hw]; simp [out, hbn]
        · rw [i4, hw]
      · rw [if_neg hb]
        have hb0 : ¬ b.buf.length = 0 := hb
        rw [if_neg hb0] at hm
        have hg1 : Good { b with buf := b.buf ++ s.take (min s.length b.Available) } := h
        have h1 := loopMeasure_Flush { b with buf := b.buf ++ s.take (min s.length b.Available) }
          hc.2 (s.drop (min s.length b.Available))
        have hlen : (s.drop (min s.length b.Available)).length ≤ s.length := by simp
        obtain ⟨f1, f2, f3, f4, f5, f6⟩ := Flush_of_Good _ hg1
        obtain ⟨i1, i2, i3, i4⟩ := ih _ (s.drop (min s.length b.Available)) (by omega) f1
        refine ⟨i1, ?_, i3, ?_⟩
        · rw [i2, f3]
          simp only [out, List.append_assoc, List.take_append_drop]
        · rw [i4, f6]
    · rw [if_neg hc]
      refine ⟨h, rfl, ?_, rfl⟩
      show s.length ≤ b.Available
      by_contra hlt
      exact hc ⟨by omega, h.1⟩

theorem WriteString_of_ok (b : Writer) (s : List Byte)
    (he : (WriteStringLoop b s).1.err = none) :
    b.WriteString s =
      ({ (WriteStringLoop b s).1 with
          buf := (WriteStringLoop b s).1.buf ++
            (WriteStringLoop b s).2.take (WriteStringLoop b s).1.Available }, none) := by
  simp only [WriteString, he]

theorem WriteString_Emits (s : List Byte) : Emits (fun b => b.WriteString s) s := by
  intro b h
  obtain ⟨i1, i2, i3, i4⟩ := WriteStringLoop_of_Good _ b s (Nat.le_refl _) h
  beta_reduce
  rw [WriteString_of_ok b s i1.1]
  refine ⟨⟨i1.1, i1.2⟩, rfl, ?_, i4⟩
  rw [List.take_of_length_le i3, ← i2]
  exact (List.append_assoc _ _ _).symm

theorem WriteRune_of_ascii (b : Writer) (r : Char) (hr : r.toNat < 0x80) :
    b.WriteRune r = b.WriteByte r.toNat := by
  unfold WriteRune
  rw [if_pos hr]

theorem WriteRune_of_ok (b : Writer) (r : Char) (hr : ¬ r.toNat < 0x80) (he : b.err = none) :
    b.WriteRune r =
      if b.Available < 4 then
        match b.Flush.1.err with
        | some e => (b.Flush.1, some e)
        | none =>
          if b.Flush.1.Available < 4 then b.Flush.1.WriteString (utf8.EncodeRune r)
          else ({ b.Flush.1 with buf := b.Flush.1.buf ++ utf8.EncodeRune r }, none)
      else ({ b with buf := b.buf ++ utf8.EncodeRune r }, none) := by
  unfold WriteRune
  rw [if_neg hr, he]

theorem WriteRune_Emits (r : Char) : Emits (fun b => b.WriteRune r) (utf8.EncodeRune r) := by
  intro b h
  beta_reduce
  by_cases hr : r.toNat < 0x80
  · have he : utf8.EncodeRune r = [r.toNat] := by
      have : r.toNat ≤ 0x7F := by omega
      simp [utf8.EncodeRune, this]
    rw [WriteRune_of_ascii b r hr, he]
    exact WriteByte_Emits _ b h
  · rw [WriteRune_of_ok b r hr h.1]
    by_cases ha : b.Available < 4
    · obtain ⟨f1, f2, f3, f4, f5, f6⟩ := Flush_of_Good b h
      rw [if_pos ha, f1.1]
      by_cases ha2 : b.Flush.1.Available < 4
      · rw [if_pos ha2]
        obtain ⟨w1, w2, w3, w4⟩ := WriteString_Emits (utf8.EncodeRune r) _ f1
        exact ⟨w1, w2, by rw [w3, f3], by rw [w4, f6]⟩
      · rw [if_neg ha2]
        refine ⟨⟨f1.1, f1.2⟩, rfl, ?_, f6⟩
        rw [← f3]
        exact (List.append_assoc _ _ _).symm
    · rw [if_neg ha]
      refine ⟨⟨h.1, h.2⟩, rfl, ?_, rfl⟩
      exact (List.append_assoc _ _ _).symm

end bufio.Writer

theorem Emits_andThen {f g : bufio.Writer → bufio.Writer × Option GoError} {x y : List Byte}
    (hf : Emits f x) (hg : Emits g y) : Emits (bufio.andThen f g) (x ++ y) := by
  intro b h
  obtain ⟨f1, f2, f3, f4⟩ := hf b h
  obtain ⟨g1, g2, g3, g4⟩ := hg _ f1
  have ha : bufio.andThen f g b = g (f b).1 := by
    unfold bufio.andThen
    rw [f2]
  rw [ha]
  exact ⟨g1, g2, by rw [g3, f3, List.append_assoc], by rw [g4, f4]⟩

theorem Emits_nil : Emits (fun b => (b, none)) [] := by
  intro b h
  exact ⟨h, rfl, by simp, rfl⟩

namespace csv.Writer

theorem writeSpecial_Emits (w : Writer) (c : Char) (hc : c = '"' ∨ c = '\r' ∨ c = '\n') :
    Emits (writeSpecial w c) (utf8.Encode (csvEscape w.UseCRLF [c])) := by
  unfold writeSpecial
  rcases hc with rfl | rfl | rfl
  · exact bufio.Writer.WriteString_Emits _
  · cases hu : w.UseCRLF with
    | true => exact Emits_nil
    | false => exact bufio.Writer.WriteByte_Emits _
  · cases hu : w.UseCRLF with
    | true => exact bufio.Writer.WriteString_Emits _
    | false => exact bufio.Writer.WriteByte_Emits _

theorem csvEscape_cons (u : Bool) (c : Char) (cs : GoString) :
    csvEscape u (c :: cs) = csvEscape u [c] ++ csvEscape u cs := by
  simp [csvEscape]

theorem csvEscape_plain (u : Bool) (c : Char) (hc : ¬ (c = '"' ∨ c = '\r' ∨ c = '\n')) :
    csvEscape u [c] = [c] := by
  have h1 : c ≠ '"' := fun h => hc (Or.inl h)
  have h2 : c ≠ '\r' := fun h => hc (Or.inr (Or.inl h))
  have h3 : c ≠ '\n' := fun h => hc (Or.inr (Or.inr h))
  simp [csvEscape, h1, h2, h3]

theorem quoteLoop_Emits (w : Writer) (field pending : GoString) :
    Emits (quoteLoop w field pending)
      (utf8.Encode (pending.reverse ++ csvEscape w.UseCRLF field)) := by
  induction field generalizing pending with
  | nil =>
    unfold quoteLoop
    by_cases hp : pending.isEmpty = true
    · rw [if_pos hp]
      have : pending = [] := List.isEmpty_iff.mp hp
      subst this
      exact Emits_nil
    · rw [if_neg hp]
      have h := bufio.Writer.WriteString_Emits (utf8.Encode pending.reverse)
      simpa [csvEscape] using h
  | cons c cs ih =>
    unfold quoteLoop
    by_cases hc : c = '"' ∨ c = '\r' ∨ c = '\n'
    · rw [if_pos hc]
      have h := Emits_andThen (bufio.Writer.WriteString_Emits (utf8.Encode pending.reverse))
        (Emits_andThen (writeSpecial_Emits w c hc) (ih []))
      rw [csvEscape_cons, utf8.Encode_append, utf8.Encode_append]
      simpa using h
    · rw [if_neg hc]
      have h := ih (c :: pending)
      rw [csvEscape_cons, csvEscape_plain _ _ hc]
      simpa using h

theorem writeField_Emits (w : Writer) (field : GoString) :
    Emits (writeField w field) (utf8.Encode (csvField w field)) := by
  unfold writeField csvField
  cases hq : w.fieldNeedsQuotes field with
  | false => exact bufio.Writer.WriteString_Emits _
  | true =>
    have h := Emits_andThen (bufio.Writer.WriteByte_Emits '"'.toNat)
      (Emits_andThen (quoteLoop_Emits w field []) (bufio.Writer.WriteByte_Emits '"'.toNat))
    have e1 : utf8.Encode ('"' :: (csvEscape w.UseCRLF field ++ ['"'])) =
        ['"'.toNat] ++ (utf8.Encode ([].reverse ++ csvEscape w.UseCRLF field) ++ ['"'.toNat]) := by
      rw [show ('"' :: (csvEscape w.UseCRLF field ++ ['"'])) =
        ['"'] ++ (csvEscape w.UseCRLF field ++ ['"']) from rfl, utf8.Encode_append,
        utf8.Encode_append]
      rfl
    simp only [Bool.not_true, if_true]
    rw [e1]
    exact h

theorem writeFields_Emits (w : Writer) (n : Nat) (record : List GoString) :
    Emits (writeFields w n record) (utf8.Encode (csvFields w n record)) := by
  induction record generalizing n with
  | nil => exact Emits_nil
  | cons field rest ih =>
    unfold writeFields csvFields
    rw [utf8.Encode_append, utf8.Encode_append]
    refine Emits_andThen ?_ (ih (n + 1))
    by_cases hn : n > 0
    · rw [if_pos hn, if_pos hn]
      have h := Emits_andThen (bufio.Writer.WriteRune_Emits w.Comma) (writeField_Emits w field)
      simpa [utf8.Encode] using h
    · rw [if_neg hn, if_neg hn]
      simpa [utf8.Encode] using writeField_Emits w field

theorem Write_of_valid (w : Writer) (record : List GoString) (hv : validDelim w.Comma = true) :
    w.Write record =
      ({ w with w := (bufio.andThen (writeFields w 0 record)
          (fun b => if w.UseCRLF then b.WriteString (utf8.Encode ['\r', '\n'])
                    else b.WriteByte '\n'.toNat) w.w).1 },
        (bufio.andThen (writeFields w 0 record)
          (fun b => if w.UseCRLF then b.WriteString (utf8.Encode ['\r', '\n'])
                    else b.WriteByte '\n'.toNat) w.w).2) := by
  unfold Write
  rw [hv]
  rfl

/-- Over a stream that rejects nothing, `Write` succeeds and adds the CSV line of the
record to what the writer holds for its stream. -/
theorem Write_of_Good (w : Writer) (record : List GoString) (hv : validDelim w.Comma = true)
    (h : w.w.Good) :
    (w.Write record).2 = none ∧ (w.Write record).1.w.Good ∧
      (w.Write record).1.w.out = w.w.out ++ utf8.Encode (csvLine w record) ∧
      (w.Write record).1.w.wr.failure = w.w.wr.failure ∧
      (w.Write record).1.Comma = w.Comma ∧ (w.Write record).1.UseCRLF = w.UseCRLF := by
  have hend : Emits (fun b => if w.UseCRLF then b.WriteString (utf8.Encode ['\r', '\n'])
      else b.WriteByte '\n'.toNat) (utf8.Encode (if w.UseCRLF then ['\r', '\n'] else ['\n'])) := by
    cases w.UseCRLF with
    | true => exact bufio.Writer.WriteString_Emits _
    | false => exact bufio.Writer.WriteByte_Emits _
  obtain ⟨e1, e2, e3, e4⟩ := Emits_andThen (writeFields_Emits w 0 record) hend w.w h
  rw [Write_of_valid w record hv]
  refine ⟨e2, e1, ?_, e4, rfl, rfl⟩
  show (bufio.andThen _ _ w.w).1.out = _
  rw [e3, csvLine, utf8.Encode_append]

end csv.Writer

/-! ### The CSV text depends on the writer only through its delimiter and line ending -/

theorem fieldNeedsQuotes_congr (w w' : csv.Writer) (hc : w.Comma = w'.Comma)
    (field : GoString) : w.fieldNeedsQuotes field = w'.fieldNeedsQuotes field := by
  unfold csv.Writer.fieldNeedsQuotes
  rw [hc]

theorem csvField_congr (w w' : csv.Writer) (hc : w.Comma = w'.Comma)
    (hu : w.UseCRLF = w'.UseCRLF) (field : GoString) : csvField w field = csvField w' field := by
  unfold csvField
  rw [fieldNeedsQuotes_congr w w' hc, hu]

theorem csvFields_congr (w w' : csv.Writer) (hc : w.Comma = w'.Comma)
    (hu : w.UseCRLF = w'.UseCRLF) (n : Nat) (record : List GoString) :
    csvFields w n record = csvFields w' n record := by
  induction record generalizing n with
  | nil => rfl
  | cons f rest ih => simp only [csvFields, ih, csvField_congr w w' hc hu, hc]

theorem csvLine_congr (w w' : csv.Writer) (hc : w.Comma = w'.Comma)
    (hu : w.UseCRLF = w'.UseCRLF) (record : List GoString) :
    csvLine w record = csvLine w' record := by
  unfold csvLine
  rw [csvFields_congr w w' hc hu, hu]

theorem csvRows_congr (w w' : csv.Writer) (hc : w.Comma = w'.Comma)
    (hu : w.UseCRLF = w'.UseCRLF) (ms : List Metric) : csvRows w ms = csvRows w' ms := by
  induction ms with
  | nil => rfl
  | cons m ms ih => simp only [csvRows, ih, csvLine_congr w w' hc hu]

theorem exportCSVLoop_of_Good (ms : List Metric) (writer : csv.Writer) (stderr : GoString)
    (hv : csv.validDelim writer.Comma = true) (h : writer.w.Good) :
    (exportCSVLoop ms writer stderr).2.2 = Outcome.returned ∧
      (exportCSVLoop ms writer stderr).2.1 = stderr ∧
      (exportCSVLoop ms writer stderr).1.w.Good ∧
      (exportCSVLoop ms writer stderr).1.w.out =
        writer.w.out ++ utf8.Encode (csvRows writer ms) ∧
      (exportCSVLoop ms writer stderr).1.w.wr.failure = writer.w.wr.failure := by
  induction ms generalizing writer with
  | nil => exact ⟨rfl, rfl, h, by simp [exportCSVLoop, csvRows, utf8.Encode], rfl⟩
  | cons m ms ih =>
    obtain ⟨w1, w2, w3, w4, w5, w6⟩ := csv.Writer.Write_of_Good writer m.record hv h
    have hl : exportCSVLoop (m :: ms) writer stderr =
        exportCSVLoop ms (writer.Write m.record).1 stderr := by
      rw [exportCSVLoop]
      show (match (writer.Write m.record).2 with
        | some err => _
        | none => exportCSVLoop ms (writer.Write m.record).1 stderr) = _
      rw [w1]
    obtain ⟨i1, i2, i3, i4, i5⟩ := ih (writer.Write m.record).1 (by rw [w5]; exact hv) w2
    rw [hl]
    refine ⟨i1, i2, i3, ?_, by rw [i5, w4]⟩
    rw [i4, w3, csvRows, utf8.Encode_append, List.append_assoc,
      csvRows_congr _ writer w5 w6]

theorem Stream.ext' (a b : Stream) (h1 : a.written = b.written) (h2 : a.room = b.room)
    (h3 : a.failure = b.failure) : a = b := by
  cases a; cases b; simp_all

theorem exportCSV_of_returned (metrics : GoSlice Metric) (world : World)
    (h1 : ((csv.NewWriter world.stdout).Write exportCSV.header).2 = none)
    (h2 : (exportCSVLoop metrics.toList ((csv.NewWriter world.stdout).Write exportCSV.header).1
      world.stderr).2.2 = Outcome.returned) :
    exportCSV metrics world =
      ({ stdout := (exportCSVLoop metrics.toList
            ((csv.NewWriter world.stdout).Write exportCSV.header).1 world.stderr).1.Flush.w.wr,
         stderr := (exportCSVLoop metrics.toList
            ((csv.NewWriter world.stdout).Write exportCSV.header).1 world.stderr).2.1 },
        Outcome.returned) := by
  unfold exportCSV
  simp only [h1, h2]

/-- Over a standard output that rejects nothing, `exportCSV` returns, leaves standard error
as it is, and adds to standard output the header line and the CSV lines of the records. -/
theorem exportCSV_of_Good (metrics : GoSlice Metric) (world : World)
    (h : world.stdout.room = none) :
    exportCSV metrics world =
      ({ stdout := { world.stdout with
            written := world.stdout.written ++
              utf8.Encode (csvLine (csv.NewWriter world.stdout) exportCSV.header ++
                csvRows (csv.NewWriter world.stdout) metrics.toList) },
         stderr := world.stderr }, Outcome.returned) := by
  have hg : (csv.NewWriter world.stdout).w.Good := ⟨rfl, h⟩
  have hv : csv.validDelim (csv.NewWriter world.stdout).Comma = true := by
    show csv.validDelim ',' = true
    decide
  obtain ⟨w1, w2, w3, w4, w5, w6⟩ := csv.Writer.Write_of_Good (csv.NewWriter world.stdout)
    exportCSV.header hv hg
  have hv2 : csv.validDelim
      ((csv.NewWriter world.stdout).Write exportCSV.header).1.Comma = true := by
    rw [w5]; exact hv
  obtain ⟨l1, l2, l3, l4, l5⟩ := exportCSVLoop_of_Good metrics.toList
    ((csv.NewWriter world.stdout).Write exportCSV.header).1 world.stderr hv2 w2
  obtain ⟨f1, f2, f3, f4, f5, f6⟩ := bufio.Writer.Flush_of_Good
    (exportCSVLoop metrics.toList ((csv.NewWriter world.stdout).Write exportCSV.header).1
      world.stderr).1.w l3
  rw [exportCSV_of_returned metrics world w1 l1]
  refine congrArg₂ Prod.mk (congrArg₂ World.mk ?_ l2) rfl
  apply Stream.ext'
  · have h0 := f3
    rw [bufio.Writer.out, f4, List.append_nil] at h0
    show (bufio.Writer.Flush _).1.wr.written = _
    rw [h0, l4, w3, csvRows_congr _ (csv.NewWriter world.stdout) w5 w6, utf8.Encode_append,
      List.append_assoc]
    show (world.stdout.written ++ []) ++ _ = _
    rw [List.append_nil]
  · exact f1.2.trans h.symm
  · show (bufio.Writer.Flush _).1.wr.failure = _
    rw [f6, l5, w4]
    rfl

/-! ### Fields that are written as they stand -/

theorem fieldNeedsQuotes_of_plain (w : csv.Writer) (hc : w.Comma = ',') (field : GoString)
    (hp : PlainField field) : w.fieldNeedsQuotes field = false := by
  obtain ⟨h1, h2, h3⟩ := hp
  unfold csv.Writer.fieldNeedsQuotes
  by_cases he : field = []
  · rw [if_pos he]
  · rw [if_neg he, if_neg h3, hc]
    have hany : field.any (fun c => c == '\n' || c == '\r' || c == '"' || c == ',') = false := by
      rw [List.any_eq_false]
      intro c hcm
      obtain ⟨a1, a2, a3, a4⟩ := h1 c hcm
      simp [a1, a2, a3, a4]
    rw [hany]
    cases field with
    | nil => exact absurd rfl he
    | cons r1 rest => simpa using h2 r1 (by simp)

theorem csvField_of_plain (w : csv.Writer) (hc : w.Comma = ',') (field : GoString)
    (hp : PlainField field) : csvField w field = field := by
  unfold csvField
  rw [fieldNeedsQuotes_of_plain w hc field hp]
  rfl

theorem csvLine_of_plain (w : csv.Writer) (hc : w.Comma = ',') (hu : w.UseCRLF = false)
    (m : Metric) (h : ∀ f ∈ m.record, PlainField f) : csvLine w m.record = plainRow m := by
  have p0 := csvField_of_plain w hc m.Resource (h _ (by simp [Metric.record]))
  have p1 := csvField_of_plain w hc m.Namespace (h _ (by simp [Metric.record]))
  have p2 := csvField_of_plain w hc m.Name (h _ (by simp [Metric.record]))
  have p3 := csvField_of_plain w hc m.CPU (h _ (by simp [Metric.record]))
  have p4 := csvField_of_plain w hc m.Memory (h _ (by simp [Metric.record]))
  simp [csvLine, Metric.record, csvFields, p0, p1, p2, p3, p4, hc, hu, plainRow]

theorem csvRows_of_plain (w : csv.Writer) (hc : w.Comma = ',') (hu : w.UseCRLF = false)
    (ms : List Metric) (h : ∀ m ∈ ms, ∀ f ∈ m.record, PlainField f) :
    csvRows w ms = plainRows ms := by
  induction ms with
  | nil => rfl
  | cons m ms ih =>
    rw [csvRows, plainRows, csvLine_of_plain w hc hu m (h m (by simp)),
      ih (fun m' hm' => h m' (by simp [hm']))]

theorem plainField_header : ∀ f ∈ exportCSV.header, PlainField f := by
  intro f hf
  simp only [exportCSV.header, List.mem_cons, List.mem_singleton, List.not_mem_nil,
    or_false] at hf
  rcases hf with rfl | rfl | rfl | rfl | rfl <;>
    exact ⟨by decide, by decide, by decide⟩

theorem csvLine_header (w : csv.Writer) (hc : w.Comma = ',') (hu : w.UseCRLF = false) :
    csvLine w exportCSV.header = csvHeaderLine := by
  have h := csvLine_of_plain w hc hu
    ⟨"Resource".toList, "Namespace".toList, "Name".toList, "CPU".toList, "Memory".toList⟩
    plainField_header
  exact h.trans (by decide)

/-- Over a standard output that rejects nothing, and for records whose values are written
as they stand, `exportCSV` emits the header line and one plain row per record. -/
theorem exportCSV_of_plain (metrics : GoSlice Metric) (world : World)
    (h : world.stdout.room = none)
    (hp : ∀ m ∈ metrics.toList, ∀ f ∈ m.record, PlainField f) :
    exportCSV metrics world =
      ({ stdout := { world.stdout with
            written := world.stdout.written ++
              utf8.Encode (csvHeaderLine ++ plainRows metrics.toList) },
         stderr := world.stderr }, Outcome.returned) := by
  rw [exportCSV_of_Good metrics world h, csvLine_header _ rfl rfl,
    csvRows_of_plain _ rfl rfl _ hp]

/-! ## Part 2, continued: writes that fit into the buffer never reach the stream -/

namespace bufio.Writer

theorem WriteByte_Buffers (c : Byte) : Buffers (fun b => b.WriteByte c) [c] := by
  intro b he hfit
  beta_reduce
  have ha : ¬ b.Available ≤ 0 := by
    simp only [Available, List.length_singleton] at hfit ⊢
    omega
  rw [WriteByte_of_ok b c he, if_neg ha]

theorem WriteString_Buffers (s : List Byte) : Buffers (fun b => b.WriteString s) s := by
  intro b he hfit
  beta_reduce
  have hle : s.length ≤ b.Available := by
    simp only [Available]
    omega
  have hl : WriteStringLoop b s = (b, s) := by
    rw [WriteStringLoop_eq, if_neg (fun h => by omega)]
  have he2 : (WriteStringLoop b s).1.err = none := by rw [hl]; exact he
  rw [WriteString_of_ok b s he2, hl]
  show ({ b with buf := b.buf ++ s.take b.Available }, none) = _
  rw [List.take_of_length_le hle]

theorem WriteRune_Buffers (r : Char) (hr : r.toNat < 0x80) :
    Buffers (fun b => b.WriteRune r) (utf8.Encode [r]) := by
  intro b he hfit
  beta_reduce
  have henc : utf8.Encode [r] = [r.toNat] := by
    have : r.toNat ≤ 0x7F := by omega
    simp [utf8.Encode, utf8.EncodeRune, this]
  rw [WriteRune_of_ascii b r hr, henc]
  rw [henc] at hfit
  exact WriteByte_Buffers r.toNat b he hfit

end bufio.Writer

theorem Buffers_andThen {f g : bufio.Writer → bufio.Writer × Option GoError} {x y : List Byte}
    (hf : Buffers f x) (hg : Buffers g y) : Buffers (bufio.andThen f g) (x ++ y) := by
  intro b he hfit
  have hx : b.buf.length + x.length ≤ b.size := by
    rw [List.length_append] at hfit
    omega
  have h1 := hf b he hx
  have h2 := hg { b with buf := b.buf ++ x } he (by
    show (b.buf ++ x).length + y.length ≤ b.size
    rw [List.length_append] at hfit ⊢
    omega)
  unfold bufio.andThen
  rw [h1]
  show g { b with buf := b.buf ++ x } = _
  rw [h2]
  show ({ b with buf := (b.buf ++ x) ++ y }, none) = _
  rw [List.append_assoc]

theorem Buffers_nil : Buffers (fun b => (b, none)) [] := by
  intro b _ _
  show (b, none) = ({ b with buf := b.buf ++ [] }, none)
  rw [List.append_nil]

namespace csv.Writer

theorem writeSpecial_Buffers (w : Writer) (c : Char) (hc : c = '"' ∨ c = '\r' ∨ c = '\n') :
    Buffers (writeSpecial w c) (utf8.Encode (csvEscape w.UseCRLF [c])) := by
  unfold writeSpecial
  rcases hc with rfl | rfl | rfl
  · exact bufio.Writer.WriteString_Buffers _
  · cases hu : w.UseCRLF with
    | true => exact Buffers_nil
    | false => exact bufio.Writer.WriteByte_Buffers _
  · cases hu : w.UseCRLF with
    | true => exact bufio.Writer.WriteString_Buffers _
    | false => exact bufio.Writer.WriteByte_Buffers _

theorem quoteLoop_Buffers (w : Writer) (field pending : GoString) :
    Buffers (quoteLoop w field pending)
      (utf8.Encode (pending.reverse ++ csvEscape w.UseCRLF field)) := by
  induction field generalizing pending with
  | nil =>
    unfold quoteLoop
    by_cases hp : pending.isEmpty = true
    · rw [if_pos hp]
      have : pending = [] := List.isEmpty_iff.mp hp
      subst this
      exact Buffers_nil
    · rw [if_neg hp]
      have h := bufio.Writer.WriteString_Buffers (utf8.Encode pending.reverse)
      simpa [csvEscape] using h
  | cons c cs ih =>
    unfold quoteLoop
    by_cases hc : c = '"' ∨ c = '\r' ∨ c = '\n'
    · rw [if_pos hc]
      have h := Buffers_andThen (bufio.Writer.WriteString_Buffers (utf8.Encode pending.reverse))
        (Buffers_andThen (writeSpecial_Buffers w c hc) (ih []))
      rw [csvEscape_cons, utf8.Encode_append, utf8.Encode_append]
      simpa using h
    · rw [if_neg hc]
      have h := ih (c :: pending)
      rw [csvEscape_cons, csvEscape_plain _ _ hc]
      simpa using h

theorem writeField_Buffers (w : Writer) (field : GoString) :
    Buffers (writeField w field) (utf8.Encode (csvField w field)) := by
  unfold writeField csvField
  cases hq : w.fieldNeedsQuotes field with
  | false => exact bufio.Writer.WriteString_Buffers _
  | true =>
    have h := Buffers_andThen (bufio.Writer.WriteByte_Buffers '"'.toNat)
      (Buffers_andThen (quoteLoop_Buffers w field []) (bufio.Writer.WriteByte_Buffers '"'.toNat))
    have e1 : utf8.Encode ('"' :: (csvEscape w.UseCRLF field ++ ['"'])) =
        ['"'.toNat] ++ (utf8.Encode ([].reverse ++ csvEscape w.UseCRLF field) ++ ['"'.toNat]) := by
      rw [show ('"' :: (csvEscape w.UseCRLF field ++ ['"'])) =
        ['"'] ++ (csvEscape w.UseCRLF field ++ ['"']) from rfl, utf8.Encode_append,
        utf8.Encode_append]
      rfl
    simp only [Bool.not_true, if_true]
    rw [e1]
    exact h

theorem writeFields_Buffers (w : Writer) (hc : w.Comma.toNat < 0x80) (n : Nat)
    (record : List GoString) :
    Buffers (writeFields w n record) (utf8.Encode (csvFields w n record)) := by
  induction record generalizing n with
  | nil => exact Buffers_nil
  | cons field rest ih =>
    unfold writeFields csvFields
    rw [utf8.Encode_append, utf8.Encode_append]
    refine Buffers_andThen ?_ (ih (n + 1))
    by_cases hn : n > 0
    · rw [if_pos hn, if_pos hn]
      exact Buffers_andThen (bufio.Writer.WriteRune_Buffers w.Comma hc) (writeField_Buffers w field)
    · rw [if_neg hn, if_neg hn]
      simpa [utf8.Encode] using writeField_Buffers w field

/-- A record whose CSV line fits into the free part of the buffer is only buffered. -/
theorem Write_of_fits (w : Writer) (record : List GoString) (hv : validDelim w.Comma = true)
    (hc : w.Comma.toNat < 0x80) (he : w.w.err = none)
    (hfit : w.w.buf.length + (utf8.Encode (csvLine w record)).length ≤ w.w.size) :
    w.Write record =
      ({ w with w := { w.w with buf := w.w.buf ++ utf8.Encode (csvLine w record) } }, none) := by
  have hend : Buffers (fun b => if w.UseCRLF then b.WriteString (utf8.Encode ['\r', '\n'])
      else b.WriteByte '\n'.toNat) (utf8.Encode (if w.UseCRLF then ['\r', '\n'] else ['\n'])) := by
    cases w.UseCRLF with
    | true => exact bufio.Writer.WriteString_Buffers _
    | false => exact bufio.Writer.WriteByte_Buffers _
  have h := Buffers_andThen (writeFields_Buffers w hc 0 record) hend w.w he
    (by rw [← utf8.Encode_append]; exact hfit)
  rw [Write_of_valid w record hv, h, ← utf8.Encode_append]
  rfl

end csv.Writer

theorem exportCSVLoop_of_fits (ms : List Metric) (writer : csv.Writer) (stderr : GoString)
    (hv : csv.validDelim writer.Comma = true) (hc : writer.Comma.toNat < 0x80)
    (he : writer.w.err = none)
    (hfit : writer.w.buf.length + (utf8.Encode (csvRows writer ms)).length ≤ writer.w.size) :
    exportCSVLoop ms writer stderr =
      ({ writer with w := { writer.w with
          buf := writer.w.buf ++ utf8.Encode (csvRows writer ms) } }, stderr,
        Outcome.returned) := by
  induction ms generalizing writer with
  | nil =>
    show (writer, stderr, Outcome.returned) = _
    simp [csvRows, utf8.Encode]
  | cons m ms ih =>
    rw [csvRows, utf8.Encode_append, List.length_append] at hfit
    have hw := csv.Writer.Write_of_fits writer m.record hv hc he (by omega)
    have hl : exportCSVLoop (m :: ms) writer stderr =
        exportCSVLoop ms (writer.Write m.record).1 stderr := by
      rw [exportCSVLoop]
      show (match (writer.Write m.record).2 with
        | some err => _
        | none => exportCSVLoop ms (writer.Write m.record).1 stderr) = _
      rw [hw]
    rw [hl, hw]
    have hcg : csvRows { writer with w := { writer.w with
        buf := writer.w.buf ++ utf8.Encode (csvLine writer m.record) } } ms =
        csvRows writer ms := by apply csvRows_congr <;> rfl
    have hih := ih { writer with w := { writer.w with
        buf := writer.w.buf ++ utf8.Encode (csvLine writer m.record) } } hv hc he (by
      show (writer.w.buf ++ utf8.Encode (csvLine writer m.record)).length + _ ≤ writer.w.size
      rw [hcg, List.length_append]
      omega)
    show exportCSVLoop ms { writer with w := { writer.w with
        buf := writer.w.buf ++ utf8.Encode (csvLine writer m.record) } } stderr = _
    rw [hih, hcg]
    show _ = ({ writer with w := { writer.w with
      buf := writer.w.buf ++ utf8.Encode (csvLine writer m.record ++ csvRows writer ms) } },
      stderr, Outcome.returned)
    rw [utf8.Encode_append, List.append_assoc]

/-! ## Part 2, continued: the indentation of the encoder's output -/

namespace json

theorem indentLoop_append (pfx indent : List Byte) (a b : List Byte) (s : scanner)
    (st : indentState) :
    indentLoop pfx indent (a ++ b) s st =
      match indentLoop pfx indent a s st with
      | Except.error e => Except.error e
      | Except.ok r => indentLoop pfx indent b r.1 r.2 := by
  induction a generalizing s st with
  | nil => rfl
  | cons c cs ih =>
    simp only [List.cons_append, indentLoop]
    split
    · exact ih _ _
    · split
      · rfl
      · exact ih _ _

theorem appendNewline_dst (dst pfx indent : List Byte) (d : Int) :
    appendNewline dst pfx indent d = dst ++ appendNewline [] pfx indent d := by
  simp [appendNewline]

theorem punctuation_dst (pfx indent : List Byte) (c : Byte) (dst : List Byte) (n : Bool)
    (d : Int) :
    punctuation pfx indent c ⟨dst, n, d⟩ =
      ⟨dst ++ (punctuation pfx indent c ⟨[], n, d⟩).dst,
        (punctuation pfx indent c ⟨[], n, d⟩).needIndent,
        (punctuation pfx indent c ⟨[], n, d⟩).depth⟩ := by
  unfold punctuation
  split
  · simp
  · split
    · simp [appendNewline]
    · split
      · simp
      · split
        · cases n <;> simp [appendNewline]
        · simp

theorem indentStep_dst (pfx indent : List Byte) (c : Byte) (v : Scan) (dst : List Byte)
    (n : Bool) (d : Int) :
    indentStep pfx indent c v ⟨dst, n, d⟩ =
      ⟨dst ++ (indentStep pfx indent c v ⟨[], n, d⟩).dst,
        (indentStep pfx indent c v ⟨[], n, d⟩).needIndent,
        (indentStep pfx indent c v ⟨[], n, d⟩).depth⟩ := by
  unfold indentStep
  dsimp only
  by_cases h1 : (n = true ∧ v ≠ Scan.EndObject ∧ v ≠ Scan.EndArray)
  · simp only [if_pos h1]
    by_cases h2 : v = Scan.Continue
    · simp only [if_pos h2]
      simp [appendNewline]
    · simp only [if_neg h2]
      rw [punctuation_dst pfx indent c (appendNewline dst pfx indent (d + 1)),
        punctuation_dst pfx indent c (appendNewline [] pfx indent (d + 1))]
      simp [appendNewline]
  · simp only [if_neg h1]
    by_cases h2 : v = Scan.Continue
    · simp only [if_pos h2]
      simp
    · simp only [if_neg h2]
      rw [punctuation_dst]

/-- The loop only appends to the output: its run from any output is its run from the empty
output, put after what was there. -/
theorem indentLoop_dst (pfx indent : List Byte) (src : List Byte) (s : scanner)
    (dst : List Byte) (n : Bool) (d : Int) :
    indentLoop pfx indent src s ⟨dst, n, d⟩ =
      match indentLoop pfx indent src s ⟨[], n, d⟩ with
      | Except.error e => Except.error e
      | Except.ok r => Except.ok (r.1, ⟨dst ++ r.2.dst, r.2.needIndent, r.2.depth⟩) := by
  induction src generalizing s dst n d with
  | nil => simp [indentLoop]
  | cons c cs ih =>
    simp only [indentLoop]
    split
    · exact ih _ _ _ _
    · split
      · rfl
      · rw [indentStep_dst, ih]
        conv_rhs => rw [ih]
        cases indentLoop pfx indent cs (s.stepOn c).1
            ⟨[], (indentStep pfx indent c (s.stepOn c).2 ⟨[], n, d⟩).needIndent,
              (indentStep pfx indent c (s.stepOn c).2 ⟨[], n, d⟩).depth⟩ with
        | error e => rfl
        | ok r => simp [List.append_assoc]

end json

theorem Indents_of_closed (src : List Byte) (s0 : json.scanner) (n0 : Bool) (d0 : Int)
    (s1 : json.scanner) (n1 : Bool) (d1 : Int) (out : List Byte)
    (h : json.indentLoop [] [0x20, 0x20] src s0 ⟨[], n0, d0⟩ = Except.ok (s1, ⟨out, n1, d1⟩)) :
    Indents src s0 n0 d0 s1 n1 d1 out := by
  intro dst
  rw [json.indentLoop_dst, h]

theorem Indents_append {a b : List Byte} {s0 s1 s2 : json.scanner} {n0 n1 n2 : Bool}
    {d0 d1 d2 : Int} {x y : List Byte} (ha : Indents a s0 n0 d0 s1 n1 d1 x)
    (hb : Indents b s1 n1 d1 s2 n2 d2 y) : Indents (a ++ b) s0 n0 d0 s2 n2 d2 (x ++ y) := by
  intro dst
  rw [json.indentLoop_append, ha dst]
  show json.indentLoop [] [0x20, 0x20] b s1 ⟨dst ++ x, n1, d1⟩ = _
  rw [hb (dst ++ x), List.append_assoc]

theorem Indents_nil (s : json.scanner) (n : Bool) (d : Int) : Indents [] s n d s n d [] := by
  intro dst
  simp [json.indentLoop]

/-! ### Strings pass through the indentation unchanged -/

namespace json

theorem indentLoop_continue (c : Byte) (rest : List Byte) (s s1 : scanner) (dst : List Byte)
    (d : Int) (h : s.stepOn c = (s1, Scan.Continue)) :
    indentLoop [] [0x20, 0x20] (c :: rest) s ⟨dst, false, d⟩ =
      indentLoop [] [0x20, 0x20] rest s1 ⟨dst ++ [c], false, d⟩ := by
  simp [indentLoop, h, indentStep]

theorem stepOn_inString_plain (e : Bool) (ps : List Parse) (er : Option GoError) (b : Nat)
    (h : 0x20 ≤ b ∧ b ≠ 0x22 ∧ b ≠ 0x5C) :
    scanner.stepOn ⟨Step.InString, e, ps, er⟩ b = (⟨Step.InString, e, ps, er⟩, Scan.Continue) := by
  obtain ⟨h1, h2, h3⟩ := h
  have h4 : ¬ b < 0x20 := by omega
  simp [scanner.stepOn, h2, h3, h4]

end json

theorem Indents_plain (bs : List Nat) (e : Bool) (ps : List json.Parse)
    (er : Option GoError) (d : Int)
    (h : ∀ b : Nat, b ∈ bs → 0x20 ≤ b ∧ b ≠ 0x22 ∧ b ≠ 0x5C) :
    Indents bs ⟨json.Step.InString, e, ps, er⟩ false d ⟨json.Step.InString, e, ps, er⟩ false d
      bs := by
  induction bs with
  | nil => exact Indents_nil _ _ _
  | cons b bs ih =>
    intro dst
    rw [json.indentLoop_continue b bs _ _ dst d
      (json.stepOn_inString_plain e ps er b (h b (by simp)))]
    rw [ih (fun b' hb' => h b' (by simp [hb'])) (dst ++ [b])]
    simp

theorem Indents_escape2 (c : Byte) (e : Bool) (ps : List json.Parse) (er : Option GoError)
    (d : Int)
    (hc : c = 0x62 ∨ c = 0x66 ∨ c = 0x6E ∨ c = 0x72 ∨ c = 0x74 ∨ c = 0x5C ∨ c = 0x2F ∨ c = 0x22) :
    Indents [0x5C, c] ⟨json.Step.InString, e, ps, er⟩ false d
      ⟨json.Step.InString, e, ps, er⟩ false d [0x5C, c] := by
  intro dst
  have h1 : json.scanner.stepOn ⟨json.Step.InString, e, ps, er⟩ 0x5C =
      (⟨json.Step.InStringEsc, e, ps, er⟩, json.Scan.Continue) := by
    simp [json.scanner.stepOn, json.scanner.goto]
  have h2 : json.scanner.stepOn ⟨json.Step.InStringEsc, e, ps, er⟩ c =
      (⟨json.Step.InString, e, ps, er⟩, json.Scan.Continue) := by
    simp [json.scanner.stepOn, json.scanner.goto, hc]
  rw [json.indentLoop_continue _ _ _ _ dst d h1, json.indentLoop_continue _ _ _ _ _ d h2]
  simp [json.indentLoop]

theorem Indents_escapeU (a b c x : Byte) (e : Bool) (ps : List json.Parse)
    (er : Option GoError) (d : Int) (ha : json.isHex a = true) (hb : json.isHex b = true)
    (hc : json.isHex c = true) (hx : json.isHex x = true) :
    Indents [0x5C, 0x75, a, b, c, x] ⟨json.Step.InString, e, ps, er⟩ false d
      ⟨json.Step.InString, e, ps, er⟩ false d [0x5C, 0x75, a, b, c, x] := by
  intro dst
  have h1 : json.scanner.stepOn ⟨json.Step.InString, e, ps, er⟩ 0x5C =
      (⟨json.Step.InStringEsc, e, ps, er⟩, json.Scan.Continue) := by
    simp [json.scanner.stepOn, json.scanner.goto]
  have h2 : json.scanner.stepOn ⟨json.Step.InStringEsc, e, ps, er⟩ 0x75 =
      (⟨json.Step.InStringEscU, e, ps, er⟩, json.Scan.Continue) := by
    simp [json.scanner.stepOn, json.scanner.goto]
  have h3 : json.scanner.stepOn ⟨json.Step.InStringEscU, e, ps, er⟩ a =
      (⟨json.Step.InStringEscU1, e, ps, er⟩, json.Scan.Continue) := by
    simp [json.scanner.stepOn, json.scanner.goto, ha]
  have h4 : json.scanner.stepOn ⟨json.Step.InStringEscU1, e, ps, er⟩ b =
      (⟨json.Step.InStringEscU12, e, ps, er⟩, json.Scan.Continue) := by
    simp [json.scanner.stepOn, json.scanner.goto, hb]
  have h5 : json.scanner.stepOn ⟨json.Step.InStringEscU12, e, ps, er⟩ c =
      (⟨json.Step.InStringEscU123, e, ps, er⟩, json.Scan.Continue) := by
    simp [json.scanner.stepOn, json.scanner.goto, hc]
  have h6 : json.scanner.stepOn ⟨json.Step.InStringEscU123, e, ps, er⟩ x =
      (⟨json.Step.InString, e, ps, er⟩, json.Scan.Continue) := by
    simp [json.scanner.stepOn, json.scanner.goto, hx]
  rw [json.indentLoop_continue _ _ _ _ dst d h1, json.indentLoop_continue _ _ _ _ _ d h2,
    json.indentLoop_continue _ _ _ _ _ d h3, json.indentLoop_continue _ _ _ _ _ d h4,
    json.indentLoop_continue _ _ _ _ _ d h5, json.indentLoop_continue _ _ _ _ _ d h6]
  simp [json.indentLoop]

theorem utf8.Encode_cons_ascii (c : Char) (cs : GoString) (h : c.toNat ≤ 0x7F) :
    utf8.Encode (c :: cs) = c.toNat :: utf8.Encode cs := by
  simp [utf8.Encode, utf8.EncodeRune, h]

theorem utf8.EncodeRune_high (r : Char) (h : ¬ r.toNat < 0x80) :
    ∀ b : Nat, b ∈ utf8.EncodeRune r → 0x20 ≤ b ∧ b ≠ 0x22 ∧ b ≠ 0x5C := by
  intro b hb
  unfold utf8.EncodeRune at hb
  have h0 : ¬ r.toNat ≤ 0x7F := by omega
  simp only [h0, if_false] at hb
  split at hb
  · simp only [List.mem_cons, List.mem_singleton, List.not_mem_nil, or_false] at hb
    rcases hb with rfl | rfl <;> omega
  · split at hb
    · simp only [List.mem_cons, List.mem_singleton, List.not_mem_nil, or_false] at hb
      rcases hb with rfl | rfl | rfl <;> omega
    · simp only [List.mem_cons, List.mem_singleton, List.not_mem_nil, or_false] at hb
      rcases hb with rfl | rfl | rfl | rfl <;> omega

theorem json.hex_spec (k : Nat) :
    (json.hex k).toNat ≤ 0x7F ∧ json.isHex (json.hex k).toNat = true := by
  by_cases hk : k < 16
  · have : ∀ j < 16, (json.hex j).toNat ≤ 0x7F ∧ json.isHex (json.hex j).toNat = true := by
      decide
    exact this k hk
  · have : json.hex k = '0' := by
      unfold json.hex
      exact List.getD_eq_default _ _ (by simpa using Nat.le_of_not_lt hk)
    rw [this]
    decide

theorem Indents_escapeRune (r : Char) (e : Bool) (ps : List json.Parse) (er : Option GoError)
    (d : Int) :
    Indents (utf8.Encode (json.escapeRune r)) ⟨json.Step.InString, e, ps, er⟩ false d
      ⟨json.Step.InString, e, ps, er⟩ false d (utf8.Encode (json.escapeRune r)) := by
  have hx := json.hex_spec
  have h0 : json.isHex 0x30 = true := by decide
  have h2 : json.isHex 0x32 = true := by decide
  unfold json.escapeRune
  dsimp only
  by_cases hn : r.toNat < 0x80
  · rw [if_pos hn]
    by_cases hs : json.htmlSafe r.toNat = true
    · rw [if_pos hs, utf8.Encode_cons_ascii r [] (by omega)]
      apply Indents_plain
      intro b hb
      have hb' : b = r.toNat := by simpa [utf8.Encode] using hb
      subst hb'
      simp only [json.htmlSafe, Bool.and_eq_true, decide_eq_true_eq, bne_iff_ne, ne_eq] at hs
      omega
    · rw [if_neg hs]
      by_cases h1 : r = '\\' ∨ r = '"'
      · rw [if_pos h1]
        rcases h1 with rfl | rfl
        · exact Indents_escape2 0x5C e ps er d (by decide)
        · exact Indents_escape2 0x22 e ps er d (by decide)
      · rw [if_neg h1]
        by_cases h3 : r.toNat = 0x08
        · rw [if_pos h3]
          exact Indents_escape2 0x62 e ps er d (by decide)
        · rw [if_neg h3]
          by_cases h4 : r.toNat = 0x0C
          · rw [if_pos h4]
            exact Indents_escape2 0x66 e ps er d (by decide)
          · rw [if_neg h4]
            by_cases h5 : r = '\n'
            · rw [if_pos h5]
              exact Indents_escape2 0x6E e ps er d (by decide)
            · rw [if_neg h5]
              by_cases h6 : r = '\r'
              · rw [if_pos h6]
                exact Indents_escape2 0x72 e ps er d (by decide)
              · rw [if_neg h6]
                by_cases h7 : r = '\t'
                · rw [if_pos h7]
                  exact Indents_escape2 0x74 e ps er d (by decide)
                · rw [if_neg h7]
                  have e1 : utf8.Encode ['\\', 'u', '0', '0', json.hex (r.toNat / 16),
                      json.hex (r.toNat % 16)] =
                      [0x5C, 0x75, 0x30, 0x30, (json.hex (r.toNat / 16)).toNat,
                        (json.hex (r.toNat % 16)).toNat] := by
                    rw [utf8.Encode_cons_ascii _ _ (by decide),
                      utf8.Encode_cons_ascii _ _ (by decide),
                      utf8.Encode_cons_ascii _ _ (by decide),
                      utf8.Encode_cons_ascii _ _ (by decide),
                      utf8.Encode_cons_ascii _ _ (hx _).1, utf8.Encode_cons_ascii _ _ (hx _).1]
                    rfl
                  rw [e1]
                  exact Indents_escapeU _ _ _ _ e ps er d h0 h0 (hx _).2 (hx _).2
  · rw [if_neg hn]
    by_cases h8 : r.toNat = 0x2028 ∨ r.toNat = 0x2029
    · rw [if_pos h8]
      have e1 : utf8.Encode ['\\', 'u', '2', '0', '2', json.hex (r.toNat % 16)] =
          [0x5C, 0x75, 0x32, 0x30, 0x32, (json.hex (r.toNat % 16)).toNat] := by
        rw [utf8.Encode_cons_ascii _ _ (by decide), utf8.Encode_cons_ascii _ _ (by decide),
          utf8.Encode_cons_ascii _ _ (by decide), utf8.Encode_cons_ascii _ _ (by decide),
          utf8.Encode_cons_ascii _ _ (by decide), utf8.Encode_cons_ascii _ _ (hx _).1]
        rfl
      rw [e1]
      exact Indents_escapeU _ _ _ _ e ps er d h2 h0 h2 (hx _).2
    · rw [if_neg h8]
      apply Indents_plain
      intro b hb
      have hb' : b ∈ utf8.EncodeRune r := by simpa [utf8.Encode] using hb
      exact utf8.EncodeRune_high r hn b hb'

theorem Indents_escape (s : GoString) (e : Bool) (ps : List json.Parse) (er : Option GoError)
    (d : Int) :
    Indents (utf8.Encode (json.escape s)) ⟨json.Step.InString, e, ps, er⟩ false d
      ⟨json.Step.InString, e, ps, er⟩ false d (utf8.Encode (json.escape s)) := by
  induction s with
  | nil => exact Indents_nil _ _ _
  | cons r rs ih =>
    rw [json.escape, utf8.Encode_append]
    exact Indents_append (Indents_escapeRune r e ps er d) ih

/-! ### The punctuation and the keys of an array of records -/

theorem Indents_open :
    Indents (utf8.Encode "[".toList) json.newScanner false 0
      ⟨json.Step.BeginValueOrEmpty, false, [json.Parse.ArrayValue], none⟩ true 0
      (utf8.Encode "[".toList) :=
  Indents_of_closed _ _ _ _ _ _ _ _ (by rfl)

theorem Indents_first_key :
    Indents (utf8.Encode "\x7b\"resource\":\"".toList)
      ⟨json.Step.BeginValueOrEmpty, false, [json.Parse.ArrayValue], none⟩ true 0
      ⟨json.Step.InString, false, [json.Parse.ObjectValue, json.Parse.ArrayValue], none⟩ false 2
      (utf8.Encode "\n  \x7b\n    \"resource\": \"".toList) :=
  Indents_of_closed _ _ _ _ _ _ _ _ (by rfl)

theorem Indents_comma :
    Indents (utf8.Encode ",".toList)
      ⟨json.Step.EndValue, false, [json.Parse.ArrayValue], none⟩ false 1
      ⟨json.Step.BeginValue, false, [json.Parse.ArrayValue], none⟩ false 1
      (utf8.Encode ",\n  ".toList) :=
  Indents_of_closed _ _ _ _ _ _ _ _ (by rfl)

theorem Indents_next_key :
    Indents (utf8.Encode "\x7b\"resource\":\"".toList)
      ⟨json.Step.BeginValue, false, [json.Parse.ArrayValue], none⟩ false 1
      ⟨json.Step.InString, false, [json.Parse.ObjectValue, json.Parse.ArrayValue], none⟩ false 2
      (utf8.Encode "\x7b\n    \"resource\": \"".toList) :=
  Indents_of_closed _ _ _ _ _ _ _ _ (by rfl)

theorem Indents_key_namespace :
    Indents (utf8.Encode "\",\"namespace\":\"".toList)
      ⟨json.Step.InString, false, [json.Parse.ObjectValue, json.Parse.ArrayValue], none⟩ false 2
      ⟨json.Step.InString, false, [json.Parse.ObjectValue, json.Parse.ArrayValue], none⟩ false 2
      (utf8.Encode "\",\n    \"namespace\": \"".toList) :=
  Indents_of_closed _ _ _ _ _ _ _ _ (by rfl)

theorem Indents_key_name :
    Indents (utf8.Encode "\",\"name\":\"".toList)
      ⟨json.Step.InString, false, [json.Parse.ObjectValue, json.Parse.ArrayValue], none⟩ false 2
      ⟨json.Step.InString, false, [json.Parse.ObjectValue, json.Parse.ArrayValue], none⟩ false 2
      (utf8.Encode "\",\n    \"name\": \"".toList) :=
  Indents_of_closed _ _ _ _ _ _ _ _ (by rfl)

theorem Indents_key_cpu :
    Indents (utf8.Encode "\",\"cpu\":\"".toList)
      ⟨json.Step.InString, false, [json.Parse.ObjectValue, json.Parse.ArrayValue], none⟩ false 2
      ⟨json.Step.InString, false, [json.Parse.ObjectValue, json.Parse.ArrayValue], none⟩ false 2
      (utf8.Encode "\",\n    \"cpu\": \"".toList) :=
  Indents_of_closed _ _ _ _ _ _ _ _ (by rfl)

theorem Indents_key_memory :
    Indents (utf8.Encode "\",\"memory\":\"".toList)
      ⟨json.Step.InString, false, [json.Parse.ObjectValue, json.Parse.ArrayValue], none⟩ false 2
      ⟨json.Step.InString, false, [json.Parse.ObjectValue, json.Parse.ArrayValue], none⟩ false 2
      (utf8.Encode "\",\n    \"memory\": \"".toList) :=
  Indents_of_closed _ _ _ _ _ _ _ _ (by rfl)

theorem Indents_close_object :
    Indents (utf8.Encode "\"\x7d".toList)
      ⟨json.Step.InString, false, [json.Parse.ObjectValue, json.Parse.ArrayValue], none⟩ false 2
      ⟨json.Step.EndValue, false, [json.Parse.ArrayValue], none⟩ false 1
      (utf8.Encode "\"\n  \x7d".toList) :=
  Indents_of_closed _ _ _ _ _ _ _ _ (by rfl)

theorem Indents_close_array :
    Indents (utf8.Encode "]\n".toList)
      ⟨json.Step.EndValue, false, [json.Parse.ArrayValue], none⟩ false 1
      ⟨json.Step.EndTop, true, [], none⟩ false 0
      (utf8.Encode "\n]\n".toList) :=
  Indents_of_closed _ _ _ _ _ _ _ _ (by rfl)

theorem encodeMetric_eq (m : Metric) :
    json.encodeMetric m = "\x7b\"resource\":\"".toList ++ objTail m := by
  simp only [json.encodeMetric, json.quote, objTail, List.cons_append, List.append_assoc,
    List.nil_append, List.singleton_append]
  rfl

theorem jsonObjectText_eq (m : Metric) :
    jsonObjectText m = "  \x7b\n    \"resource\": \"".toList ++ objTailOut m := by
  simp only [jsonObjectText, json.quote, objTailOut, List.cons_append, List.append_assoc,
    List.nil_append, List.singleton_append]
  rfl

theorem Indents_objTail (m : Metric) :
    Indents (utf8.Encode (objTail m))
      ⟨json.Step.InString, false, [json.Parse.ObjectValue, json.Parse.ArrayValue], none⟩ false 2
      ⟨json.Step.EndValue, false, [json.Parse.ArrayValue], none⟩ false 1
      (utf8.Encode (objTailOut m)) := by
  unfold objTail objTailOut
  simp only [utf8.Encode_append]
  exact Indents_append (Indents_escape _ _ _ _ _) (Indents_append Indents_key_namespace
    (Indents_append (Indents_escape _ _ _ _ _) (Indents_append Indents_key_name
      (Indents_append (Indents_escape _ _ _ _ _) (Indents_append Indents_key_cpu
        (Indents_append (Indents_escape _ _ _ _ _) (Indents_append Indents_key_memory
          (Indents_append (Indents_escape _ _ _ _ _) Indents_close_object))))))))

theorem Indents_more (ms : List Metric) (i : Nat) (hi : i > 0) :
    Indents (utf8.Encode (json.encodeElems i ms))
      ⟨json.Step.EndValue, false, [json.Parse.ArrayValue], none⟩ false 1
      ⟨json.Step.EndValue, false, [json.Parse.ArrayValue], none⟩ false 1
      (utf8.Encode (jsonMoreText ms)) := by
  induction ms generalizing i with
  | nil => exact Indents_nil _ _ _
  | cons m ms ih =>
    have hin : json.encodeElems i (m :: ms) =
        ",".toList ++ ("\x7b\"resource\":\"".toList ++ (objTail m ++ json.encodeElems (i + 1) ms)) := by
      rw [json.encodeElems, if_pos hi, encodeMetric_eq]
      simp only [List.append_assoc]
      rfl
    have hout : jsonMoreText (m :: ms) =
        ",\n  ".toList ++ ("\x7b\n    \"resource\": \"".toList ++ (objTailOut m ++ jsonMoreText ms)) := by
      rw [jsonMoreText, jsonObjectText_eq]
      simp only [List.append_assoc]
      rfl
    rw [hin, hout]
    simp only [utf8.Encode_append]
    exact Indents_append Indents_comma (Indents_append Indents_next_key
      (Indents_append (Indents_objTail m) (ih (i + 1) (by omega))))

theorem Indents_array (m : Metric) (ms : List Metric) :
    Indents (utf8.Encode (json.marshal (GoSlice.alloc (m :: ms)) ++ "\n".toList))
      json.newScanner false 0 ⟨json.Step.EndTop, true, [], none⟩ false 0
      (utf8.Encode (jsonArrayText (m :: ms))) := by
  have hin : json.marshal (GoSlice.alloc (m :: ms)) ++ "\n".toList =
      "[".toList ++ ("\x7b\"resource\":\"".toList ++ (objTail m ++
        (json.encodeElems 1 ms ++ "]\n".toList))) := by
    rw [json.marshal, json.encodeElems, if_neg (by decide), encodeMetric_eq]
    simp only [List.append_assoc, List.cons_append, List.nil_append]
    rfl
  have hout : jsonArrayText (m :: ms) =
      "[".toList ++ ("\n  \x7b\n    \"resource\": \"".toList ++ (objTailOut m ++
        (jsonMoreText ms ++ "\n]\n".toList))) := by
    rw [jsonArrayText, jsonObjectText_eq]
    simp only [List.append_assoc]
    rfl
  rw [hin, hout]
  simp only [utf8.Encode_append]
  exact Indents_append Indents_open (Indents_append Indents_first_key
    (Indents_append (Indents_objTail m) (Indents_append (Indents_more ms 1 (by decide))
      Indents_close_array)))

/-- The indentation of what the encoder makes of an allocated slice of records is the
indented array. -/
theorem appendIndent_marshal (ms : List Metric) :
    json.appendIndent (utf8.Encode (json.marshal (GoSlice.alloc ms)) ++ [0x0A]) []
        [0x20, 0x20] = Except.ok (utf8.Encode (jsonArrayText ms)) := by
  cases ms with
  | nil => rfl
  | cons m ms =>
    have h := Indents_array m ms []
    rw [utf8.Encode_append] at h
    have hnl : utf8.Encode "\n".toList = [0x0A] := rfl
    rw [hnl] at h
    unfold json.appendIndent
    rw [h]
    rfl

theorem appendIndent_null :
    json.appendIndent (utf8.Encode (json.marshal GoSlice.nil) ++ [0x0A]) [] [0x20, 0x20] =
      Except.ok (utf8.Encode "null\n".toList) := by
  rfl

/-! ## Part 2, continued: the JSON string of a field denotes the field -/

theorem jsonUnescape_plain (c : Char) (t : GoString) (h1 : c ≠ '\\') (h2 : c ≠ '"')
    (h3 : ¬ c.toNat < 0x20) : jsonUnescape (c :: t) = consTo (some c) (jsonUnescape t) := by
  have hc : ¬ (c = '"' ∨ c.toNat < 0x20) := by
    intro h
    rcases h with h | h
    · exact h2 h
    · exact h3 h
  rw [jsonUnescape.eq_def]
  simp only [if_neg h1, if_neg hc]

theorem jsonUnescape_esc (e : Char) (t : GoString) (he : e ≠ 'u') :
    jsonUnescape ('\\' :: e :: t) = consTo (jsonEscaped e) (jsonUnescape t) := by
  rw [jsonUnescape.eq_def]
  simp only [if_true, if_neg he]

theorem jsonUnescape_u (a b x d : Char) (t : GoString) :
    jsonUnescape ('\\' :: 'u' :: a :: b :: x :: d :: t) =
      consTo (jsonEscapedU a b x d) (jsonUnescape t) := by
  rw [jsonUnescape.eq_def]
  simp only [if_true]

theorem hexValue_hex (k : Nat) (hk : k < 16) : hexValue (json.hex k) = some k := by
  have : ∀ j < 16, hexValue (json.hex j) = some j := by decide
  exact this k hk

theorem Char.ne_of_toNat_ne (c d : Char) (h : c.toNat ≠ d.toNat) : c ≠ d :=
  fun hcd => h (by rw [hcd])

theorem jsonUnescape_escapeRune (r : Char) (t : GoString) :
    jsonUnescape (json.escapeRune r ++ t) = consTo (some r) (jsonUnescape t) := by
  unfold json.escapeRune
  dsimp only
  by_cases hn : r.toNat < 0x80
  · rw [if_pos hn]
    by_cases hs : json.htmlSafe r.toNat = true
    · rw [if_pos hs]
      simp only [json.htmlSafe, Bool.and_eq_true, decide_eq_true_eq, bne_iff_ne, ne_eq] at hs
      exact jsonUnescape_plain r t
        (Char.ne_of_toNat_ne _ _ (by show r.toNat ≠ 92; omega))
        (Char.ne_of_toNat_ne _ _ (by show r.toNat ≠ 34; omega)) (by omega)
    · rw [if_neg hs]
      by_cases h1 : r = '\\' ∨ r = '"'
      · rw [if_pos h1]
        rcases h1 with rfl | rfl
        · exact jsonUnescape_esc _ _ (by decide)
        · exact jsonUnescape_esc _ _ (by decide)
      · rw [if_neg h1]
        by_cases h3 : r.toNat = 0x08
        · rw [if_pos h3]
          have hr : r = Char.ofNat 8 := by rw [← h3, Char.ofNat_toNat]
          rw [hr]
          exact jsonUnescape_esc _ _ (by decide)
        · rw [if_neg h3]
          by_cases h4 : r.toNat = 0x0C
          · rw [if_pos h4]
            have hr : r = Char.ofNat 12 := by rw [← h4, Char.ofNat_toNat]
            rw [hr]
            exact jsonUnescape_esc _ _ (by decide)
          · rw [if_neg h4]
            by_cases h5 : r = '\n'
            · rw [if_pos h5, h5]
              exact jsonUnescape_esc _ _ (by decide)
            · rw [if_neg h5]
              by_cases h6 : r = '\r'
              · rw [if_pos h6, h6]
                exact jsonUnescape_esc _ _ (by decide)
              · rw [if_neg h6]
                by_cases h7 : r = '\t'
                · rw [if_pos h7, h7]
                  exact jsonUnescape_esc _ _ (by decide)
                · rw [if_neg h7]
                  have e0 : hexValue '0' = some 0 := by decide
                  have e1 := hexValue_hex (r.toNat / 16) (by omega)
                  have e2 := hexValue_hex (r.toNat % 16) (by omega)
                  have hv : ((0 * 16 + 0) * 16 + r.toNat / 16) * 16 + r.toNat % 16 = r.toNat := by
                    omega
                  show jsonUnescape ('\\' :: 'u' :: '0' :: '0' :: json.hex (r.toNat / 16) ::
                    json.hex (r.toNat % 16) :: t) = _
                  rw [jsonUnescape_u, jsonEscapedU, e0, e1, e2]
                  dsimp only
                  rw [hv, if_neg (by omega), Char.ofNat_toNat]
  · rw [if_neg hn]
    by_cases h8 : r.toNat = 0x2028 ∨ r.toNat = 0x2029
    · rw [if_pos h8]
      have e0 : hexValue '0' = some 0 := by decide
      have e2 : hexValue '2' = some 2 := by decide
      have e3 := hexValue_hex (r.toNat % 16) (by omega)
      have hv : ((2 * 16 + 0) * 16 + 2) * 16 + r.toNat % 16 = r.toNat := by omega
      show jsonUnescape ('\\' :: 'u' :: '2' :: '0' :: '2' :: json.hex (r.toNat % 16) :: t) = _
      rw [jsonUnescape_u, jsonEscapedU, e0, e2, e3]
      dsimp only
      rw [hv, if_neg (by omega), Char.ofNat_toNat]
    · rw [if_neg h8]
      exact jsonUnescape_plain r t
        (Char.ne_of_toNat_ne _ _ (by show r.toNat ≠ 92; omega))
        (Char.ne_of_toNat_ne _ _ (by show r.toNat ≠ 34; omega)) (by omega)

theorem jsonUnescape_escape (s : GoString) : jsonUnescape (json.escape s) = some s := by
  induction s with
  | nil => rfl
  | cons r rs ih => rw [json.escape, jsonUnescape_escapeRune, ih]; rfl

/-- The JSON string literal the encoder writes for a string denotes that string. -/
theorem jsonUnquote_quote (s : GoString) : jsonUnquote (json.quote s) = some s := by
  unfold jsonUnquote json.quote
  simp only [List.reverse_append, List.reverse_cons, List.reverse_nil, List.nil_append,
    List.singleton_append, List.reverse_reverse]
  exact jsonUnescape_escape s

/-! ## Part 2, continued: `exportJSON` on a standard output that accepts the write -/

theorem Encode_of_indented (w : Stream) (v : GoSlice Metric) (T : List Byte)
    (h : json.appendIndent (utf8.Encode (json.marshal v) ++ [0x0A]) [] [0x20, 0x20] =
      Except.ok T) :
    ((json.NewEncoder w).SetIndent [] "  ".toList).Encode v =
      ({ w := (w.Write T).1, err := (w.Write T).2.2, indentPrefix := [],
         indentValue := "  ".toList }, (w.Write T).2.2) := by
  have hi : utf8.Encode "  ".toList = [0x20, 0x20] := rfl
  have hp : utf8.Encode [] = [] := rfl
  have hc : (([] : GoString) ≠ [] ∨ "  ".toList ≠ []) := Or.inr (by decide)
  unfold json.Encoder.Encode
  simp only [json.Encoder.SetIndent, json.NewEncoder, if_pos hc, hi, hp, h]

theorem Stream.Write_of_room_none (w : Stream) (p : List Byte) (h : w.room = none) :
    w.Write p = ({ w with written := w.written ++ p }, p.length, none) := by
  unfold Stream.Write
  rw [h]

/-- On a standard output that rejects nothing, `exportJSON` writes the indented text in one
piece and returns. -/
theorem exportJSON_of_indented (v : GoSlice Metric) (world : World) (T : List Byte)
    (h : json.appendIndent (utf8.Encode (json.marshal v) ++ [0x0A]) [] [0x20, 0x20] =
      Except.ok T)
    (hroom : world.stdout.room = none) :
    exportJSON v world =
      ({ stdout := { world.stdout with written := world.stdout.written ++ T },
         stderr := world.stderr }, Outcome.returned) := by
  unfold exportJSON
  simp only [Encode_of_indented world.stdout v T h,
    Stream.Write_of_room_none world.stdout T hroom]

/-- The nil slice would be written as `null`; `getMetrics` returns it only together with an
error, so it never reaches `exportJSON`. -/
theorem exportJSON_nil_slice :
    (exportJSON GoSlice.nil World.fresh).1.stdout.written = utf8.Encode "null\n".toList := by
  decide

/-! ## Part 2, continued: `getMetrics` and `main` -/

theorem getMetrics_cmd (rt ns : GoString) :
    (if rt = "pod".toList then
        { exec.Command "kubectl".toList ["top".toList, rt] with
          Args := (exec.Command "kubectl".toList ["top".toList, rt]).Args ++ ["-n".toList, ns] }
      else exec.Command "kubectl".toList ["top".toList, rt]) = kubectlTop rt ns := by
  unfold kubectlTop exec.Command
  by_cases h : rt = "pod".toList
  · rw [if_pos h, if_pos h]
    rfl
  · rw [if_neg h, if_neg h]

/-- The function `getMetrics` hands exactly one command to the host, `kubectlTop`, and
returns the error of the command with the nil slice, or else the records parsed from what
the command printed. -/
theorem getMetrics_eq (rt ns : GoString) (host : exec.Host) :
    getMetrics rt ns host =
      some ({ host with ran := host.ran ++ [kubectlTop rt ns] },
        match (host.respond (kubectlTop rt ns)).2 with
        | some err => (GoSlice.nil, some err)
        | none =>
          (GoSlice.alloc ((dataLines (host.respond (kubectlTop rt ns)).1).filterMap
            (fun l => recordOfFields rt ns (strings.Fields l))), none)) := by
  unfold getMetrics
  simp only [getMetrics_cmd, exec.Cmd.Output]
  cases h : (host.respond (kubectlTop rt ns)).2 with
  | some err => rfl
  | none => simp only [parseOutput_eq]

theorem main_of_error (rt ns format : GoString) (host : exec.Host) (world : World)
    (err : GoError) (h : (host.respond (kubectlTop rt ns)).2 = some err) :
    main rt ns format host world =
      some ({ host with ran := host.ran ++ [kubectlTop rt ns] },
        { stdout := world.stdout,
          stderr := world.stderr ++ "Error getting metrics: ".toList ++ err.text ++ "\n".toList },
        Outcome.exited 1) := by
  unfold main
  rw [getMetrics_eq, h]

theorem main_of_ok (rt ns format : GoString) (host : exec.Host) (world : World)
    (h : (host.respond (kubectlTop rt ns)).2 = none) :
    main rt ns format host world =
      some ({ host with ran := host.ran ++ [kubectlTop rt ns] },
        if format = "json".toList then
          exportJSON (GoSlice.alloc ((dataLines (host.respond (kubectlTop rt ns)).1).filterMap
            (fun l => recordOfFields rt ns (strings.Fields l)))) world
        else if format = "csv".toList then
          exportCSV (GoSlice.alloc ((dataLines (host.respond (kubectlTop rt ns)).1).filterMap
            (fun l => recordOfFields rt ns (strings.Fields l)))) world
        else
          ({ stdout := world.stdout,
             stderr := world.stderr ++ "Unsupported format: ".toList ++ format ++ "\n".toList },
           Outcome.exited 1)) := by
  unfold main
  rw [getMetrics_eq, h]
  by_cases hj : format = "json".toList
  · simp only [if_pos hj]
  · by_cases hc : format = "csv".toList
    · simp only [if_neg hj, if_pos hc]
    · simp only [if_neg hj, if_neg hc]

/-- A slice that `getMetrics` returns without an error is allocated: the nil slice comes
only with an error, and then `main` ends before any exporter runs. -/
theorem getMetrics_alloc (rt ns : GoString) (host host2 : exec.Host) (metrics : GoSlice Metric)
    (h : getMetrics rt ns host = some (host2, metrics, none)) :
    ∃ ms, metrics = GoSlice.alloc ms := by
  rw [getMetrics_eq] at h
  cases hr : (host.respond (kubectlTop rt ns)).2 with
  | some err =>
    rw [hr] at h
    simp at h
  | none =>
    rw [hr] at h
    simp only [Option.some.injEq, Prod.mk.injEq] at h
    exact ⟨_, h.2.1.symm⟩

/-! ## Part 2, continued: the header line and white space around the text -/

theorem dropWhile_eq_nil_of_all {p : Char → Bool} (a : GoString) (h : ∀ c ∈ a, p c = true) :
    a.dropWhile p = [] := by
  have := dropWhile_append_of_all a [] h
  simpa using this

theorem rtrim_append_spaces (y w : GoString) (hw : ∀ c ∈ w, unicode.IsSpace c = true) :
    ((y ++ w).reverse.dropWhile unicode.IsSpace).reverse =
      (y.reverse.dropWhile unicode.IsSpace).reverse := by
  rw [List.reverse_append,
    dropWhile_append_of_all w.reverse y.reverse (fun c hc => hw c (List.mem_reverse.mp hc))]

/-- White space before and after a text does not change what `strings.TrimSpace` returns. -/
theorem TrimSpace_pad (s w1 w2 : GoString) (h1 : ∀ c ∈ w1, unicode.IsSpace c = true)
    (h2 : ∀ c ∈ w2, unicode.IsSpace c = true) :
    strings.TrimSpace (w1 ++ s ++ w2) = strings.TrimSpace s := by
  unfold strings.TrimSpace
  rw [List.append_assoc, dropWhile_append_of_all w1 _ h1]
  by_cases hs : ∃ c ∈ s, unicode.IsSpace c = false
  · rw [dropWhile_append_of_exists s w2 hs, rtrim_append_spaces _ w2 h2]
  · have hall : ∀ c ∈ s, unicode.IsSpace c = true := by
      intro c hc
      cases hsp : unicode.IsSpace c with
      | true => rfl
      | false => exact absurd ⟨c, hc, hsp⟩ hs
    rw [dropWhile_append_of_all s w2 hall, dropWhile_eq_nil_of_all w2 h2,
      dropWhile_eq_nil_of_all s hall]

theorem parseOutput_pad (s w1 w2 rt ns : GoString) (h1 : ∀ c ∈ w1, unicode.IsSpace c = true)
    (h2 : ∀ c ∈ w2, unicode.IsSpace c = true) :
    parseOutput (w1 ++ s ++ w2) rt ns = parseOutput s rt ns := by
  unfold parseOutput
  rw [TrimSpace_pad s w1 w2 h1 h2]

/-- After a header line that is not blank the records are those of the lines of the body. -/
theorem parseOutput_header_body (h b rt ns : GoString) (hnl : '\n' ∉ h)
    (hh : ∃ c ∈ h, unicode.IsSpace c = false) :
    parseOutput (h ++ '\n' :: b) rt ns = some (GoSlice.alloc
      ((strings.Split b '\n').filterMap (fun l => recordOfFields rt ns (strings.Fields l)))) := by
  rw [parseOutput_eq_rows, dropWhile_append_of_exists _ _ hh, rows_filterMap,
    strings.Split_append_sep _ _ _ (not_mem_dropWhile h '\n' hnl)]
  rfl

theorem recordOfFields_eq_some (rt ns : GoString) (fs : List GoString) (m : Metric)
    (h : recordOfFields rt ns fs = some m) :
    ∃ f0 f1 f2 more, fs = f0 :: f1 :: f2 :: more ∧
      m = { Resource := rt, Namespace := namespaceFor rt ns, Name := f0, CPU := f1,
            Memory := f2 } := by
  match fs, h with
  | f0 :: f1 :: f2 :: more, h =>
    refine ⟨f0, f1, f2, more, rfl, ?_⟩
    simp only [recordOfFields, Option.some.injEq] at h
    exact h.symm

/-! ## Part 2, continued: the CSV text of `exportCSV` read back -/

namespace rfc4180

theorem run_append (r : Reader) (a b : GoString) :
    run r (a ++ b) = (run r a).bind (fun r2 => run r2 b) := by
  induction a generalizing r with
  | nil => rfl
  | cons c cs ih =>
    simp only [List.cons_append, run]
    cases step r c with
    | none => rfl
    | some r2 => exact ih r2

theorem run_unquoted (recs : List (List GoString)) (fs : List GoString) (acc f : GoString)
    (hf : ∀ c ∈ f, c ≠ '"' ∧ c ≠ ',' ∧ c ≠ '\n' ∧ c ≠ '\r') :
    run ⟨recs, fs, acc, Mode.unquoted⟩ f = some ⟨recs, fs, acc ++ f, Mode.unquoted⟩ := by
  induction f generalizing acc with
  | nil => simp [run]
  | cons c cs ih =>
    obtain ⟨h1, h2, h3, h4⟩ := hf c (by simp)
    simp only [run, step, if_neg h1, if_neg h2, if_neg h3, if_neg h4]
    rw [ih (acc ++ [c]) (fun d hd => hf d (by simp [hd]))]
    simp

theorem run_plain_field (recs : List (List GoString)) (fs : List GoString) (f : GoString)
    (hf : ∀ c ∈ f, c ≠ '"' ∧ c ≠ ',' ∧ c ≠ '\n' ∧ c ≠ '\r') (d : Char)
    (hd : d = ',' ∨ d = '\n') :
    run ⟨recs, fs, [], Mode.fieldStart⟩ (f ++ [d]) =
      some (if d = ',' then ⟨recs, fs ++ [f], [], Mode.fieldStart⟩
            else ⟨recs ++ [fs ++ [f]], [], [], Mode.fieldStart⟩) := by
  cases f with
  | nil =>
    rcases hd with rfl | rfl
    · simp [run, step, Reader.endField]
    · simp [run, step, Reader.endRecord]
  | cons c cs =>
    obtain ⟨h1, h2, h3, h4⟩ := hf c (by simp)
    simp only [List.cons_append, run, step, if_neg h1, if_neg h2, if_neg h3, if_neg h4,
      List.append_eq]
    rw [run_append, run_unquoted recs fs [c] cs (fun x hx => hf x (by simp [hx]))]
    rcases hd with rfl | rfl
    · simp [run, step, Reader.endField]
    · simp [run, step, Reader.endRecord]

theorem csvEscape_false_single (c : Char) :
    csvEscape false [c] = if c = '"' then ['"', '"'] else [c] := by
  by_cases h1 : c = '"'
  · simp [csvEscape, h1]
  · by_cases h2 : c = '\r'
    · simp [csvEscape, h2]
    · by_cases h3 : c = '\n'
      · simp [csvEscape, h3]
      · simp [csvEscape, h1, h2, h3]

theorem csvEscape_false_eq (f : GoString) : csvEscape false f = doubleQuotes f := by
  induction f with
  | nil => rfl
  | cons c cs ih =>
    rw [csv.Writer.csvEscape_cons, csvEscape_false_single, ih]
    rfl

theorem run_quoted (recs : List (List GoString)) (fs : List GoString) (acc f : GoString) :
    run ⟨recs, fs, acc, Mode.quoted⟩ (doubleQuotes f) =
      some ⟨recs, fs, acc ++ f, Mode.quoted⟩ := by
  induction f generalizing acc with
  | nil => simp [run, doubleQuotes]
  | cons c cs ih =>
    by_cases h1 : c = '"'
    · subst h1
      simp only [doubleQuotes, if_true, List.cons_append, List.nil_append, run, step,
        List.append_eq]
      rw [ih (acc ++ ['"'])]
      simp
    · simp only [doubleQuotes, if_neg h1, List.cons_append, List.nil_append, run, step,
        List.append_eq]
      rw [ih (acc ++ [c])]
      simp

theorem run_quoted_field (recs : List (List GoString)) (fs : List GoString) (f : GoString)
    (d : Char) (hd : d = ',' ∨ d = '\n') :
    run ⟨recs, fs, [], Mode.fieldStart⟩ (csvQuoted f ++ [d]) =
      some (if d = ',' then ⟨recs, fs ++ [f], [], Mode.fieldStart⟩
            else ⟨recs ++ [fs ++ [f]], [], [], Mode.fieldStart⟩) := by
  unfold csvQuoted
  simp only [List.cons_append, run, step, if_true, List.append_eq]
  rw [run_append, run_append, run_quoted recs fs [] f]
  rcases hd with rfl | rfl
  · simp [run, step, Reader.endField]
  · simp [run, step, Reader.endRecord]

theorem no_special_of_not_needsQuotes (w : csv.Writer) (hc : w.Comma = ',') (f : GoString)
    (h : w.fieldNeedsQuotes f = false) :
    ∀ c ∈ f, c ≠ '"' ∧ c ≠ ',' ∧ c ≠ '\n' ∧ c ≠ '\r' := by
  intro c hcm
  unfold csv.Writer.fieldNeedsQuotes at h
  have hne : f ≠ [] := fun he => by rw [he] at hcm; cases hcm
  rw [if_neg hne] at h
  by_cases h2 : f = ['\\', '.']
  · rw [if_pos h2] at h
    cases h
  · rw [if_neg h2, hc] at h
    cases hany : f.any (fun c => c == '\n' || c == '\r' || c == '"' || c == ',') with
    | true =>
      rw [hany, if_pos rfl] at h
      cases h
    | false =>
      have := List.any_eq_false.mp hany c hcm
      simp only [Bool.or_eq_true, beq_iff_eq, not_or] at this
      exact ⟨this.1.2, this.2, this.1.1.1, this.1.1.2⟩

theorem csvField_eq (w : csv.Writer) (hu : w.UseCRLF = false) (f : GoString) :
    csvField w f = if w.fieldNeedsQuotes f = true then csvQuoted f else f := by
  unfold csvField csvQuoted
  rw [hu, csvEscape_false_eq]

/-- One field of a line of `exportCSV`, with the comma or the newline behind it, is read
back as the field. -/
theorem run_field (w : csv.Writer) (hc : w.Comma = ',') (hu : w.UseCRLF = false)
    (recs : List (List GoString)) (fs : List GoString) (f : GoString) (d : Char)
    (hd : d = ',' ∨ d = '\n') :
    run ⟨recs, fs, [], Mode.fieldStart⟩ (csvField w f ++ [d]) =
      some (if d = ',' then ⟨recs, fs ++ [f], [], Mode.fieldStart⟩
            else ⟨recs ++ [fs ++ [f]], [], [], Mode.fieldStart⟩) := by
  rw [csvField_eq w hu]
  cases hq : w.fieldNeedsQuotes f with
  | true =>
    rw [if_pos rfl]
    exact run_quoted_field recs fs f d hd
  | false =>
    rw [if_neg (by decide)]
    exact run_plain_field recs fs f (no_special_of_not_needsQuotes w hc f hq) d hd

theorem run_fields (w : csv.Writer) (hc : w.Comma = ',') (hu : w.UseCRLF = false)
    (recs : List (List GoString)) (fs : List GoString) (f : GoString) (rest : List GoString)
    (n : Nat) :
    run ⟨recs, fs, [], Mode.fieldStart⟩ (csvField w f ++ (csvFields w (n + 1) rest ++ ['\n'])) =
      some ⟨recs ++ [fs ++ f :: rest], [], [], Mode.fieldStart⟩ := by
  induction rest generalizing fs f n with
  | nil =>
    have h := run_field w hc hu recs fs f '\n' (Or.inr rfl)
    rw [if_neg (by decide)] at h
    simpa [csvFields] using h
  | cons g rest ih =>
    have h := run_field w hc hu recs fs f ',' (Or.inl rfl)
    rw [if_pos rfl] at h
    have e : csvField w f ++ (csvFields w (n + 1) (g :: rest) ++ ['\n']) =
        (csvField w f ++ [',']) ++ (csvField w g ++ (csvFields w (n + 1 + 1) rest ++ ['\n'])) := by
      rw [csvFields, if_pos (Nat.succ_pos n), hc]
      simp only [List.append_assoc, List.singleton_append, List.cons_append, List.nil_append]
    rw [e, run_append, h, Option.some_bind, ih (fs ++ [f]) g (n + 1)]
    simp

/-- One line of `exportCSV` is read back as the record. -/
theorem run_csvLine (w : csv.Writer) (hc : w.Comma = ',') (hu : w.UseCRLF = false)
    (recs : List (List GoString)) (f : GoString) (rest : List GoString) :
    run ⟨recs, [], [], Mode.fieldStart⟩ (csvLine w (f :: rest)) =
      some ⟨recs ++ [f :: rest], [], [], Mode.fieldStart⟩ := by
  have h := run_fields w hc hu recs [] f rest 0
  have e : csvLine w (f :: rest) = csvField w f ++ (csvFields w (0 + 1) rest ++ ['\n']) := by
    rw [csvLine, csvFields, hu, if_neg (Nat.lt_irrefl 0)]
    simp only [List.nil_append, List.append_assoc, Bool.false_eq_true, if_false]
  rw [e, h]
  rfl

theorem run_csvRows (w : csv.Writer) (hc : w.Comma = ',') (hu : w.UseCRLF = false)
    (recs : List (List GoString)) (ms : List Metric) :
    run ⟨recs, [], [], Mode.fieldStart⟩ (csvRows w ms) =
      some ⟨recs ++ ms.map Metric.record, [], [], Mode.fieldStart⟩ := by
  induction ms generalizing recs with
  | nil => simp [csvRows, run]
  | cons m ms ih =>
    rw [csvRows, run_append]
    have h := run_csvLine w hc hu recs m.Resource [m.Namespace, m.Name, m.CPU, m.Memory]
    rw [show m.record = m.Resource :: [m.Namespace, m.Name, m.CPU, m.Memory] from rfl, h,
      Option.some_bind, ih]
    simp [Metric.record]

end rfc4180
/-! ## Part 2, continued: `encoding/json` on the bytes of a string -/

theorem Char.toNat_valid (c : Char) :
    c.toNat < 0xD800 ∨ (0xDFFF < c.toNat ∧ c.toNat < 0x110000) := c.valid

theorem utf8.DecodeRune_EncodeRune (c : Char) (rest : List Byte) :
    utf8.DecodeRune (utf8.EncodeRune c ++ rest) = (c, (utf8.EncodeRune c).length) := by
  have hv := Char.toNat_valid c
  have hc := Char.ofNat_toNat c
  generalize hn : c.toNat = n at hv hc
  unfold utf8.EncodeRune
  simp only [hn]
  by_cases h1 : n ≤ 0x7F
  · rw [if_pos h1]
    simp only [List.singleton_append, utf8.DecodeRune, List.length_singleton]
    rw [if_pos (show n < 0x80 by omega), hc]
  · rw [if_neg h1]
    by_cases h2 : n ≤ 0x7FF
    · rw [if_pos h2]
      simp only [List.cons_append, List.nil_append, utf8.DecodeRune, List.length_cons,
        List.length_nil]
      rw [if_neg (show ¬ 0xC0 + n / 64 < 0x80 by omega),
        if_neg (show ¬ 0xC0 + n / 64 < 0xC2 by omega),
        if_pos (show 0xC0 + n / 64 < 0xE0 by omega),
        if_pos (show 0x80 ≤ 0x80 + n % 64 ∧ 0x80 + n % 64 ≤ 0xBF by omega)]
      have e : (0xC0 + n / 64) % 32 * 64 + (0x80 + n % 64) % 64 = n := by omega
      rw [e, hc]
    · rw [if_neg h2]
      by_cases h3 : n ≤ 0xFFFF
      · rw [if_pos h3]
        simp only [List.cons_append, List.nil_append, utf8.DecodeRune, List.length_cons,
          List.length_nil]
        rw [if_neg (show ¬ 0xE0 + n / 4096 < 0x80 by omega),
          if_neg (show ¬ 0xE0 + n / 4096 < 0xC2 by omega),
          if_neg (show ¬ 0xE0 + n / 4096 < 0xE0 by omega),
          if_pos (show 0xE0 + n / 4096 < 0xF0 by omega)]
        have hb1 : (if 0xE0 + n / 4096 = 0xE0 then 0xA0 else 0x80) ≤ 0x80 + n / 64 % 64 ∧
            0x80 + n / 64 % 64 ≤ (if 0xE0 + n / 4096 = 0xED then 0x9F else 0xBF) := by
          constructor
          · split <;> omega
          · split <;> omega
        rw [if_pos hb1, if_pos (show 0x80 ≤ 0x80 + n % 64 ∧ 0x80 + n % 64 ≤ 0xBF by omega)]
        have e : (0xE0 + n / 4096) % 16 * 4096 + (0x80 + n / 64 % 64) % 64 * 64 +
            (0x80 + n % 64) % 64 = n := by omega
        rw [e, hc]
      · rw [if_neg h3]
        simp only [List.cons_append, List.nil_append, utf8.DecodeRune, List.length_cons,
          List.length_nil]
        rw [if_neg (show ¬ 0xF0 + n / 262144 < 0x80 by omega),
          if_neg (show ¬ 0xF0 + n / 262144 < 0xC2 by omega),
          if_neg (show ¬ 0xF0 + n / 262144 < 0xE0 by omega),
          if_neg (show ¬ 0xF0 + n / 262144 < 0xF0 by omega),
          if_pos (show 0xF0 + n / 262144 < 0xF5 by omega)]
        have hb1 : (if 0xF0 + n / 262144 = 0xF0 then 0x90 else 0x80) ≤ 0x80 + n / 4096 % 64 ∧
            0x80 + n / 4096 % 64 ≤ (if 0xF0 + n / 262144 = 0xF4 then 0x8F else 0xBF) := by
          constructor
          · split <;> omega
          · split <;> omega
        rw [if_pos hb1,
          if_pos (show 0x80 ≤ 0x80 + n / 64 % 64 ∧ 0x80 + n / 64 % 64 ≤ 0xBF by omega),
          if_pos (show 0x80 ≤ 0x80 + n % 64 ∧ 0x80 + n % 64 ≤ 0xBF by omega)]
        have e : (0xF0 + n / 262144) % 8 * 262144 + (0x80 + n / 4096 % 64) % 64 * 4096 +
            (0x80 + n / 64 % 64) % 64 * 64 + (0x80 + n % 64) % 64 = n := by omega
        rw [e, hc]


theorem utf8.DecodeRune_size_pos (b : Byte) (rest : List Byte) :
    1 ≤ (utf8.DecodeRune (b :: rest)).2 := by
  simp only [utf8.DecodeRune]
  repeat' split
  all_goals simp

theorem utf8.EncodeRune_cons (c : Char) :
    ∃ b tail, utf8.EncodeRune c = b :: tail ∧
      (c.toNat < 0x80 → b = c.toNat ∧ tail = []) ∧
      (¬ c.toNat < 0x80 → ¬ b < 0x80 ∧ tail ≠ []) := by
  unfold utf8.EncodeRune
  generalize c.toNat = n
  by_cases h1 : n ≤ 0x7F
  · exact ⟨n, [], by simp [h1], fun _ => ⟨rfl, rfl⟩, fun h => absurd (by omega) h⟩
  · by_cases h2 : n ≤ 0x7FF
    · refine ⟨0xC0 + n / 64, [0x80 + n % 64], by simp [h1, h2], fun h => absurd h (by omega),
        fun _ => ⟨?_, by simp⟩⟩
      show ¬ 0xC0 + n / 64 < 0x80
      omega
    · by_cases h3 : n ≤ 0xFFFF
      · refine ⟨0xE0 + n / 4096, [0x80 + n / 64 % 64, 0x80 + n % 64], by simp [h1, h2, h3],
          fun h => absurd h (by omega), fun _ => ⟨?_, by simp⟩⟩
        show ¬ 0xE0 + n / 4096 < 0x80
        omega
      · refine ⟨0xF0 + n / 262144, [0x80 + n / 4096 % 64, 0x80 + n / 64 % 64, 0x80 + n % 64],
          by simp [h1, h2, h3], fun h => absurd h (by omega), fun _ => ⟨?_, by simp⟩⟩
        show ¬ 0xF0 + n / 262144 < 0x80
        omega

namespace json

theorem appendStringLoop_nil (fuel : Nat) : appendStringLoop fuel [] = [] := by
  cases fuel <;> rfl

/-- With at least `len(src)` turns the loop of `appendString` comes to its end: more turns
change nothing. -/
theorem appendStringLoop_fuel (f1 f2 : Nat) (src : List Byte) (h1 : src.length ≤ f1)
    (h2 : src.length ≤ f2) : appendStringLoop f1 src = appendStringLoop f2 src := by
  induction f1 generalizing f2 src with
  | zero =>
    have : src = [] := List.length_eq_zero.mp (Nat.le_zero.mp h1)
    subst this
    rw [appendStringLoop_nil, appendStringLoop_nil]
  | succ f ih =>
    cases src with
    | nil => rw [appendStringLoop_nil, appendStringLoop_nil]
    | cons b rest =>
      cases f2 with
      | zero => simp at h2
      | succ g =>
        simp only [List.length_cons, Nat.add_le_add_iff_right] at h1 h2
        have hp := utf8.DecodeRune_size_pos b rest
        have hl : ((b :: rest).drop (utf8.DecodeRune (b :: rest)).2).length ≤ rest.length := by
          rw [List.length_drop, List.length_cons]
          omega
        have e1 := ih g rest h1 h2
        have e2 := ih g ((b :: rest).drop (utf8.DecodeRune (b :: rest)).2)
          (Nat.le_trans hl h1) (Nat.le_trans hl h2)
        simp only [appendStringLoop, e1, e2]

/-- On a string that is valid UTF-8 the loop of `appendString` writes the bytes of what
`escape` gives for its runes. -/
theorem appendStringLoop_Encode (s : GoString) (fuel : Nat)
    (h : (utf8.Encode s).length ≤ fuel) :
    appendStringLoop fuel (utf8.Encode s) = utf8.Encode (escape s) := by
  induction s generalizing fuel with
  | nil => rw [utf8.Encode, appendStringLoop_nil]; rfl
  | cons c cs ih =>
    obtain ⟨b, tail, he, hlo, hhi⟩ := utf8.EncodeRune_cons c
    have hd := utf8.DecodeRune_EncodeRune c (utf8.Encode cs)
    rw [utf8.Encode, he, List.cons_append] at h ⊢
    rw [he, List.cons_append] at hd
    cases fuel with
    | zero => simp at h
    | succ f =>
      simp only [List.length_cons, List.length_append, Nat.add_le_add_iff_right] at h
      have hf : (utf8.Encode cs).length ≤ f := by omega
      rw [escape, utf8.Encode_append]
      by_cases hc : c.toNat < 0x80
      · obtain ⟨hb, ht⟩ := hlo hc
        subst ht
        have hb2 : b < 0x80 := by rw [hb]; exact hc
        simp only [appendStringLoop, List.nil_append, if_pos hb2]
        rw [hb, Char.ofNat_toNat, ih f hf]
      · obtain ⟨hb, ht⟩ := hhi hc
        have hlen : ¬ (c = utf8.RuneError ∧ (b :: tail).length = 1) := by
          rintro ⟨-, h1⟩
          cases tail with
          | nil => exact ht rfl
          | cons x xs => simp at h1
        have htake : (b :: (tail ++ utf8.Encode cs)).take (b :: tail).length = b :: tail := by
          simp
        have hdrop : (b :: (tail ++ utf8.Encode cs)).drop (b :: tail).length = utf8.Encode cs := by
          simp
        simp only [appendStringLoop, if_neg hb, hd, if_neg hlen, htake, hdrop, ih f hf]
        by_cases hu : c.toNat = 0x2028 ∨ c.toNat = 0x2029
        · rw [if_pos hu]
          simp only [escapeRune, if_neg hc, if_pos hu]
        · rw [if_neg hu]
          simp only [escapeRune, if_neg hc, if_neg hu]
          rw [utf8.Encode, utf8.Encode, he, List.append_nil]

theorem appendString_Encode (s : GoString) :
    appendString (utf8.Encode s) = utf8.Encode (quote s) := by
  unfold appendString quote
  rw [appendStringLoop_Encode s _ (Nat.le_refl _)]
  have e : ('"' :: (escape s ++ ['"'])) = ['"'] ++ (escape s ++ ['"']) := rfl
  rw [e, utf8.Encode_append, utf8.Encode_append]
  rfl

theorem encodeMetricBytes_bytes (m : Metric) :
    encodeMetricBytes m.bytes = utf8.Encode (encodeMetric m) := by
  unfold encodeMetricBytes encodeMetric Metric.bytes
  simp only [appendString_Encode, utf8.Encode_append]
  rfl

theorem encodeElemsBytes_bytes (i : Nat) (ms : List Metric) :
    encodeElemsBytes i (ms.map Metric.bytes) = utf8.Encode (encodeElems i ms) := by
  induction ms generalizing i with
  | nil => rfl
  | cons m ms ih =>
    rw [List.map_cons, encodeElemsBytes, encodeElems, utf8.Encode_append, utf8.Encode_append,
      encodeMetricBytes_bytes, ih]
    by_cases hi : i > 0
    · rw [if_pos hi, if_pos hi]
      rfl
    · rw [if_neg hi, if_neg hi]
      rfl

theorem marshalBytes_bytes (v : GoSlice Metric) :
    marshalBytes (v.map Metric.bytes) = utf8.Encode (marshal v) := by
  cases v with
  | nil => rfl
  | alloc ms =>
    show 0x5B :: (encodeElemsBytes 0 (ms.map Metric.bytes) ++ [0x5D]) = _
    rw [encodeElemsBytes_bytes, marshal]
    have e : ('[' :: (encodeElems 0 ms ++ [']'])) = ['['] ++ (encodeElems 0 ms ++ [']']) := rfl
    rw [e, utf8.Encode_append, utf8.Encode_append]
    rfl

theorem Encoder.EncodeBytes_bytes (enc : Encoder) (v : GoSlice Metric) :
    enc.EncodeBytes (v.map Metric.bytes) = enc.Encode v := by
  unfold Encoder.EncodeBytes Encoder.Encode
  rw [marshalBytes_bytes]

end json

/-- On records whose strings are valid UTF-8 the two models of `exportJSON` agree. -/
theorem exportJSONBytes_bytes (metrics : GoSlice Metric) (world : World) :
    exportJSONBytes (metrics.map Metric.bytes) world = exportJSON metrics world := by
  simp only [exportJSONBytes, exportJSON, json.Encoder.EncodeBytes_bytes]

/-- Records whose strings are valid UTF-8 are the bytes of records of texts. -/
theorem exists_texts_of_valid (bms : List MetricBytes) (h : ∀ m ∈ bms, m.ValidUTF8) :
    ∃ ms : List Metric, bms = ms.map Metric.bytes := by
  induction bms with
  | nil => exact ⟨[], rfl⟩
  | cons m bms ih =>
    obtain ⟨ms, hms⟩ := ih (fun x hx => h x (List.mem_cons_of_mem _ hx))
    obtain ⟨⟨r, hr⟩, ⟨n, hn⟩, ⟨a, ha⟩, ⟨c, hc⟩, ⟨y, hy⟩⟩ := h m (List.mem_cons_self _ _)
    refine ⟨⟨r, n, a, c, y⟩ :: ms, ?_⟩
    rw [List.map_cons, ← hms]
    cases m
    simp only [Metric.bytes] at *
    simp [hr, hn, ha, hc, hy]

/-! ## Part 3: the claims about the parser -/

theorem not_mem_TrimSpace (t : GoString) (c : Char) (h : c ∉ t) : c ∉ strings.TrimSpace t := by
  unfold strings.TrimSpace
  intro hc
  have h1 := (List.dropWhile_suffix unicode.IsSpace).subset (List.mem_reverse.mp hc)
  exact not_mem_dropWhile t c h (List.mem_reverse.mp h1)

theorem TrimSpace_of_all_space (w : GoString) (hw : ∀ c ∈ w, unicode.IsSpace c = true) :
    strings.TrimSpace w = [] := by
  have h : w.dropWhile unicode.IsSpace = [] := List.dropWhile_eq_nil_iff.mpr hw
  simp [strings.TrimSpace, h]

theorem recordOfFields_of_length_ge (rt ns : GoString) (fs : List GoString)
    (h : ¬ fs.length < 3) : ∃ m, recordOfFields rt ns fs = some m := by
  match fs, h with
  | _ :: _ :: _ :: _, _ => exact ⟨_, rfl⟩
  | [], h => simp at h
  | [_], h => simp at h
  | [_, _], h => simp at h

theorem length_filterMap_record (rt ns : GoString) (ls : List GoString) :
    (ls.filterMap (fun l => recordOfFields rt ns (strings.Fields l))).length =
      ls.length - (ls.filter (fun l => decide ((strings.Fields l).length < 3))).length := by
  induction ls with
  | nil => rfl
  | cons l ls ih =>
    have hle : (ls.filter (fun l => decide ((strings.Fields l).length < 3))).length ≤ ls.length :=
      List.length_filter_le _ _
    rw [List.filterMap_cons, List.filter_cons]
    by_cases h : (strings.Fields l).length < 3
    · rw [recordOfFields_of_length_lt rt ns _ h, if_pos (by simpa using h)]
      simp only [List.length_cons, ih]
      omega
    · obtain ⟨m, hm⟩ := recordOfFields_of_length_ge rt ns _ h
      rw [hm, if_neg (by simpa using h)]
      simp only [List.length_cons, ih]
      omega

/-- C1, as amended: for a header line holding at least one rune that is not white space,
followed by N data lines of at least three fields each (the lines joined by newlines),
`parseOutput` returns exactly N records, and the i-th record is built from the i-th data
line. -/
theorem parseOutput_header_and_data_lines (h : GoString) (ds : List GoString)
    (rt ns : GoString) (hh : ∃ c ∈ h, unicode.IsSpace c = false) (hnl : '\n' ∉ h)
    (hds : ∀ d ∈ ds, '\n' ∉ d ∧ 3 ≤ (strings.Fields d).length) :
    ∃ ms, parseOutput (joinLines (h :: ds)) rt ns = some (GoSlice.alloc ms) ∧
      ms.length = ds.length ∧ List.Forall₂ (BuiltFrom rt ns) ds ms := by
  have hall : ds.filter (fun l => decide (3 ≤ (strings.Fields l).length)) = ds :=
    List.filter_eq_self.mpr (fun d hd => by simpa using (hds d hd).2)
  have hf := filterMap_record_forall₂ rt ns ds
  rw [hall] at hf
  exact ⟨_, parseOutput_joinLines h ds rt ns hh hnl (fun d hd => (hds d hd).1),
    hf.length_eq.symm, hf⟩

/-- C1, witness: the header of `kubectl top pod` followed by two data lines. -/
theorem parseOutput_header_and_data_lines_witness :
    ∃ ms, parseOutput (joinLines ["NAME CPU(cores) MEMORY(bytes)".toList,
        "nginx-1 5m 10Mi".toList, "nginx-2 3m 8Mi".toList]) "pod".toList "prod".toList
        = some (GoSlice.alloc ms) ∧
      ms.length = 2 ∧
      List.Forall₂ (BuiltFrom "pod".toList "prod".toList)
        ["nginx-1 5m 10Mi".toList, "nginx-2 3m 8Mi".toList] ms :=
  parseOutput_header_and_data_lines _ _ _ _ (by decide) (by decide) (by decide)

/-- C1, counterexample: with an empty header line followed by the one data line `a b c`
(three fields) the text is trimmed first, the data line is taken for the header, and
`parseOutput` returns no record instead of one. -/
theorem parseOutput_blank_header_counterexample :
    (strings.Fields "a b c".toList).length = 3 ∧
      parseOutput (joinLines ["".toList, "a b c".toList]) "pod".toList "default".toList
        = some (GoSlice.alloc []) := by
  decide

/-- C2: for every input text the records correspond one-to-one and in order to the lines
after the header that have at least three fields; lines of fewer fields are skipped without
an error, so the number of records is the number of data lines minus the number of
malformed ones. -/
theorem parseOutput_skips_short_lines (output rt ns : GoString) :
    ∃ ms, parseOutput output rt ns = some (GoSlice.alloc ms) ∧
      List.Forall₂ (BuiltFrom rt ns)
        ((dataLines output).filter (fun l => decide (3 ≤ (strings.Fields l).length))) ms ∧
      ms.length = (dataLines output).length -
        ((dataLines output).filter (fun l => decide ((strings.Fields l).length < 3))).length :=
  ⟨_, parseOutput_eq output rt ns, filterMap_record_forall₂ rt ns _,
    length_filterMap_record rt ns _⟩

/-- C2, the example of the specification: three data lines, one of them malformed, give two
records. -/
theorem parseOutput_three_lines_one_malformed :
    parseOutput "NAME CPU MEMORY\nnginx-1 5m 10Mi\nbroken 7m\nnginx-2 3m 8Mi\n".toList
        "node".toList "prod".toList
      = some (GoSlice.alloc
          [⟨"node".toList, "-".toList, "nginx-1".toList, "5m".toList, "10Mi".toList⟩,
           ⟨"node".toList, "-".toList, "nginx-2".toList, "3m".toList, "8Mi".toList⟩]) := by
  decide

/-- C3: for every data line of at least three fields the record produced has the first field
as name, the second as cpu and the third as memory, each copied as it stands; fields beyond
the third are ignored: appending white space and further fields to such a line, wherever it
stands in the text, leaves the result of `parseOutput` unchanged. -/
theorem parseOutput_field_mapping (rt ns : GoString) :
    (∀ output : GoString, ∃ ms, parseOutput output rt ns = some (GoSlice.alloc ms) ∧
      List.Forall₂
        (fun line m => ∃ f0 f1 f2 more, strings.Fields line = f0 :: f1 :: f2 :: more ∧
          m.Name = f0 ∧ m.CPU = f1 ∧ m.Memory = f2)
        ((dataLines output).filter (fun l => decide (3 ≤ (strings.Fields l).length))) ms) ∧
    (∀ (pre d post' extra : GoString) (sp : Char), '\n' ∉ d →
      3 ≤ (strings.Fields d).length → unicode.IsSpace sp = true → sp ≠ '\n' →
      '\n' ∉ extra → (post' = [] ∨ ∃ post, post' = '\n' :: post) →
      parseOutput (pre ++ '\n' :: ((d ++ sp :: extra) ++ post')) rt ns =
        parseOutput (pre ++ '\n' :: (d ++ post')) rt ns) := by
  constructor
  · intro output
    refine ⟨_, parseOutput_eq output rt ns, ?_⟩
    refine (filterMap_record_forall₂ rt ns (dataLines output)).imp ?_
    rintro line m ⟨f0, f1, f2, more, hf, rfl⟩
    exact ⟨f0, f1, f2, more, hf, rfl, rfl, rfl⟩
  · intro pre d post' extra sp hd h3 hsp hspn hextra hp
    obtain ⟨f, hf⟩ := rows_context rt ns pre post' hp
    have hne : ∃ c ∈ d, unicode.IsSpace c = false :=
      strings.exists_not_space_of_Fields_ne_nil d (fun h => by rw [h] at h3; simp at h3)
    have hd2 : '\n' ∉ d ++ sp :: extra := by
      intro h
      rcases List.mem_append.mp h with h | h
      · exact hd h
      · rcases List.mem_cons.mp h with h | h
        · exact hspn h.symm
        · exact hextra h
    have hne2 : ∃ c ∈ d ++ sp :: extra, unicode.IsSpace c = false := by
      obtain ⟨c, hc, hcs⟩ := hne
      exact ⟨c, List.mem_append_left _ hc, hcs⟩
    rw [parseOutput_eq_rows, parseOutput_eq_rows, hf d hd hne, hf _ hd2 hne2,
      strings.Fields_append_space d extra sp hsp, recordOfFields_append rt ns _ _ h3]

/-- C3, witness: a line `nginx 5m 10Mi` between a header and another line, with and without
two further fields. -/
theorem parseOutput_field_mapping_witness :
    parseOutput "NAME CPU MEM\nnginx 5m 10Mi 99% extra\nother 1m 2Mi".toList "pod".toList
        "prod".toList =
      parseOutput "NAME CPU MEM\nnginx 5m 10Mi\nother 1m 2Mi".toList "pod".toList
        "prod".toList :=
  (parseOutput_field_mapping "pod".toList "prod".toList).2 "NAME CPU MEM".toList
    "nginx 5m 10Mi".toList "\nother 1m 2Mi".toList "99% extra".toList ' '
    (by decide) (by decide) (by decide) (by decide) (by decide)
    (Or.inr ⟨"other 1m 2Mi".toList, rfl⟩)

/-- C4: every record has the queried kind as resource, and as namespace the passed-in
namespace when the kind is `pod` and the sentinel `-` for every other kind, whatever the
input text; and the example of the specification. -/
theorem parseOutput_resource_and_namespace :
    (∀ output rt ns : GoString, ∃ ms, parseOutput output rt ns = some (GoSlice.alloc ms) ∧
      ∀ m ∈ ms, m.Resource = rt ∧ (rt = "pod".toList → m.Namespace = ns) ∧
        (rt ≠ "pod".toList → m.Namespace = "-".toList)) ∧
    parseOutput "NAME CPU(cores) MEMORY(bytes)\nnginx-abc 1m 2Mi".toList "pod".toList
        "default".toList
      = some (GoSlice.alloc
          [⟨"pod".toList, "default".toList, "nginx-abc".toList, "1m".toList, "2Mi".toList⟩]) := by
  refine ⟨fun output rt ns => ⟨_, parseOutput_eq output rt ns, ?_⟩, by decide⟩
  intro m hm
  obtain ⟨l, -, hl⟩ := List.mem_filterMap.mp hm
  match hf : strings.Fields l with
  | f0 :: f1 :: f2 :: more =>
    rw [hf] at hl
    simp only [recordOfFields, Option.some.injEq] at hl
    subst hl
    exact ⟨rfl, fun h => by show namespaceFor rt ns = ns; rw [namespaceFor, if_pos h],
      fun h => by show namespaceFor rt ns = _; rw [namespaceFor, if_neg h]⟩
  | [] => rw [hf] at hl; simp [recordOfFields] at hl
  | [_] => rw [hf] at hl; simp [recordOfFields] at hl
  | [_, _] => rw [hf] at hl; simp [recordOfFields] at hl

/-- C6: `parseOutput` is total and never fails: for every input the slice expression that
drops the first line is in range and a slice is returned; when no line remains after the
header the result is the empty slice, as for the empty string, for a text of white space
only and for a text of a header line only. -/
theorem parseOutput_total (rt ns : GoString) :
    (∀ output : GoString,
      (sliceFrom1 (strings.Split (strings.TrimSpace output) '\n')).isSome = true ∧
      ∃ ms, parseOutput output rt ns = some (GoSlice.alloc ms)) ∧
    (∀ output : GoString, dataLines output = [] →
      parseOutput output rt ns = some (GoSlice.alloc [])) ∧
    parseOutput [] rt ns = some (GoSlice.alloc []) ∧
    (∀ w : GoString, (∀ c ∈ w, unicode.IsSpace c = true) →
      parseOutput w rt ns = some (GoSlice.alloc [])) ∧
    (∀ h : GoString, '\n' ∉ h → parseOutput h rt ns = some (GoSlice.alloc [])) := by
  have hempty : ∀ output : GoString, dataLines output = [] →
      parseOutput output rt ns = some (GoSlice.alloc []) := by
    intro output h
    rw [parseOutput_eq, h]; rfl
  refine ⟨fun output => ⟨?_, _, parseOutput_eq output rt ns⟩, hempty, ?_, ?_, ?_⟩
  · cases h : strings.Split (strings.TrimSpace output) '\n' with
    | nil => exact absurd h (strings.Split_ne_nil _ _)
    | cons l ls => rfl
  · exact hempty [] rfl
  · intro w hw
    apply hempty
    simp [dataLines, TrimSpace_of_all_space w hw, strings.Split]
  · intro h hnl
    apply hempty
    simp [dataLines, strings.Split_of_not_mem _ _ (not_mem_TrimSpace h '\n' hnl)]

/-- C6, witness: a text of white space only and a text of a header line only. -/
theorem parseOutput_total_witness :
    parseOutput " \n\t \n".toList "pod".toList "default".toList = some (GoSlice.alloc []) ∧
    parseOutput "NAME CPU(cores) MEMORY(bytes)".toList "pod".toList "default".toList
      = some (GoSlice.alloc []) :=
  ⟨(parseOutput_total "pod".toList "default".toList).2.2.2.1 _ (by decide),
   (parseOutput_total "pod".toList "default".toList).2.2.2.2 _ (by decide)⟩

/-! ## Part 3, continued: the claims about `exportCSV` -/

theorem plainRows_filterMap (ns : GoString) (ds : List GoString)
    (hds : ∀ d ∈ ds, 3 ≤ (strings.Fields d).length) :
    plainRows (ds.filterMap (fun l => recordOfFields "pod".toList ns (strings.Fields l))) =
      podRows ns ds := by
  induction ds with
  | nil => rfl
  | cons d ds ih =>
    have h3 := hds d (by simp)
    rw [List.filterMap_cons, podRows, podRow]
    match hf : strings.Fields d, h3 with
    | f0 :: f1 :: f2 :: more, _ =>
      have hr : recordOfFields "pod".toList ns (f0 :: f1 :: f2 :: more) =
          some { Resource := "pod".toList, Namespace := ns, Name := f0, CPU := f1,
                 Memory := f2 } := rfl
      rw [hr]
      show plainRows (_ :: _) = _
      rw [plainRows, ih (fun d' hd' => hds d' (by simp [hd']))]

theorem plainField_of_field (line f : GoString) (hf : f ∈ strings.Fields line)
    (h : NoCsvSpecial f ∧ f ≠ ['\\', '.']) : PlainField f := by
  obtain ⟨-, hs⟩ := strings.Fields_no_space line f hf
  refine ⟨h.1, ?_, h.2⟩
  intro c hc
  cases f with
  | nil => simp at hc
  | cons r1 rest =>
    have : c = r1 := by simpa using hc.symm
    subst this
    exact hs c (by simp)

theorem csvText_eq (s : Stream) (ms : List Metric) :
    csvLine (csv.NewWriter s) exportCSV.header ++ csvRows (csv.NewWriter s) ms = csvText ms := by
  rw [csvLine_header _ rfl rfl, csvText]
  congr 1
  apply csvRows_congr <;> rfl

/-- Whatever the stream, when the whole CSV text fits into the buffer of the writer,
`exportCSV` buffers it, never sees an error, and returns after the deferred flush. -/
theorem exportCSV_of_fits (metrics : GoSlice Metric) (world : World)
    (hshort : (utf8.Encode (csvText metrics.toList)).length ≤ bufio.defaultBufSize) :
    exportCSV metrics world =
      ({ stdout :=
          (bufio.Writer.Flush
            { err := none,
              buf := utf8.Encode (csvText metrics.toList),
              size := bufio.defaultBufSize,
              wr := world.stdout }).1.wr,
         stderr := world.stderr }, Outcome.returned) := by
  have hv : csv.validDelim (csv.NewWriter world.stdout).Comma = true := by
    show csv.validDelim ',' = true
    decide
  have hc : (csv.NewWriter world.stdout).Comma.toNat < 0x80 := by
    show ','.toNat < 0x80
    decide
  have hlen := hshort
  rw [← csvText_eq world.stdout, utf8.Encode_append, List.length_append] at hlen
  have hb0 : (csv.NewWriter world.stdout).w.buf = [] := rfl
  have hs0 : (csv.NewWriter world.stdout).w.size = bufio.defaultBufSize := rfl
  have hw := csv.Writer.Write_of_fits (csv.NewWriter world.stdout) exportCSV.header hv hc rfl (by
    rw [hb0, hs0, List.length_nil]
    omega)
  rw [hb0, List.nil_append] at hw
  have hcg : ∀ b : bufio.Writer,
      csvRows { csv.NewWriter world.stdout with w := b } metrics.toList =
        csvRows (csv.NewWriter world.stdout) metrics.toList := by
    intro b
    apply csvRows_congr <;> rfl
  have hl := exportCSVLoop_of_fits metrics.toList
    { csv.NewWriter world.stdout with
      w := { (csv.NewWriter world.stdout).w with
        buf := utf8.Encode (csvLine (csv.NewWriter world.stdout) exportCSV.header) } }
    world.stderr hv hc rfl (by
      rw [hcg]
      exact hlen)
  rw [hcg] at hl
  have h1 : ((csv.NewWriter world.stdout).Write exportCSV.header).2 = none := by rw [hw]
  have h2 : (exportCSVLoop metrics.toList
      ((csv.NewWriter world.stdout).Write exportCSV.header).1 world.stderr).2.2 =
      Outcome.returned := by rw [hw]; exact congrArg (fun r => r.2.2) hl
  rw [exportCSV_of_returned metrics world h1 h2, hw]
  have hl' := hl
  rw [← utf8.Encode_append, csvText_eq] at hl'
  refine congrArg₂ Prod.mk (congrArg₂ World.mk ?_ (congrArg (fun r => r.2.1) hl')) rfl
  exact congrArg (fun r => (csv.Writer.Flush r.1).w.wr) hl'

theorem Stream.Write_rejected (s : Stream) (p : List Byte) (k : Nat) (hroom : s.room = some k)
    (hk : k < p.length) :
    s.Write p = ({ s with written := s.written ++ p.take k, room := some 0 }, k,
      some s.failure) := by
  unfold Stream.Write
  rw [hroom]
  show (if p.length ≤ k then _ else _) = _
  rw [if_neg (by omega)]

theorem Flush_rejected (bytes : List Byte) (size : Nat) (s : Stream) (k : Nat)
    (hroom : s.room = some k) (hk : k < bytes.length) :
    (bufio.Writer.Flush { err := none, buf := bytes, size := size, wr := s }).1.wr =
      { s with written := s.written ++ bytes.take k, room := some 0 } := by
  unfold bufio.Writer.Flush
  have h0 : ¬ bytes.length = 0 := by omega
  simp only [h0, if_false, Stream.Write_rejected s bytes k hroom hk]
  simp

/-- C5, as amended: for a header line with at least one rune that is not white space,
followed by data lines of at least three fields, kind `pod` and a namespace `ns`, where no
field value holds a comma, a double quote, CR or LF, none is the text `\.`, and the
namespace does not begin with white space, `exportCSV` applied to the result of
`parseOutput` writes exactly the line `Resource,Namespace,Name,CPU,Memory` followed by one
line `pod,<ns>,<name>,<cpu>,<memory>` per data line in input order, each ended by a newline,
and nothing else (standard output accepting what is written). -/
theorem pipelineCSV_plain_rows (h : GoString) (ds : List GoString) (ns : GoString)
    (world : World) (hh : ∃ c ∈ h, unicode.IsSpace c = false) (hnl : '\n' ∉ h)
    (hds : ∀ d ∈ ds, '\n' ∉ d ∧ 3 ≤ (strings.Fields d).length)
    (hns : PlainField ns)
    (hfs : ∀ d ∈ ds, ∀ f ∈ (strings.Fields d).take 3, NoCsvSpecial f ∧ f ≠ ['\\', '.'])
    (hout : world.stdout.room = none) :
    pipelineCSV (joinLines (h :: ds)) "pod".toList ns world =
      some ({ stdout := { world.stdout with
                written := world.stdout.written ++
                  utf8.Encode (csvHeaderLine ++ podRows ns ds) },
              stderr := world.stderr }, Outcome.returned) := by
  unfold pipelineCSV
  rw [parseOutput_joinLines h ds _ ns hh hnl (fun d hd => (hds d hd).1), Option.map_some']
  have hp : ∀ m ∈ (GoSlice.alloc (ds.filterMap
      (fun l => recordOfFields "pod".toList ns (strings.Fields l)))).toList,
      ∀ f ∈ m.record, PlainField f := by
    intro m hm f hf
    obtain ⟨d, hd, hrec⟩ := List.mem_filterMap.mp hm
    have h3 := (hds d hd).2
    have hfd := hfs d hd
    match hfl : strings.Fields d, h3 with
    | f0 :: f1 :: f2 :: more, _ =>
      rw [hfl] at hrec hfd
      have hm' : m = (⟨"pod".toList, ns, f0, f1, f2⟩ : Metric) :=
        (Option.some.inj hrec).symm
      subst hm'
      simp only [Metric.record, List.mem_cons, List.mem_singleton, List.not_mem_nil,
        or_false] at hf
      have hmem : ∀ x ∈ [f0, f1, f2], x ∈ strings.Fields d := by
        intro x hx
        rw [hfl]
        simp only [List.mem_cons, List.mem_singleton, List.not_mem_nil, or_false] at hx ⊢
        rcases hx with rfl | rfl | rfl <;> simp
      rcases hf with rfl | rfl | rfl | rfl | rfl
      · exact ⟨by decide, by decide, by decide⟩
      · exact hns
      · exact plainField_of_field d _ (hmem _ (by simp)) (hfd _ (by simp))
      · exact plainField_of_field d _ (hmem _ (by simp)) (hfd _ (by simp))
      · exact plainField_of_field d _ (hmem _ (by simp)) (hfd _ (by simp))
  rw [exportCSV_of_plain _ world hout hp]
  have ht : (GoSlice.alloc (ds.filterMap
      (fun l => recordOfFields "pod".toList ns (strings.Fields l)))).toList =
      ds.filterMap (fun l => recordOfFields "pod".toList ns (strings.Fields l)) := rfl
  rw [ht, plainRows_filterMap ns ds (fun d hd => (hds d hd).2)]

/-- C5, witness: the example of the specification. -/
theorem pipelineCSV_plain_rows_witness :
    pipelineCSV (joinLines ["NAME       CPU(cores)   MEMORY(bytes)".toList,
        "nginx-1    5m           10Mi".toList, "nginx-2    3m           8Mi".toList])
        "pod".toList "prod".toList World.fresh =
      some ({ stdout := { World.fresh.stdout with
                written := World.fresh.stdout.written ++
                  utf8.Encode (csvHeaderLine ++ podRows "prod".toList
                    ["nginx-1    5m           10Mi".toList,
                     "nginx-2    3m           8Mi".toList]) },
              stderr := World.fresh.stderr }, Outcome.returned) ∧
    csvHeaderLine ++ podRows "prod".toList
        ["nginx-1    5m           10Mi".toList, "nginx-2    3m           8Mi".toList] =
      "Resource,Namespace,Name,CPU,Memory\npod,prod,nginx-1,5m,10Mi\npod,prod,nginx-2,3m,8Mi\n".toList :=
  ⟨pipelineCSV_plain_rows _ _ _ _ (by decide) (by decide) (by decide) (by decide) (by decide)
    rfl, by decide⟩

set_option maxRecDepth 100000 in
/-- C5, counterexamples: with an empty header line the only data line is lost; a
namespace that begins with a space is written between quotes; and so is a name `\.`
(none of these values holds a comma, a quote, CR or LF). -/
theorem pipelineCSV_counterexample :
    (pipelineCSV "\nnginx-1 5m 10Mi".toList "pod".toList "prod".toList World.fresh).map
        (fun r => r.1.stdout.written) =
      some (utf8.Encode "Resource,Namespace,Name,CPU,Memory\n".toList) ∧
    (pipelineCSV "NAME CPU MEMORY\nnginx-1 5m 10Mi".toList "pod".toList " prod".toList
        World.fresh).map (fun r => r.1.stdout.written) =
      some (utf8.Encode
        "Resource,Namespace,Name,CPU,Memory\npod,\" prod\",nginx-1,5m,10Mi\n".toList) ∧
    (pipelineCSV "NAME CPU MEMORY\n\\. 5m 10Mi".toList "pod".toList "prod".toList
        World.fresh).map (fun r => r.1.stdout.written) =
      some (utf8.Encode
        "Resource,Namespace,Name,CPU,Memory\npod,prod,\"\\.\",5m,10Mi\n".toList) := by
  decide

/-- C7: the general form of the defect.  When standard output rejects the write and the
whole CSV text fits into the 4096-byte buffer of the writer, no call of `Write` reaches the
stream, the error of the deferred `Flush` is dropped, and `exportCSV` returns as after a
success: nothing is printed to standard error and the process is not ended by `os.Exit(1)`. -/
theorem exportCSV_short_output_hides_write_error (metrics : GoSlice Metric) (world : World)
    (k : Nat) (hroom : world.stdout.room = some k)
    (hshort : (utf8.Encode (csvText metrics.toList)).length ≤ bufio.defaultBufSize)
    (hk : k < (utf8.Encode (csvText metrics.toList)).length) :
    exportCSV metrics world =
      ({ stdout := { world.stdout with
            written := world.stdout.written ++ (utf8.Encode (csvText metrics.toList)).take k,
            room := some 0 },
         stderr := world.stderr }, Outcome.returned) := by
  rw [exportCSV_of_fits metrics world hshort, Flush_rejected _ _ _ k hroom hk]

/-- C7, at the failing input: one record, a standard output that rejects every write.
`exportCSV` returns, standard output has received nothing, standard error is empty. -/
theorem exportCSV_short_output_hides_write_error_witness :
    exportCSV
        (GoSlice.alloc [⟨"pod".toList, "prod".toList, "nginx-1".toList, "5m".toList,
          "10Mi".toList⟩])
        { stdout := { written := [], room := some 0,
                      failure := ⟨"write /dev/stdout: no space left on device".toList⟩ },
          stderr := [] } =
      ({ stdout := { written := [], room := some 0,
                     failure := ⟨"write /dev/stdout: no space left on device".toList⟩ },
         stderr := [] }, Outcome.returned) :=
  exportCSV_short_output_hides_write_error _ _ 0 rfl (by decide) (by decide)

/-- C8: `exportCSV` applied to an empty sequence of records (the nil slice or an allocated
slice without elements) emits exactly the header row `Resource,Namespace,Name,CPU,Memory`,
one line ended by a newline, and nothing else (standard output accepting what is
written). -/
theorem exportCSV_no_records (metrics : GoSlice Metric) (world : World)
    (hm : metrics.toList = []) (hout : world.stdout.room = none) :
    exportCSV metrics world =
      ({ stdout := { world.stdout with
            written := world.stdout.written ++
              utf8.Encode "Resource,Namespace,Name,CPU,Memory\n".toList },
         stderr := world.stderr }, Outcome.returned) := by
  rw [exportCSV_of_plain metrics world hout (by rw [hm]; intro m hm'; cases hm'), hm]
  show _ = ({ stdout := { world.stdout with
    written := world.stdout.written ++ utf8.Encode csvHeaderLine }, stderr := _ }, _)
  rw [plainRows, List.append_nil]

/-- C8, witness: the nil slice and the empty allocated slice, on a fresh standard output. -/
theorem exportCSV_no_records_witness :
    exportCSV GoSlice.nil World.fresh =
      ({ stdout := { World.fresh.stdout with
            written := World.fresh.stdout.written ++
              utf8.Encode "Resource,Namespace,Name,CPU,Memory\n".toList },
         stderr := World.fresh.stderr }, Outcome.returned) ∧
    exportCSV (GoSlice.alloc []) World.fresh =
      ({ stdout := { World.fresh.stdout with
            written := World.fresh.stdout.written ++
              utf8.Encode "Resource,Namespace,Name,CPU,Memory\n".toList },
         stderr := World.fresh.stderr }, Outcome.returned) :=
  ⟨exportCSV_no_records GoSlice.nil World.fresh rfl rfl,
   exportCSV_no_records (GoSlice.alloc []) World.fresh rfl rfl⟩

/-! ## Part 3, continued: the claims about `exportJSON` -/

/-- C9: `exportJSON` applied to an empty sequence of records emits `[]` followed by a
newline (standard output accepting what is written): so it is for the allocated slice
without elements, for what `parseOutput` returns when no data line is valid, for every empty
slice that `getMetrics` returns without an error (the slices `main` hands to `exportJSON`),
and so for the run of `main` with the format `json` when no data line is valid. -/
theorem exportJSON_empty_slice (world : World) (hout : world.stdout.room = none) :
    exportJSON (GoSlice.alloc []) world =
      ({ stdout := { world.stdout with
            written := world.stdout.written ++ utf8.Encode "[]\n".toList },
         stderr := world.stderr }, Outcome.returned) ∧
    (∀ output rt ns : GoString,
      (∀ l ∈ dataLines output, (strings.Fields l).length < 3) →
      parseOutput output rt ns = some (GoSlice.alloc []) ∧
      pipelineJSON output rt ns world =
        some ({ stdout := { world.stdout with
                  written := world.stdout.written ++ utf8.Encode "[]\n".toList },
                stderr := world.stderr }, Outcome.returned)) ∧
    (∀ (rt ns : GoString) (host host2 : exec.Host) (metrics : GoSlice Metric),
      getMetrics rt ns host = some (host2, metrics, none) → metrics.toList = [] →
      exportJSON metrics world =
        ({ stdout := { world.stdout with
              written := world.stdout.written ++ utf8.Encode "[]\n".toList },
           stderr := world.stderr }, Outcome.returned)) ∧
    (∀ (rt ns : GoString) (host : exec.Host),
      (host.respond (kubectlTop rt ns)).2 = none →
      (∀ l ∈ dataLines (host.respond (kubectlTop rt ns)).1, (strings.Fields l).length < 3) →
      main rt ns "json".toList host world =
        some ({ host with ran := host.ran ++ [kubectlTop rt ns] },
          { stdout := { world.stdout with
              written := world.stdout.written ++ utf8.Encode "[]\n".toList },
            stderr := world.stderr }, Outcome.returned)) := by
  have h1 : exportJSON (GoSlice.alloc []) world =
      ({ stdout := { world.stdout with
            written := world.stdout.written ++ utf8.Encode "[]\n".toList },
         stderr := world.stderr }, Outcome.returned) :=
    exportJSON_of_indented (GoSlice.alloc []) world _ (appendIndent_marshal []) hout
  have hnil : ∀ (output rt ns : GoString),
      (∀ l ∈ dataLines output, (strings.Fields l).length < 3) →
      (dataLines output).filterMap (fun l => recordOfFields rt ns (strings.Fields l)) = [] := by
    intro output rt ns hl
    rw [List.filterMap_eq_nil_iff]
    intro l hlm
    exact recordOfFields_of_length_lt rt ns _ (hl l hlm)
  refine ⟨h1, ?_, ?_, ?_⟩
  · intro output rt ns hl
    have hp : parseOutput output rt ns = some (GoSlice.alloc []) := by
      rw [parseOutput_eq, hnil output rt ns hl]
    refine ⟨hp, ?_⟩
    unfold pipelineJSON
    rw [hp, Option.map_some', h1]
  · intro rt ns host host2 metrics hg hm
    obtain ⟨ms, rfl⟩ := getMetrics_alloc rt ns host host2 metrics hg
    have : ms = [] := hm
    subst this
    exact h1
  · intro rt ns host hok hl
    rw [main_of_ok rt ns "json".toList host world hok, if_pos rfl, hnil _ rt ns hl, h1]

/-- C9, witness: the empty allocated slice; a text whose only data line has two fields;
and the run of `main` with the format `json` on a host where `kubectl` prints that text;
all on a fresh standard output. -/
theorem exportJSON_empty_slice_witness :
    exportJSON (GoSlice.alloc []) World.fresh =
      ({ stdout := { World.fresh.stdout with
            written := World.fresh.stdout.written ++ utf8.Encode "[]\n".toList },
         stderr := World.fresh.stderr }, Outcome.returned) ∧
    pipelineJSON "NAME CPU MEMORY\nbroken 7m".toList "pod".toList "prod".toList World.fresh =
      some ({ stdout := { World.fresh.stdout with
                written := World.fresh.stdout.written ++ utf8.Encode "[]\n".toList },
              stderr := World.fresh.stderr }, Outcome.returned) ∧
    main "pod".toList "prod".toList "json".toList
        (exec.Host.printing "NAME CPU MEMORY\nbroken 7m".toList) World.fresh =
      some ({ exec.Host.printing "NAME CPU MEMORY\nbroken 7m".toList with
              ran := (exec.Host.printing "NAME CPU MEMORY\nbroken 7m".toList).ran ++
                [kubectlTop "pod".toList "prod".toList] },
        { stdout := { World.fresh.stdout with
            written := World.fresh.stdout.written ++ utf8.Encode "[]\n".toList },
          stderr := World.fresh.stderr }, Outcome.returned) :=
  ⟨(exportJSON_empty_slice World.fresh rfl).1,
   ((exportJSON_empty_slice World.fresh rfl).2.1 _ _ _ (by decide)).2,
   (exportJSON_empty_slice World.fresh rfl).2.2.2 "pod".toList "prod".toList
     (exec.Host.printing "NAME CPU MEMORY\nbroken 7m".toList) rfl (by decide)⟩

/-- C10, as amended: for every sequence of records whose strings are valid UTF-8,
`exportJSON` emits one JSON array with one object per record in order, each object with the
keys `resource`, `namespace`, `name`, `cpu`, `memory` in this order, the value of each the
JSON string that denotes the field of the record, indented by two spaces per nesting level
(standard output accepting what is written).  The sequences are the allocated slices: a
slice that `getMetrics` returns without an error is never nil. -/
theorem exportJSON_indented_array (bms : List MetricBytes) (world : World)
    (hout : world.stdout.room = none) (hvalid : ∀ m ∈ bms, m.ValidUTF8) :
    (∃ ms : List Metric, bms = ms.map Metric.bytes ∧
      exportJSONBytes (GoSlice.alloc bms) world =
        ({ stdout := { world.stdout with
              written := world.stdout.written ++ utf8.Encode (jsonArrayText ms) },
           stderr := world.stderr }, Outcome.returned) ∧
      exportJSON (GoSlice.alloc ms) world =
        ({ stdout := { world.stdout with
              written := world.stdout.written ++ utf8.Encode (jsonArrayText ms) },
           stderr := world.stderr }, Outcome.returned) ∧
      ∀ m ∈ ms, jsonUnquote (json.quote m.Resource) = some m.Resource ∧
        jsonUnquote (json.quote m.Namespace) = some m.Namespace ∧
        jsonUnquote (json.quote m.Name) = some m.Name ∧
        jsonUnquote (json.quote m.CPU) = some m.CPU ∧
        jsonUnquote (json.quote m.Memory) = some m.Memory) ∧
    (∀ (rt ns : GoString) (host host2 : exec.Host) (metrics : GoSlice Metric),
      getMetrics rt ns host = some (host2, metrics, none) →
      ∃ ms, metrics = GoSlice.alloc ms) := by
  refine ⟨?_, getMetrics_alloc⟩
  obtain ⟨ms, rfl⟩ := exists_texts_of_valid bms hvalid
  have h := exportJSON_of_indented (GoSlice.alloc ms) world _ (appendIndent_marshal ms) hout
  refine ⟨ms, rfl, ?_, h, fun _ _ => ⟨jsonUnquote_quote _, jsonUnquote_quote _,
    jsonUnquote_quote _, jsonUnquote_quote _, jsonUnquote_quote _⟩⟩
  have e := exportJSONBytes_bytes (GoSlice.alloc ms) world
  rw [h] at e
  exact e

set_option maxRecDepth 100000 in
/-- C10, witness: two records of valid UTF-8 strings, on a fresh standard output, with the
text written out. -/
theorem exportJSON_indented_array_witness :
    (∃ ms : List Metric,
      [(⟨utf8.Encode "pod".toList, utf8.Encode "prod".toList, utf8.Encode "nginx-1".toList,
          utf8.Encode "5m".toList, utf8.Encode "10Mi".toList⟩ : MetricBytes),
       ⟨utf8.Encode "pod".toList, utf8.Encode "prod".toList, utf8.Encode "nginx-2".toList,
          utf8.Encode "3m".toList, utf8.Encode "8Mi".toList⟩] = ms.map Metric.bytes ∧
      exportJSONBytes
          (GoSlice.alloc
            [⟨utf8.Encode "pod".toList, utf8.Encode "prod".toList, utf8.Encode "nginx-1".toList,
                utf8.Encode "5m".toList, utf8.Encode "10Mi".toList⟩,
             ⟨utf8.Encode "pod".toList, utf8.Encode "prod".toList, utf8.Encode "nginx-2".toList,
                utf8.Encode "3m".toList, utf8.Encode "8Mi".toList⟩])
          World.fresh =
        ({ stdout := { World.fresh.stdout with
              written := World.fresh.stdout.written ++ utf8.Encode (jsonArrayText ms) },
           stderr := World.fresh.stderr }, Outcome.returned)) ∧
    jsonArrayText
        [⟨"pod".toList, "prod".toList, "nginx-1".toList, "5m".toList, "10Mi".toList⟩,
         ⟨"pod".toList, "prod".toList, "nginx-2".toList, "3m".toList, "8Mi".toList⟩] =
      ("[\n  \x7b\n    \"resource\": \"pod\",\n    \"namespace\": \"prod\",\n" ++
        "    \"name\": \"nginx-1\",\n    \"cpu\": \"5m\",\n    \"memory\": \"10Mi\"\n  \x7d,\n" ++
        "  \x7b\n    \"resource\": \"pod\",\n    \"namespace\": \"prod\",\n" ++
        "    \"name\": \"nginx-2\",\n    \"cpu\": \"3m\",\n    \"memory\": \"8Mi\"\n  \x7d\n]\n").toList :=
  ⟨(fun ⟨ms, h1, h2, _, _⟩ => ⟨ms, h1, h2⟩)
    (exportJSON_indented_array
      [⟨utf8.Encode "pod".toList, utf8.Encode "prod".toList, utf8.Encode "nginx-1".toList,
          utf8.Encode "5m".toList, utf8.Encode "10Mi".toList⟩,
       ⟨utf8.Encode "pod".toList, utf8.Encode "prod".toList, utf8.Encode "nginx-2".toList,
          utf8.Encode "3m".toList, utf8.Encode "8Mi".toList⟩]
      World.fresh rfl
      (by
        intro m hm
        simp only [List.mem_cons, List.mem_singleton, List.not_mem_nil, or_false] at hm
        rcases hm with rfl | rfl
        · exact ⟨⟨_, rfl⟩, ⟨_, rfl⟩, ⟨_, rfl⟩, ⟨_, rfl⟩, ⟨_, rfl⟩⟩
        · exact ⟨⟨_, rfl⟩, ⟨_, rfl⟩, ⟨_, rfl⟩, ⟨_, rfl⟩, ⟨_, rfl⟩⟩)).1,
   by decide⟩

set_option maxRecDepth 100000 in
/-- C10, counterexample: a record whose name is the two bytes `6E FF`, the second of which
is not valid UTF-8 (the name comes from the bytes that `kubectl` prints).  `exportJSON`
writes the name as the letter `n` followed by the escape of U+FFFD; that JSON string denotes
the letter `n` followed by U+FFFD, the four bytes `6E EF BF BD`, which is not the name of
the record. -/
theorem exportJSON_invalid_utf8_counterexample :
    exportJSONBytes
        (GoSlice.alloc
          [⟨utf8.Encode "pod".toList, utf8.Encode "default".toList, [0x6E, 0xFF],
            utf8.Encode "5m".toList, utf8.Encode "10Mi".toList⟩])
        World.fresh =
      ({ stdout := { World.fresh.stdout with
            written := utf8.Encode
              ("[\n  \x7b\n    \"resource\": \"pod\",\n    \"namespace\": \"default\",\n" ++
               "    \"name\": \"n\\ufffd\",\n    \"cpu\": \"5m\",\n" ++
               "    \"memory\": \"10Mi\"\n  \x7d\n]\n").toList },
         stderr := [] }, Outcome.returned) ∧
    jsonUnquote "\"n\\ufffd\"".toList = some ['n', Char.ofNat 0xFFFD] ∧
    utf8.Encode ['n', Char.ofNat 0xFFFD] = [0x6E, 0xEF, 0xBF, 0xBD] ∧
    utf8.Encode ['n', Char.ofNat 0xFFFD] ≠ [0x6E, 0xFF] := by
  decide

/-! ## Part 3, continued: the claims about `getMetrics` and `main` -/

/-- C11, as amended: for every run whose format value is neither `csv` nor `json` and in
which the external command succeeds, `main` writes `Unsupported format: <value>` and a
newline to standard error, ends the process with exit code 1, and leaves standard output as
it was. -/
theorem main_unsupported_format (rt ns format : GoString) (host : exec.Host) (world : World)
    (hj : format ≠ "json".toList) (hc : format ≠ "csv".toList)
    (hok : (host.respond (kubectlTop rt ns)).2 = none) :
    main rt ns format host world =
      some ({ host with ran := host.ran ++ [kubectlTop rt ns] },
        { stdout := world.stdout,
          stderr := world.stderr ++ "Unsupported format: ".toList ++ format ++ "\n".toList },
        Outcome.exited 1) := by
  rw [main_of_ok rt ns format host world hok, if_neg hj, if_neg hc]

/-- C11, witness: the advertised format `yaml`, the command printing a header and one
line. -/
theorem main_unsupported_format_witness :
    main "pod".toList "default".toList "yaml".toList
        (exec.Host.printing "NAME CPU MEMORY\nnginx-1 5m 10Mi\n".toList) World.fresh =
      some ({ exec.Host.printing "NAME CPU MEMORY\nnginx-1 5m 10Mi\n".toList with
              ran := (exec.Host.printing "NAME CPU MEMORY\nnginx-1 5m 10Mi\n".toList).ran ++
                [kubectlTop "pod".toList "default".toList] },
        { stdout := World.fresh.stdout,
          stderr := World.fresh.stderr ++ "Unsupported format: ".toList ++ "yaml".toList ++
            "\n".toList },
        Outcome.exited 1) :=
  main_unsupported_format _ _ _ _ _ (by decide) (by decide) rfl

/-- C11, counterexample: with the format `yaml` and an external command that fails, `main`
collects the metrics first and ends with the diagnostic of the collection error; the
unrecognized format is never reported. -/
theorem main_unsupported_format_counterexample :
    "yaml".toList ≠ "csv".toList ∧ "yaml".toList ≠ "json".toList ∧
    (main "pod".toList "default".toList "yaml".toList
        (exec.Host.failing ⟨"exit status 1".toList⟩) World.fresh).map (fun r => r.2) =
      some ({ stdout := World.fresh.stdout,
              stderr := "Error getting metrics: exit status 1\n".toList },
        Outcome.exited 1) := by
  decide

/-- C12: for every resource kind and namespace `getMetrics` hands exactly one command to
the host, the command `kubectl` with the argument list `kubectl top <kind> -n <namespace>`
when the kind is `pod` and `kubectl top <kind>` for every other kind. -/
theorem getMetrics_argument_list (rt ns : GoString) (host : exec.Host) :
    ∃ host' result, getMetrics rt ns host = some (host', result) ∧
      host'.respond = host.respond ∧
      host'.ran = host.ran ++
        [{ Path := "kubectl".toList,
           Args :=
             if rt = "pod".toList then
               ["kubectl".toList, "top".toList, rt, "-n".toList, ns]
             else ["kubectl".toList, "top".toList, rt] }] :=
  ⟨_, _, getMetrics_eq rt ns host, rfl, rfl⟩

/-- C12, examples: the argument lists for the kind `pod` with the namespace `prod` and for
the kind `node`. -/
theorem getMetrics_argument_list_examples :
    ((getMetrics "pod".toList "prod".toList (exec.Host.printing [])).map
        (fun r => r.1.ran.map exec.Cmd.Args)) =
      some [["kubectl".toList, "top".toList, "pod".toList, "-n".toList, "prod".toList]] ∧
    ((getMetrics "node".toList "prod".toList (exec.Host.printing [])).map
        (fun r => r.1.ran.map exec.Cmd.Args)) =
      some [["kubectl".toList, "top".toList, "node".toList]] := by
  decide

/-- C14: when the external command fails, `getMetrics` returns the error and the nil slice,
and `main`, for every format value, writes `Error getting metrics: <error>` and a newline to
standard error and ends the process with exit code 1; standard output is left as it was (no
exporter runs). -/
theorem main_collection_error (rt ns format : GoString) (host : exec.Host) (world : World)
    (err : GoError) (h : (host.respond (kubectlTop rt ns)).2 = some err) :
    getMetrics rt ns host =
      some ({ host with ran := host.ran ++ [kubectlTop rt ns] }, GoSlice.nil, some err) ∧
    main rt ns format host world =
      some ({ host with ran := host.ran ++ [kubectlTop rt ns] },
        { stdout := world.stdout,
          stderr := world.stderr ++ "Error getting metrics: ".toList ++ err.text ++ "\n".toList },
        Outcome.exited 1) := by
  refine ⟨?_, main_of_error rt ns format host world err h⟩
  rw [getMetrics_eq, h]

/-- C14, witness: `kubectl` is not found, the format is `json`. -/
theorem main_collection_error_witness :
    getMetrics "pod".toList "default".toList
        (exec.Host.failing ⟨"exec: \"kubectl\": executable file not found in $PATH".toList⟩) =
      some ({ exec.Host.failing
                ⟨"exec: \"kubectl\": executable file not found in $PATH".toList⟩ with
              ran := (exec.Host.failing
                ⟨"exec: \"kubectl\": executable file not found in $PATH".toList⟩).ran ++
                  [kubectlTop "pod".toList "default".toList] },
        GoSlice.nil,
        some ⟨"exec: \"kubectl\": executable file not found in $PATH".toList⟩) ∧
    main "pod".toList "default".toList "json".toList
        (exec.Host.failing ⟨"exec: \"kubectl\": executable file not found in $PATH".toList⟩)
        World.fresh =
      some ({ exec.Host.failing
                ⟨"exec: \"kubectl\": executable file not found in $PATH".toList⟩ with
              ran := (exec.Host.failing
                ⟨"exec: \"kubectl\": executable file not found in $PATH".toList⟩).ran ++
                  [kubectlTop "pod".toList "default".toList] },
        { stdout := World.fresh.stdout,
          stderr := World.fresh.stderr ++ "Error getting metrics: ".toList ++
            (⟨"exec: \"kubectl\": executable file not found in $PATH".toList⟩ : GoError).text ++
            "\n".toList },
        Outcome.exited 1) :=
  main_collection_error _ _ _ _ _ _ rfl

/-! ## Part 3, continued: further claims about the parser -/

/-- C15, as amended: for every header line that contains no newline and at least one rune
that is not white space, and for every body text, `parseOutput` of header, newline and body
is the list of the records of the lines of the body alone; so any two such headers give the
same result for the same body. -/
theorem parseOutput_header_independent (h b rt ns : GoString) (hnl : '\n' ∉ h)
    (hh : ∃ c ∈ h, unicode.IsSpace c = false) :
    parseOutput (h ++ '\n' :: b) rt ns = some (GoSlice.alloc
      ((strings.Split b '\n').filterMap
        (fun l => recordOfFields rt ns (strings.Fields l)))) ∧
    ∀ h2 : GoString, '\n' ∉ h2 → (∃ c ∈ h2, unicode.IsSpace c = false) →
      parseOutput (h2 ++ '\n' :: b) rt ns = parseOutput (h ++ '\n' :: b) rt ns := by
  refine ⟨parseOutput_header_body h b rt ns hnl hh, ?_⟩
  intro h2 hnl2 hh2
  rw [parseOutput_header_body h b rt ns hnl hh, parseOutput_header_body h2 b rt ns hnl2 hh2]

/-- C15, witness: the header of `kubectl top` and another header before a body of two
lines. -/
theorem parseOutput_header_independent_witness :
    parseOutput ("NAME CPU(cores) MEMORY(bytes)".toList ++ '\n' :: "a 1m 2Mi\nb 3m 4Mi".toList)
        "pod".toList "prod".toList =
      some (GoSlice.alloc
        ((strings.Split "a 1m 2Mi\nb 3m 4Mi".toList '\n').filterMap
          (fun l => recordOfFields "pod".toList "prod".toList (strings.Fields l)))) ∧
    parseOutput ("x".toList ++ '\n' :: "a 1m 2Mi\nb 3m 4Mi".toList) "pod".toList "prod".toList =
      parseOutput ("NAME CPU(cores) MEMORY(bytes)".toList ++ '\n' :: "a 1m 2Mi\nb 3m 4Mi".toList)
        "pod".toList "prod".toList :=
  ⟨(parseOutput_header_independent "NAME CPU(cores) MEMORY(bytes)".toList
      "a 1m 2Mi\nb 3m 4Mi".toList "pod".toList "prod".toList (by decide) (by decide)).1,
   (parseOutput_header_independent "NAME CPU(cores) MEMORY(bytes)".toList
      "a 1m 2Mi\nb 3m 4Mi".toList "pod".toList "prod".toList (by decide) (by decide)).2
      "x".toList (by decide) (by decide)⟩

/-- C15, counterexample: the empty header and the header `NAME`, neither with a newline,
before the same body of two lines give different results: the text is trimmed first, so
after the empty header the first line of the body is the one dropped. -/
theorem parseOutput_header_counterexample :
    '\n' ∉ "".toList ∧ '\n' ∉ "NAME".toList ∧
    parseOutput ("".toList ++ '\n' :: "a 1m 2Mi\nb 3m 4Mi".toList) "pod".toList "prod".toList =
      some (GoSlice.alloc
        [⟨"pod".toList, "prod".toList, "b".toList, "3m".toList, "4Mi".toList⟩]) ∧
    parseOutput ("NAME".toList ++ '\n' :: "a 1m 2Mi\nb 3m 4Mi".toList) "pod".toList
        "prod".toList =
      some (GoSlice.alloc
        [⟨"pod".toList, "prod".toList, "a".toList, "1m".toList, "2Mi".toList⟩,
         ⟨"pod".toList, "prod".toList, "b".toList, "3m".toList, "4Mi".toList⟩]) := by
  decide

/-- C16: for every input text, kind and namespace, every record that `parseOutput` returns
has a non-empty name, cpu and memory, none of them holding a white-space rune; the three
are the first three fields (`strings.Fields`) of one line after the header. -/
theorem parseOutput_tokens (output rt ns : GoString) :
    ∃ ms, parseOutput output rt ns = some (GoSlice.alloc ms) ∧
      ∀ m ∈ ms,
        (m.Name ≠ [] ∧ ∀ c ∈ m.Name, unicode.IsSpace c = false) ∧
        (m.CPU ≠ [] ∧ ∀ c ∈ m.CPU, unicode.IsSpace c = false) ∧
        (m.Memory ≠ [] ∧ ∀ c ∈ m.Memory, unicode.IsSpace c = false) ∧
        ∃ line ∈ dataLines output, BuiltFrom rt ns line m := by
  refine ⟨_, parseOutput_eq output rt ns, ?_⟩
  intro m hm
  obtain ⟨line, hline, hrec⟩ := List.mem_filterMap.mp hm
  obtain ⟨f0, f1, f2, more, hf, rfl⟩ := recordOfFields_eq_some rt ns _ m hrec
  have htok := strings.Fields_no_space line
  rw [hf] at htok
  exact ⟨htok f0 (by simp), htok f1 (by simp), htok f2 (by simp), line, hline,
    f0, f1, f2, more, hf, rfl⟩

/-- C17: white space (runes for which `unicode.IsSpace` holds, among them space, tab and
newline) before and after the whole text does not change the result of `parseOutput`; in
particular a newline after the last line adds no record. -/
theorem parseOutput_surrounding_whitespace (s w1 w2 rt ns : GoString)
    (h1 : ∀ c ∈ w1, unicode.IsSpace c = true) (h2 : ∀ c ∈ w2, unicode.IsSpace c = true) :
    parseOutput (w1 ++ s ++ w2) rt ns = parseOutput s rt ns ∧
    parseOutput (s ++ ['\n']) rt ns = parseOutput s rt ns := by
  refine ⟨parseOutput_pad s w1 w2 rt ns h1 h2, ?_⟩
  have h := parseOutput_pad s [] ['\n'] rt ns (fun c hc => by cases hc)
    (fun c hc => by
      have : c = '\n' := by simpa using hc
      subst this
      decide)
  simpa using h

/-- C17, witness: newlines, tabs and spaces around a text of a header and two lines. -/
theorem parseOutput_surrounding_whitespace_witness :
    parseOutput ("\n\t ".toList ++ "NAME CPU MEM\na 1m 2Mi\nb 3m 4Mi".toList ++ " \t\n\n".toList)
        "pod".toList "prod".toList =
      parseOutput "NAME CPU MEM\na 1m 2Mi\nb 3m 4Mi".toList "pod".toList "prod".toList ∧
    parseOutput ("NAME CPU MEM\na 1m 2Mi\nb 3m 4Mi".toList ++ ['\n']) "pod".toList
        "prod".toList =
      parseOutput "NAME CPU MEM\na 1m 2Mi\nb 3m 4Mi".toList "pod".toList "prod".toList :=
  parseOutput_surrounding_whitespace _ _ _ _ _ (by decide) (by decide)

/-! ## Part 3, continued: the claim about CSV quoting -/

/-- The CSV text of `exportCSV` denotes the header record followed by the records of the
metrics, each of five fields, in order. -/
theorem read_csvText (ms : List Metric) :
    rfc4180.read (csvText ms) = some (exportCSV.header :: ms.map Metric.record) := by
  have hw := csvText_eq World.fresh.stdout ms
  have hh := rfc4180.run_csvLine (csv.NewWriter World.fresh.stdout) rfl rfl []
    "Resource".toList ["Namespace".toList, "Name".toList, "CPU".toList, "Memory".toList]
  have hr := rfc4180.run_csvRows (csv.NewWriter World.fresh.stdout) rfl rfl
    [exportCSV.header] ms
  have hrun : rfc4180.run ⟨[], [], [], rfc4180.Mode.fieldStart⟩ (csvText ms) =
      some ⟨exportCSV.header :: ms.map Metric.record, [], [], rfc4180.Mode.fieldStart⟩ := by
    rw [← hw, rfc4180.run_append]
    have hh2 : rfc4180.run ⟨[], [], [], rfc4180.Mode.fieldStart⟩
        (csvLine (csv.NewWriter World.fresh.stdout) exportCSV.header) =
        some ⟨[exportCSV.header], [], [], rfc4180.Mode.fieldStart⟩ := hh
    rw [hh2, Option.some_bind]
    exact hr
  unfold rfc4180.read
  rw [hrun]
  rfl

theorem fieldNeedsQuotes_of_special (w : csv.Writer) (hc : w.Comma = ',') (f : GoString)
    (h : ',' ∈ f ∨ '"' ∈ f) : w.fieldNeedsQuotes f = true := by
  unfold csv.Writer.fieldNeedsQuotes
  have hne : f ≠ [] := by
    rintro rfl
    rcases h with h | h <;> cases h
  rw [if_neg hne]
  by_cases h2 : f = ['\\', '.']
  · rw [if_pos h2]
  · rw [if_neg h2]
    have hany : f.any (fun c => c == '\n' || c == '\r' || c == '"' || c == w.Comma) = true := by
      rw [List.any_eq_true]
      rcases h with h | h
      · exact ⟨',', h, by simp [hc]⟩
      · exact ⟨'"', h, by simp⟩
    rw [hany, if_pos rfl]

theorem csvLine_record (w : csv.Writer) (hc : w.Comma = ',') (hu : w.UseCRLF = false)
    (m : Metric) :
    csvLine w m.record =
      csvField w m.Resource ++ ',' :: (csvField w m.Namespace ++ ',' :: (csvField w m.Name ++
        ',' :: (csvField w m.CPU ++ ',' :: (csvField w m.Memory ++ ['\n'])))) := by
  simp [csvLine, csvFields, Metric.record, hc, hu]

/-- C13: `exportCSV` writes, for every record, the line of its five field texts separated
by commas, a field that holds a comma or a double quote being written between double quotes
with every double quote in it doubled; read back as standard CSV (RFC 4180), the text
written denotes the header followed by one record per metric, each of exactly the five
fields resource, namespace, name, cpu and memory of the metric (standard output accepting
what is written). -/
theorem exportCSV_standard_quoting (metrics : GoSlice Metric) (world : World)
    (hout : world.stdout.room = none) :
    exportCSV metrics world =
      ({ stdout := { world.stdout with
            written := world.stdout.written ++ utf8.Encode (csvText metrics.toList) },
         stderr := world.stderr }, Outcome.returned) ∧
    csvText metrics.toList =
      csvHeaderLine ++ csvRows (csv.NewWriter World.fresh.stdout) metrics.toList ∧
    (∀ m : Metric,
      csvLine (csv.NewWriter World.fresh.stdout) m.record =
        csvField (csv.NewWriter World.fresh.stdout) m.Resource ++ ',' ::
          (csvField (csv.NewWriter World.fresh.stdout) m.Namespace ++ ',' ::
            (csvField (csv.NewWriter World.fresh.stdout) m.Name ++ ',' ::
              (csvField (csv.NewWriter World.fresh.stdout) m.CPU ++ ',' ::
                (csvField (csv.NewWriter World.fresh.stdout) m.Memory ++ ['\n']))))) ∧
    (∀ f : GoString, (',' ∈ f ∨ '"' ∈ f) →
      csvField (csv.NewWriter World.fresh.stdout) f = csvQuoted f) ∧
    rfc4180.read (csvText metrics.toList) =
      some (exportCSV.header :: metrics.toList.map
        (fun m => [m.Resource, m.Namespace, m.Name, m.CPU, m.Memory])) := by
  refine ⟨?_, rfl, ?_, ?_, read_csvText metrics.toList⟩
  · rw [exportCSV_of_Good metrics world hout, csvText_eq]
  · intro m
    exact csvLine_record _ rfl rfl m
  · intro f hf
    rw [rfc4180.csvField_eq _ rfl, if_pos (fieldNeedsQuotes_of_special _ rfl f hf)]

set_option maxRecDepth 100000 in
/-- C13, witness: a record whose namespace holds a comma and whose name holds a double
quote, on a fresh standard output, with the text written out. -/
theorem exportCSV_standard_quoting_witness :
    exportCSV
        (GoSlice.alloc [⟨"pod".toList, "a,b".toList, "x\"y".toList, "5m".toList, "10Mi".toList⟩])
        World.fresh =
      ({ stdout := { World.fresh.stdout with
            written := World.fresh.stdout.written ++ utf8.Encode (csvText
              [⟨"pod".toList, "a,b".toList, "x\"y".toList, "5m".toList, "10Mi".toList⟩]) },
         stderr := World.fresh.stderr }, Outcome.returned) ∧
    csvText [⟨"pod".toList, "a,b".toList, "x\"y".toList, "5m".toList, "10Mi".toList⟩] =
      "Resource,Namespace,Name,CPU,Memory\npod,\"a,b\",\"x\"\"y\",5m,10Mi\n".toList ∧
    rfc4180.read
        "Resource,Namespace,Name,CPU,Memory\npod,\"a,b\",\"x\"\"y\",5m,10Mi\n".toList =
      some [["Resource".toList, "Namespace".toList, "Name".toList, "CPU".toList,
              "Memory".toList],
            ["pod".toList, "a,b".toList, "x\"y".toList, "5m".toList, "10Mi".toList]] :=
  ⟨(exportCSV_standard_quoting
      (GoSlice.alloc [⟨"pod".toList, "a,b".toList, "x\"y".toList, "5m".toList, "10Mi".toList⟩])
      World.fresh rfl).1, by decide, by decide⟩

end Kubeplugin
